import Mathlib

/-!
A shallow embedding of the core components of a pedagogical disk-oriented
DBMS: the extendible hash table used as the buffer pool's page table, the
LRU-K replacer, the buffer pool manager's unpin path, the two-phase lock
manager together with its deadlock detector, and the B+ tree index.

Conventions used throughout:
* C++ `std::vector` / `std::list` become Lean `List`s.  An out-of-range
  `vector::at` and a failing `assert` are modelled by an `Option`/`Except`
  failure value; `.ok` / `.some` results correspond to runs in which every
  assertion passed.
* Machine integers hold small non-negative counts here, so `Nat` is used,
  except where a value can go negative (pin counts), where `Int` is used.
* `std::hash<int>` is the identity in the reference implementation's standard
  library, so the hash-table embedding hashes a key to itself.
-/

namespace BusTubSpec

/-! ## Extendible hash table (`extendible_hash_table.cpp`) -/

/-- One bucket of the extendible hash table, from
`ExtendibleHashTable::Bucket`: a capacity (`size_`), a local depth (`depth_`)
and the stored pairs (`list_`), specialised to the `int` key/value
instantiation. -/
structure Bucket where
  size : Nat
  depth : Nat
  items : List (Nat × Nat)
deriving Repr, DecidableEq

instance : Inhabited Bucket := ⟨⟨0, 0, []⟩⟩

/-- The scan of `Bucket::Find`: first pair with a matching key. -/
def Bucket.FindList : List (Nat × Nat) → Nat → Option Nat
  | [], _ => none
  | kv :: rest, key => if kv.1 = key then some kv.2 else Bucket.FindList rest key

/-- `Bucket::Find`. -/
def Bucket.Find (b : Bucket) (key : Nat) : Option Nat :=
  Bucket.FindList b.items key

/-- The scan of `Bucket::Insert`: overwrite in place when the key is found
(returning `false`), otherwise append the new pair at the back (returning
`true`). -/
def Bucket.InsertList : List (Nat × Nat) → Nat → Nat → List (Nat × Nat) × Bool
  | [], key, value => ([(key, value)], true)
  | kv :: rest, key, value =>
      if kv.1 = key then ((kv.1, value) :: rest, false)
      else
        let r := Bucket.InsertList rest key value
        (kv :: r.1, r.2)

/-- `Bucket::Insert`. -/
def Bucket.Insert (b : Bucket) (key value : Nat) : Bucket × Bool :=
  let r := Bucket.InsertList b.items key value
  ({ b with items := r.1 }, r.2)

/-- Modelled from the spec: `Bucket::IsFull` is declared only in the missing
header `extendible_hash_table.h`; per the spec a bucket is full when it holds
`bucket_size` items. -/
def Bucket.IsFull (b : Bucket) : Bool :=
  b.size ≤ b.items.length

/-- The extendible hash table of `extendible_hash_table.cpp` (the version
whose directory is the `buckets_` vector of `shared_ptr<Bucket>`).  Sharing of
one bucket by several directory entries is modelled by `dir` holding indices
into the `store` of distinct bucket objects. -/
structure ExtendibleHashTable where
  globalDepth : Nat
  bucketSize : Nat
  numBuckets : Nat
  numDirs : Nat
  dir : List Nat
  store : List Bucket
deriving Repr, DecidableEq

/-- The constructor `ExtendibleHashTable(bucket_size)`. -/
def ExtendibleHashTable.new (bucketSize : Nat) : ExtendibleHashTable :=
  { globalDepth := 0, bucketSize := bucketSize, numBuckets := 1, numDirs := 1,
    dir := [0], store := [{ size := bucketSize, depth := 0, items := [] }] }

/-- `ExtendibleHashTable::IndexOf`: `std::hash<int>()(key) & ((1 << global_depth_) - 1)`,
with `std::hash<int>` the identity. -/
def ExtendibleHashTable.IndexOf (t : ExtendibleHashTable) (key : Nat) : Nat :=
  key &&& ((1 <<< t.globalDepth) - 1)

/-- The bucket the directory maps a given directory index to. -/
def ExtendibleHashTable.bucketAt (t : ExtendibleHashTable) (i : Nat) : Bucket :=
  t.store.getD (t.dir.getD i 0) default

/-- `ExtendibleHashTable::Find`. -/
def ExtendibleHashTable.Find (t : ExtendibleHashTable) (key : Nat) : Option Nat :=
  Bucket.Find (t.bucketAt (t.IndexOf key)) key

/-- `ExtendibleHashTable::Remove`. -/
def ExtendibleHashTable.Remove (t : ExtendibleHashTable) (key : Nat) :
    ExtendibleHashTable × Bool :=
  let bid := t.dir.getD (t.IndexOf key) 0
  let b := t.store.getD bid default
  match Bucket.Find b key with
  | none => (t, false)
  | some _ =>
      let b2 := { b with items := b.items.filter (fun kv => kv.1 != key) }
      ({ t with store := t.store.set bid b2 }, true)

/-- `ExtendibleHashTable::IncreseDirectory` (the source's spelling): append a
copy of the current directory, doubling `num_dirs_`. -/
def ExtendibleHashTable.IncreseDirectory (t : ExtendibleHashTable) : ExtendibleHashTable :=
  { t with numDirs := t.numDirs * 2, dir := t.dir ++ t.dir }

/-- The directory-rewiring loop at the end of
`ExtendibleHashTable::HandleFullBucket`: starting from `(high_bit - 1) & index`
and stepping by `high_bit = 1 << ld`, point each directory slot at the sibling
when its `high_bit` is set and at the original bucket otherwise. -/
def updateDir (dir : List Nat) (bid nbid ld numDirs i : Nat) : List Nat :=
  if _h : i < numDirs then
    updateDir (dir.set i (if i &&& (1 <<< ld) ≠ 0 then nbid else bid)) bid nbid ld numDirs
      (i + (1 <<< ld))
  else dir
termination_by numDirs - i
decreasing_by
  have hpos : 0 < 1 <<< ld := by simp [Nat.shiftLeft_eq]
  omega

/-- `ExtendibleHashTable::HandleFullBucket`: insert into the (full) bucket,
bump its local depth, double the directory if needed, allocate the sibling,
redistribute by the new bit, and rewire the directory. -/
def ExtendibleHashTable.HandleFullBucket (t : ExtendibleHashTable)
    (index key value : Nat) : ExtendibleHashTable :=
  let bid := t.dir.getD index 0
  let b := t.store.getD bid default
  let localDepth := b.depth
  let highBit := 1 <<< localDepth
  let b := { b with items := (Bucket.InsertList b.items key value).1,
                    depth := localDepth + 1 }
  let t1 := { t with store := t.store.set bid b }
  let t2 := if localDepth = t1.globalDepth then
      { t1.IncreseDirectory with globalDepth := t1.globalDepth + 1 }
    else t1
  let nbid := t2.store.length
  let moved := b.items.filter (fun kv => (highBit &&& t2.IndexOf kv.1) != 0)
  let kept := b.items.filter (fun kv => (highBit &&& t2.IndexOf kv.1) == 0)
  let nb : Bucket := { size := t2.bucketSize, depth := localDepth + 1, items := moved }
  let t3 := { t2 with store := (t2.store.set bid { b with items := kept }) ++ [nb] }
  { t3 with dir := updateDir t3.dir bid nbid localDepth t3.numDirs ((highBit - 1) &&& index) }

/-- `ExtendibleHashTable::Insert`: if the key is already present the function
returns at once (the overwriting `Bucket::Insert` is never reached); else
append when there is room; else split via `HandleFullBucket`. -/
def ExtendibleHashTable.Insert (t : ExtendibleHashTable) (key value : Nat) :
    ExtendibleHashTable :=
  let i := t.IndexOf key
  let bid := t.dir.getD i 0
  let b := t.store.getD bid default
  if (Bucket.Find b key).isSome then t
  else if ¬ b.IsFull then
    let b2 := { b with items := (Bucket.InsertList b.items key value).1 }
    { t with store := t.store.set bid b2 }
  else t.HandleFullBucket i key value

/-- A one-bucket table holding the single pair `(5, 10)`. -/
def eht0 : ExtendibleHashTable :=
  { globalDepth := 0, bucketSize := 2, numBuckets := 1, numDirs := 1,
    dir := [0], store := [{ size := 2, depth := 0, items := [(5, 10)] }] }

/-- C3 counterexample: with the single pair `(5, 10)` stored, `insert(5, 20)`
does not overwrite the value — a subsequent `find(5)` still yields `10`, not
`20` — because `ExtendibleHashTable::Insert` returns as soon as
`Bucket::Find` reports the key present. -/
theorem Insert_overwrite_counterexample :
    eht0.Find 5 = some 10 ∧
    (eht0.Insert 5 20).Find 5 = some 10 ∧
    ¬ (eht0.Insert 5 20).Find 5 = some 20 := by
  decide

/-- C3 (amended): for every key already present in the extendible hash table,
`insert(k, v)` returns at once leaving the whole table unchanged — the stored
value is not overwritten, a subsequent `find(k)` yields the old value, and no
bucket split or directory change occurs. -/
theorem Insert_present_key_is_noop (t : ExtendibleHashTable) (key value : Nat)
    (h : (t.Find key).isSome) : t.Insert key value = t := by
  have h2 : (Bucket.Find (t.store.getD (t.dir.getD (t.IndexOf key) 0) default) key).isSome
      = true := h
  unfold ExtendibleHashTable.Insert
  simp only [h2, if_true]

/-- C3 witness: the amended no-overwrite theorem applied to the concrete
one-bucket table. -/
theorem Insert_present_key_is_noop_witness :
    (eht0.Find 5).isSome ∧ eht0.Insert 5 20 = eht0 :=
  ⟨by decide, Insert_present_key_is_noop eht0 5 20 (by decide)⟩

/-! ## LRU-K replacer (`lru_k_replacer.cpp`, the two-partition version) -/

/-- `LRUKReplacer::Frame`: the retained access timestamps (oldest first) and
the evictable flag. -/
structure LRUKFrame where
  timestamps : List Nat
  evictable : Bool
deriving Repr, DecidableEq

instance : Inhabited LRUKFrame := ⟨⟨[], false⟩⟩

/-- `Frame::AddTimeStamp`: push the new timestamp at the back and drop the
oldest when more than `k` are retained. -/
def LRUKFrame.AddTimeStamp (k : Nat) (f : LRUKFrame) (timestamp : Nat) : LRUKFrame :=
  let l := f.timestamps ++ [timestamp]
  { f with timestamps := if k < l.length then l.tail else l }

/-- Modelled from the spec: `Frame::GetTimeStamp` is declared only in the
missing header `lru_k_replacer.h`.  Per the spec the eviction key of a frame
is the oldest retained timestamp: the oldest of the last `k` accesses when at
least `k` exist, and the oldest overall access otherwise.  `AddTimeStamp`
retains exactly the most recent `≤ k` timestamps, so the key is the head of
the retained list. -/
def LRUKFrame.GetTimeStamp (f : LRUKFrame) : Nat :=
  f.timestamps.headD 0

/-- `LRUKReplacer`: the per-frame records (`frames_`), the partition of the
evictable frames into those with fewer than `k` accesses (`less_than_k_`) and
those with exactly `k` (`equal_to_k_`), the evictable count (`curr_size_`)
and the global timestamp counter. -/
structure LRUKReplacer where
  k : Nat
  frames : List LRUKFrame
  lessThanK : List Nat
  equalToK : List Nat
  currSize : Nat
  currentTimestamp : Nat
deriving Repr, DecidableEq

instance : Inhabited LRUKReplacer := ⟨⟨0, [], [], [], 0, 0⟩⟩

/-- The constructor `LRUKReplacer(num_frames, k)`. -/
def LRUKReplacer.new (numFrames k : Nat) : LRUKReplacer :=
  { k := k, frames := List.replicate numFrames default, lessThanK := [],
    equalToK := [], currSize := 0, currentTimestamp := 0 }

/-- `LRUKReplacer::RecordAccess`.  `none` models `vector::at` throwing or the
`assert(found)` failing. -/
def LRUKReplacer.RecordAccess (r : LRUKReplacer) (frameId : Nat) : Option LRUKReplacer :=
  match r.frames[frameId]? with
  | none => none
  | some f =>
      let bef := f.timestamps.length
      let f2 := LRUKFrame.AddTimeStamp r.k f r.currentTimestamp
      let aft := f2.timestamps.length
      let r2 := { r with frames := r.frames.set frameId f2,
                         currentTimestamp := r.currentTimestamp + 1 }
      if ¬ f.evictable then some r2
      else if bef < r.k ∧ aft = r.k then
        if frameId ∈ r.lessThanK then
          some { r2 with lessThanK := r2.lessThanK.erase frameId,
                         equalToK := r2.equalToK ++ [frameId] }
        else none
      else some r2

/-- `LRUKReplacer::SetEvictable`. -/
def LRUKReplacer.SetEvictable (r : LRUKReplacer) (frameId : Nat) (setEvictable : Bool) :
    Option LRUKReplacer :=
  match r.frames[frameId]? with
  | none => none
  | some f =>
      if f.evictable = setEvictable then some r
      else
        let f2 := { f with evictable := setEvictable }
        let r2 := { r with frames := r.frames.set frameId f2 }
        if setEvictable then
          if f.timestamps.length < r.k then
            some { r2 with currSize := r2.currSize + 1,
                           lessThanK := r2.lessThanK ++ [frameId] }
          else
            some { r2 with currSize := r2.currSize + 1,
                           equalToK := r2.equalToK ++ [frameId] }
        else
          if f.timestamps.length < r.k then
            if frameId ∈ r.lessThanK then
              some { r2 with currSize := r2.currSize - 1,
                             lessThanK := r2.lessThanK.erase frameId }
            else none
          else
            if frameId ∈ r.equalToK then
              some { r2 with currSize := r2.currSize - 1,
                             equalToK := r2.equalToK.erase frameId }
            else none

/-- The frame record of a given frame id (`frames_.at(i)`). -/
def LRUKReplacer.frameAt (r : LRUKReplacer) (i : Nat) : LRUKFrame :=
  r.frames.getD i default

/-- The comparison key used by the eviction loop:
`frames_.at(vec.at(n))->GetTimeStamp()`. -/
def scanKey (r : LRUKReplacer) (vec : List Nat) (n : Nat) : Nat :=
  (r.frameAt (vec.getD n 0)).GetTimeStamp

/-- The argmin loop inside `LRUKReplacer::Evict` (`for (int j = 1; ...)`),
keeping the index of the smallest `GetTimeStamp`.  It is rendered as a fold
over all positions; the extra `j = 0` step compares the start index with
itself and is a no-op. -/
def evictScan (r : LRUKReplacer) (vec : List Nat) : Nat :=
  (List.range vec.length).foldl
    (fun i j => if scanKey r vec j < scanKey r vec i then j else i) 0

/-- `LRUKReplacer::Evict`.  The outer `none` models a failing assertion;
`some (none, r)` is the `return false` of an empty replacer; on success the
victim frame id is returned, its history cleared and its entry removed from
its partition vector. -/
def LRUKReplacer.Evict (r : LRUKReplacer) : Option (Option Nat × LRUKReplacer) :=
  if r.currSize = 0 then some (none, r)
  else
    let useLess := r.lessThanK.length ≠ 0
    let vec := if useLess then r.lessThanK else r.equalToK
    if vec.length = 0 then none
    else
      let i := evictScan r vec
      let frameId := vec.getD i 0
      match r.frames[frameId]? with
      | none => none
      | some f =>
          if ¬ f.evictable then none
          else
            let f2 : LRUKFrame := { timestamps := [], evictable := false }
            let r2 := { r with frames := r.frames.set frameId f2,
                               currSize := r.currSize - 1 }
            if useLess then
              some (some frameId, { r2 with lessThanK := r2.lessThanK.eraseIdx i })
            else
              some (some frameId, { r2 with equalToK := r2.equalToK.eraseIdx i })

/-- `LRUKReplacer::Remove`: when the frame is evictable it is dropped from its
partition vector and the count decremented; in every case the history is
cleared and the flag reset.  A non-evictable frame is not a fatal case in
this code: the `if (frame->GetEvictable())` guard simply skips the vector
removal. -/
def LRUKReplacer.Remove (r : LRUKReplacer) (frameId : Nat) : Option LRUKReplacer :=
  match r.frames[frameId]? with
  | none => none
  | some f =>
      let cleared : LRUKFrame := { timestamps := [], evictable := false }
      if f.evictable then
        if f.timestamps.length < r.k then
          if frameId ∈ r.lessThanK then
            some { r with currSize := r.currSize - 1,
                          lessThanK := r.lessThanK.erase frameId,
                          frames := r.frames.set frameId cleared }
          else none
        else
          if frameId ∈ r.equalToK then
            some { r with currSize := r.currSize - 1,
                          equalToK := r.equalToK.erase frameId,
                          frames := r.frames.set frameId cleared }
          else none
      else some { r with frames := r.frames.set frameId cleared }

/-- Well-formedness of a replacer state, as maintained by the operations:
per-frame histories are increasing, hold at most `k` timestamps and are
non-empty for evictable frames; timestamps are globally distinct (they come
from one monotone counter); `less_than_k_` and `equal_to_k_` hold exactly the
evictable frames with fewer than `k` resp. exactly `k` retained accesses; and
`curr_size_` counts the evictable frames. -/
abbrev LRUKReplacer.WF (r : LRUKReplacer) : Prop :=
  1 ≤ r.k ∧
  (∀ f ∈ r.frames, List.Pairwise (· < ·) f.timestamps ∧ f.timestamps.length ≤ r.k ∧
      (f.evictable = true → f.timestamps ≠ [])) ∧
  (r.frames.map (fun f => f.timestamps)).flatten.Nodup ∧
  (∀ i ∈ r.lessThanK, i < r.frames.length) ∧
  (∀ i ∈ r.equalToK, i < r.frames.length) ∧
  (∀ i ∈ List.range r.frames.length,
      ((i ∈ r.lessThanK ↔
          (r.frameAt i).evictable = true ∧ (r.frameAt i).timestamps.length < r.k) ∧
       (i ∈ r.equalToK ↔
          (r.frameAt i).evictable = true ∧ (r.frameAt i).timestamps.length = r.k))) ∧
  r.currSize = r.lessThanK.length + r.equalToK.length

/-- The eviction-priority order of the claim, expressed on the retained
history: a frame with fewer than `k` recorded accesses has backward
k-distance `+∞` and beats every frame with `k` of them; among two frames with
`+∞` distance the one with the older first access wins; among two frames with
`k` retained accesses a greater backward k-distance means a smaller oldest
retained timestamp (the k-th most recent access). -/
abbrev beats (k : Nat) (f g : LRUKFrame) : Prop :=
  (f.timestamps.length < k ∧ ¬ g.timestamps.length < k) ∨
  (f.timestamps.length < k ∧ g.timestamps.length < k ∧
      f.GetTimeStamp < g.GetTimeStamp) ∨
  (¬ f.timestamps.length < k ∧ ¬ g.timestamps.length < k ∧
      f.GetTimeStamp < g.GetTimeStamp)

/-- The victim characterisation of the claim: an evictable frame that beats
every other evictable frame in the LRU-K priority order. -/
abbrev LRUKReplacer.IsVictim (r : LRUKReplacer) (fid : Nat) : Prop :=
  fid < r.frames.length ∧ (r.frameAt fid).evictable = true ∧
  ∀ g ∈ List.range r.frames.length, g ≠ fid → (r.frameAt g).evictable = true →
    beats r.k (r.frameAt fid) (r.frameAt g)

/-- Each step of the eviction fold keeps an in-range index whose key is
minimal among the start index and every index scanned so far. -/
theorem evictScan_foldl_min (r : LRUKReplacer) (vec : List Nat) :
    ∀ (l : List Nat) (i : Nat), i < vec.length → (∀ m ∈ l, m < vec.length) →
      (List.foldl (fun a j => if scanKey r vec j < scanKey r vec a then j else a) i l
          < vec.length ∧
       scanKey r vec
          (List.foldl (fun a j => if scanKey r vec j < scanKey r vec a then j else a) i l)
          ≤ scanKey r vec i ∧
       ∀ m ∈ l, scanKey r vec
          (List.foldl (fun a j => if scanKey r vec j < scanKey r vec a then j else a) i l)
          ≤ scanKey r vec m) := by
  intro l
  induction l with
  | nil =>
      intro i hi _
      exact ⟨hi, le_refl _, fun m hm => absurd hm (List.not_mem_nil m)⟩
  | cons a t ih =>
      intro i hi hml
      have hal : a < vec.length := hml a (List.mem_cons_self a t)
      have htl : ∀ m ∈ t, m < vec.length := fun m hm => hml m (List.mem_cons_of_mem a hm)
      simp only [List.foldl_cons]
      by_cases hlt : scanKey r vec a < scanKey r vec i
      · rw [if_pos hlt]
        obtain ⟨h1, h2, h3⟩ := ih a hal htl
        refine ⟨h1, le_trans h2 (le_of_lt hlt), ?_⟩
        intro m hm
        rcases List.mem_cons.mp hm with rfl | hmt
        · exact h2
        · exact h3 m hmt
      · rw [if_neg hlt]
        obtain ⟨h1, h2, h3⟩ := ih i hi htl
        refine ⟨h1, h2, ?_⟩
        intro m hm
        rcases List.mem_cons.mp hm with rfl | hmt
        · exact le_trans h2 (not_lt.mp hlt)
        · exact h3 m hmt

/-- The eviction loop returns an in-range index of minimal key. -/
theorem evictScan_min (r : LRUKReplacer) (vec : List Nat) (h : 0 < vec.length) :
    evictScan r vec < vec.length ∧
    ∀ m, m < vec.length → scanKey r vec (evictScan r vec) ≤ scanKey r vec m := by
  unfold evictScan
  obtain ⟨h1, h2, h3⟩ := evictScan_foldl_min r vec (List.range vec.length) 0 h
      (fun m hm => List.mem_range.mp hm)
  exact ⟨h1, fun m hm => h3 m (List.mem_range.mpr hm)⟩

/-- Two distinct frames with non-empty histories have distinct eviction keys:
all timestamps come from one monotone counter, so the flattened history list
is duplicate-free. -/
theorem distinct_heads (r : LRUKReplacer) (hwf : r.WF) (a b : Nat)
    (ha : a < r.frames.length) (hb : b < r.frames.length) (hab : a ≠ b)
    (hta : (r.frameAt a).timestamps ≠ []) (htb : (r.frameAt b).timestamps ≠ []) :
    (r.frameAt a).GetTimeStamp ≠ (r.frameAt b).GetTimeStamp := by
  obtain ⟨-, -, hnodup, -⟩ := hwf
  have hdisj := (List.nodup_flatten.mp hnodup).2
  rw [List.pairwise_iff_getElem] at hdisj
  have hmap : ∀ i (hi : i < (r.frames.map (fun f => f.timestamps)).length),
      (r.frames.map (fun f => f.timestamps))[i] =
        (r.frameAt i).timestamps := by
    intro i hi
    rw [List.getElem_map]
    unfold LRUKReplacer.frameAt
    rw [List.getD_eq_getElem _ _ (by simpa using hi)]
  have hda : (r.frameAt a).GetTimeStamp ∈ (r.frameAt a).timestamps := by
    unfold LRUKFrame.GetTimeStamp
    cases hts : (r.frameAt a).timestamps with
    | nil => exact absurd hts hta
    | cons x rest => simp
  have hdb : (r.frameAt b).GetTimeStamp ∈ (r.frameAt b).timestamps := by
    unfold LRUKFrame.GetTimeStamp
    cases hts : (r.frameAt b).timestamps with
    | nil => exact absurd hts htb
    | cons x rest => simp
  intro heq
  rcases Nat.lt_or_ge a b with hlt | hge
  · have hd := hdisj a b (by simpa using ha) (by simpa using hb) hlt
    rw [hmap a (by simpa using ha), hmap b (by simpa using hb)] at hd
    exact hd hda (heq ▸ hdb)
  · have hlt2 : b < a := lt_of_le_of_ne hge (Ne.symm hab)
    have hd := hdisj b a (by simpa using hb) (by simpa using ha) hlt2
    rw [hmap b (by simpa using hb), hmap a (by simpa using ha)] at hd
    exact hd hdb (heq ▸ hda)

/-- A valid frame id denotes a member of the frame vector. -/
theorem frameAt_mem (r : LRUKReplacer) (i : Nat) (hi : i < r.frames.length) :
    r.frameAt i ∈ r.frames := by
  unfold LRUKReplacer.frameAt
  rw [List.getD_eq_getElem _ _ hi]
  exact List.getElem_mem hi

/-- The frame picked by the eviction loop belongs to the scanned partition and
has the strictly smallest eviction key among its members. -/
theorem evictScan_picks_min_member (r : LRUKReplacer) (hwf : r.WF) (vec : List Nat)
    (hv : vec ≠ []) (hmemall : ∀ x ∈ vec, x < r.frames.length)
    (hevall : ∀ x ∈ vec, (r.frameAt x).evictable = true) :
    vec.getD (evictScan r vec) 0 ∈ vec ∧
    ∀ g ∈ vec, g ≠ vec.getD (evictScan r vec) 0 →
      (r.frameAt (vec.getD (evictScan r vec) 0)).GetTimeStamp <
        (r.frameAt g).GetTimeStamp := by
  have hlen : 0 < vec.length := List.length_pos.mpr hv
  obtain ⟨hilt, hall⟩ := evictScan_min r vec hlen
  have hfidmem : vec.getD (evictScan r vec) 0 ∈ vec := by
    rw [List.getD_eq_getElem _ _ hilt]
    exact List.getElem_mem hilt
  refine ⟨hfidmem, ?_⟩
  intro g hg hgne
  obtain ⟨m, hm, hgm⟩ := List.getElem_of_mem hg
  have hkey : scanKey r vec m = (r.frameAt g).GetTimeStamp := by
    unfold scanKey
    rw [List.getD_eq_getElem _ _ hm, hgm]
  have hle := hall m hm
  rw [hkey] at hle
  have hfe : (r.frameAt (vec.getD (evictScan r vec) 0)).timestamps ≠ [] :=
    (hwf.2.1 _ (frameAt_mem r _ (hmemall _ hfidmem))).2.2 (hevall _ hfidmem)
  have hge2 : (r.frameAt g).timestamps ≠ [] :=
    (hwf.2.1 _ (frameAt_mem r _ (hmemall _ hg))).2.2 (hevall _ hg)
  have hne := distinct_heads r hwf (vec.getD (evictScan r vec) 0) g
      (hmemall _ hfidmem) (hmemall _ hg) (fun he => hgne (he ▸ rfl)) hfe hge2
  exact lt_of_le_of_ne hle hne

/-- C4: for every well-formed replacer state with at least one evictable
frame, `Evict` succeeds and the returned frame is the evictable frame with
greatest backward k-distance, ties among frames with fewer than `k` accesses
(infinite distance) being broken by the oldest overall access. -/
theorem Evict_picks_lruk_victim (r : LRUKReplacer) (hwf : r.WF) (h0 : 0 < r.currSize) :
    ∃ fid r2, r.Evict = some (some fid, r2) ∧ r.IsVictim fid := by
  have hwfd := hwf
  obtain ⟨hk, hfr, hnodup, hltmem, heqmem, hpart, hsize⟩ := hwfd
  have h0ne : ¬ r.currSize = 0 := by omega
  by_cases hL : r.lessThanK.length = 0
  · -- the `equal_to_k_` partition is scanned
    have hEne : r.equalToK ≠ [] := by
      intro hnil
      rw [hnil] at hsize
      simp at hsize
      omega
    obtain ⟨hfidmem, hmin⟩ := evictScan_picks_min_member r hwf r.equalToK hEne
        (fun x hx => heqmem x hx)
        (fun x hx => ((hpart x (List.mem_range.mpr (heqmem x hx))).2.mp hx).1)
    have hfidlt : r.equalToK.getD (evictScan r r.equalToK) 0 < r.frames.length :=
      heqmem _ hfidmem
    have hfidev : (r.frameAt (r.equalToK.getD (evictScan r r.equalToK) 0)).evictable
        = true := ((hpart _ (List.mem_range.mpr hfidlt)).2.mp hfidmem).1
    have hfidk : (r.frameAt (r.equalToK.getD (evictScan r r.equalToK) 0)).timestamps.length
        = r.k := ((hpart _ (List.mem_range.mpr hfidlt)).2.mp hfidmem).2
    have hget : r.frames[(r.equalToK.getD (evictScan r r.equalToK) 0)]? =
        some (r.frameAt (r.equalToK.getD (evictScan r r.equalToK) 0)) := by
      unfold LRUKReplacer.frameAt
      rw [List.getD_eq_getElem _ _ hfidlt, List.getElem?_eq_getElem hfidlt]
    have hEval : r.Evict = some (some (r.equalToK.getD (evictScan r r.equalToK) 0),
        { r with frames := r.frames.set (r.equalToK.getD (evictScan r r.equalToK) 0)
                    { timestamps := [], evictable := false },
                 currSize := r.currSize - 1,
                 equalToK := r.equalToK.eraseIdx (evictScan r r.equalToK) }) := by
      simp only [LRUKReplacer.Evict, if_neg h0ne,
        if_neg (show ¬ r.lessThanK.length ≠ 0 by omega)]
      rw [if_neg (show ¬ r.equalToK.length = 0 by
        have := List.length_pos.mpr hEne
        omega)]
      rw [hget]
      simp only [if_neg (not_not_intro hfidev)]
    refine ⟨_, _, hEval, hfidlt, hfidev, ?_⟩
    intro g hg hgne hgev
    have hglt2 : g < r.frames.length := List.mem_range.mp hg
    have hgnotlt : ¬ (r.frameAt g).timestamps.length < r.k := by
      intro hlt
      have hmem : g ∈ r.lessThanK := (hpart g hg).1.mpr ⟨hgev, hlt⟩
      rw [List.length_eq_zero] at hL
      rw [hL] at hmem
      exact absurd hmem (List.not_mem_nil g)
    have hglen : (r.frameAt g).timestamps.length = r.k := by
      have hle := (hfr _ (frameAt_mem r g hglt2)).2.1
      omega
    have hgmem : g ∈ r.equalToK := (hpart g hg).2.mpr ⟨hgev, hglen⟩
    right
    right
    exact ⟨by omega, hgnotlt, hmin g hgmem hgne⟩
  · -- the `less_than_k_` partition is scanned
    have hLne : r.lessThanK ≠ [] := by
      intro hnil
      rw [hnil] at hL
      simp at hL
    obtain ⟨hfidmem, hmin⟩ := evictScan_picks_min_member r hwf r.lessThanK hLne
        (fun x hx => hltmem x hx)
        (fun x hx => ((hpart x (List.mem_range.mpr (hltmem x hx))).1.mp hx).1)
    have hfidlt : r.lessThanK.getD (evictScan r r.lessThanK) 0 < r.frames.length :=
      hltmem _ hfidmem
    have hfidev : (r.frameAt (r.lessThanK.getD (evictScan r r.lessThanK) 0)).evictable
        = true := ((hpart _ (List.mem_range.mpr hfidlt)).1.mp hfidmem).1
    have hfidk : (r.frameAt (r.lessThanK.getD (evictScan r r.lessThanK) 0)).timestamps.length
        < r.k := ((hpart _ (List.mem_range.mpr hfidlt)).1.mp hfidmem).2
    have hget : r.frames[(r.lessThanK.getD (evictScan r r.lessThanK) 0)]? =
        some (r.frameAt (r.lessThanK.getD (evictScan r r.lessThanK) 0)) := by
      unfold LRUKReplacer.frameAt
      rw [List.getD_eq_getElem _ _ hfidlt, List.getElem?_eq_getElem hfidlt]
    have hEval : r.Evict = some (some (r.lessThanK.getD (evictScan r r.lessThanK) 0),
        { r with frames := r.frames.set (r.lessThanK.getD (evictScan r r.lessThanK) 0)
                    { timestamps := [], evictable := false },
                 currSize := r.currSize - 1,
                 lessThanK := r.lessThanK.eraseIdx (evictScan r r.lessThanK) }) := by
      simp only [LRUKReplacer.Evict, if_neg h0ne, if_pos (show r.lessThanK.length ≠ 0 from hL)]
      rw [if_neg hL]
      rw [hget]
      simp only [if_neg (not_not_intro hfidev)]
    refine ⟨_, _, hEval, hfidlt, hfidev, ?_⟩
    intro g hg hgne hgev
    have hglt2 : g < r.frames.length := List.mem_range.mp hg
    by_cases hglt : (r.frameAt g).timestamps.length < r.k
    · have hgmem : g ∈ r.lessThanK := (hpart g hg).1.mpr ⟨hgev, hglt⟩
      right
      left
      exact ⟨hfidk, hglt, hmin g hgmem hgne⟩
    · left
      exact ⟨hfidk, hglt⟩

/-- The end-to-end LRU-K scenario of the spec and claim: `k = 2`, accesses to
frames 1, 2, 3, 4, 1, 2, 5 in that order, then all five frames marked
evictable. -/
def lrukScenario : LRUKReplacer :=
  (do
    let r0 := LRUKReplacer.new 6 2
    let r1 ← r0.RecordAccess 1
    let r2 ← r1.RecordAccess 2
    let r3 ← r2.RecordAccess 3
    let r4 ← r3.RecordAccess 4
    let r5 ← r4.RecordAccess 1
    let r6 ← r5.RecordAccess 2
    let r7 ← r6.RecordAccess 5
    let r8 ← r7.SetEvictable 1 true
    let r9 ← r8.SetEvictable 2 true
    let r10 ← r9.SetEvictable 3 true
    let r11 ← r10.SetEvictable 4 true
    r11.SetEvictable 5 true).getD default

/-- C4 witness: the eviction-policy theorem applied to the concrete scenario
state (k = 2, accesses 1, 2, 3, 4, 1, 2, 5, all evictable), on which the
victim returned by `Evict` is frame 3. -/
theorem Evict_picks_lruk_victim_witness :
    lrukScenario.WF ∧ 0 < lrukScenario.currSize ∧
    (∃ fid r2, lrukScenario.Evict = some (some fid, r2) ∧ lrukScenario.IsVictim fid) ∧
    lrukScenario.Evict.map Prod.fst = some (some 3) :=
  ⟨by decide, by decide, Evict_picks_lruk_victim lrukScenario (by decide) (by decide),
    by decide⟩

/-- C9: `LRUKReplacer::Remove` on a non-evictable frame is not fatal: the
`if (frame->GetEvictable())` guard merely skips the partition-vector removal,
and the call returns normally after silently clearing the frame's access
history and state.  (The spec requires a fatal abort here; the heap-based
variant of this file guards the case with
`BUSTUB_ASSERT(true, "frame is non-evitable.")`, a no-op.) -/
theorem Remove_non_evictable_returns_normally (r : LRUKReplacer) (frameId : Nat)
    (f : LRUKFrame) (hf : r.frames[frameId]? = some f) (hev : f.evictable = false) :
    r.Remove frameId =
      some { r with frames := r.frames.set frameId { timestamps := [], evictable := false } } := by
  unfold LRUKReplacer.Remove
  rw [hf]
  simp [hev]

/-- C9 witness: removing a non-evictable frame with recorded history returns
normally and clears the history, instead of aborting. -/
def lruk9 : LRUKReplacer :=
  { k := 2, frames := [{ timestamps := [0, 1], evictable := false }],
    lessThanK := [], equalToK := [], currSize := 0, currentTimestamp := 2 }

/-- C9 witness theorem: the non-fatal-`Remove` theorem applied at a concrete
non-evictable frame holding two timestamps. -/
theorem Remove_non_evictable_returns_normally_witness :
    lruk9.frames[0]? = some { timestamps := [0, 1], evictable := false } ∧
    lruk9.Remove 0 =
      some { lruk9 with frames := lruk9.frames.set 0 { timestamps := [], evictable := false } } :=
  ⟨by decide,
    Remove_non_evictable_returns_normally lruk9 0
      { timestamps := [0, 1], evictable := false } (by decide) rfl⟩

/-! ## Buffer pool manager (`buffer_pool_manager_instance.cpp`) -/

/-- Failure of a C `assert` / `BUSTUB_ASSERT`: the process aborts instead of
returning. -/
inductive Fault where
  | assertFail
deriving Repr, DecidableEq

/-- The per-frame page metadata the unpin path touches: `pin_count_` (a C++
`int`, so it can go negative) and `is_dirty_`. -/
structure BPMPage where
  pinCount : Int
  isDirty : Bool
deriving Repr, DecidableEq

instance : Inhabited BPMPage := ⟨⟨0, false⟩⟩

/-- The slice of `BufferPoolManagerInstance` state that `UnpinPgImp` reads
and writes: the page table (the extendible hash table mapping page ids to
frame ids), the frame array (`pages_`), and the replacer's evictable flags
(the effect of `replacer_->SetEvictable(frame_id, true)`). -/
structure BufferPoolManagerInstance where
  pageTable : ExtendibleHashTable
  pages : List BPMPage
  frameEvictable : List Bool
deriving Repr, DecidableEq

/-- `BufferPoolManagerInstance::UnpinPgImp`.  The source asserts on a missing
page-table entry (its `return false` is commented out) and asserts
`GetPinCount() >= 0` right after the unconditional decrement, so unpinning an
already-unpinned page also faults; only the positive-pin path returns. -/
def BufferPoolManagerInstance.UnpinPgImp (st : BufferPoolManagerInstance)
    (pageId : Nat) (isDirty : Bool) : Except Fault (BufferPoolManagerInstance × Bool) :=
  match st.pageTable.Find pageId with
  | none => .error .assertFail
  | some frameId =>
      let p := st.pages.getD frameId default
      let p2 := { p with pinCount := p.pinCount - 1 }
      if p2.pinCount < (0 : Int) then .error .assertFail
      else
        .ok ({ st with
            pages := st.pages.set frameId { p2 with isDirty := p2.isDirty || isDirty },
            frameEvictable := if p2.pinCount = (0 : Int) then st.frameEvictable.set frameId true
                              else st.frameEvictable }, true)

/-- C5: characterisation of `UnpinPgImp`.  Contrary to the claim, the two
failure cases do not return `false`: a non-resident page hits `assert(false)`
(the `return false` beneath it is commented out), and a page with pin count
zero is decremented to `-1` and hits `assert(GetPinCount() >= 0)`.  Only the
positive-pin path behaves as claimed: it decrements the pin count and returns
`true`. -/
theorem UnpinPgImp_characterisation (st : BufferPoolManagerInstance) (pageId : Nat)
    (isDirty : Bool) :
    (st.pageTable.Find pageId = none →
      st.UnpinPgImp pageId isDirty = .error .assertFail) ∧
    (∀ frameId, st.pageTable.Find pageId = some frameId →
      (st.pages.getD frameId default).pinCount = 0 →
      st.UnpinPgImp pageId isDirty = .error .assertFail) ∧
    (∀ frameId, st.pageTable.Find pageId = some frameId →
      0 < (st.pages.getD frameId default).pinCount →
      ∃ st2, st.UnpinPgImp pageId isDirty = .ok (st2, true) ∧
        (st2.pages.getD frameId default).pinCount =
          (st.pages.getD frameId default).pinCount - 1) := by
  refine ⟨?_, ?_, ?_⟩
  · intro h
    unfold BufferPoolManagerInstance.UnpinPgImp
    rw [h]
  · intro frameId hfind hpin
    unfold BufferPoolManagerInstance.UnpinPgImp
    rw [hfind]
    simp only
    rw [if_pos (by omega)]
  · intro frameId hfind hpin
    unfold BufferPoolManagerInstance.UnpinPgImp
    rw [hfind]
    simp only
    rw [if_neg (by omega)]
    have hlt : frameId < st.pages.length := by
      by_contra hge
      rw [List.getD_eq_default _ _ (by omega)] at hpin
      simp [default] at hpin
    refine ⟨_, rfl, ?_⟩
    simp only
    rw [List.getD_eq_getElem _ _ (by simpa using hlt)]
    rw [List.getElem_set_self]

/-- A pool whose page table is empty. -/
def bpm0 : BufferPoolManagerInstance :=
  { pageTable := ExtendibleHashTable.new 2, pages := [], frameEvictable := [] }

/-- A pool in which page 1 is resident in frame 0 with pin count 0. -/
def bpm1 : BufferPoolManagerInstance :=
  { pageTable := { globalDepth := 0, bucketSize := 2, numBuckets := 1, numDirs := 1,
                   dir := [0], store := [{ size := 2, depth := 0, items := [(1, 0)] }] },
    pages := [{ pinCount := 0, isDirty := false }], frameEvictable := [false] }

/-- A pool in which page 1 is resident in frame 0 with pin count 2. -/
def bpm2 : BufferPoolManagerInstance :=
  { pageTable := { globalDepth := 0, bucketSize := 2, numBuckets := 1, numDirs := 1,
                   dir := [0], store := [{ size := 2, depth := 0, items := [(1, 0)] }] },
    pages := [{ pinCount := 2, isDirty := false }], frameEvictable := [false] }

/-- C5 witness: the characterisation applied at three concrete pools — a
non-resident page (fault), an already-unpinned page (fault), and a pinned
page (pin decremented, `true` returned). -/
theorem UnpinPgImp_characterisation_witness :
    bpm0.pageTable.Find 7 = none ∧
    bpm0.UnpinPgImp 7 false = .error .assertFail ∧
    bpm1.pageTable.Find 1 = some 0 ∧ (bpm1.pages.getD 0 default).pinCount = 0 ∧
    bpm1.UnpinPgImp 1 false = .error .assertFail ∧
    bpm2.pageTable.Find 1 = some 0 ∧ 0 < (bpm2.pages.getD 0 default).pinCount ∧
    (∃ st2, bpm2.UnpinPgImp 1 false = .ok (st2, true) ∧
      (st2.pages.getD 0 default).pinCount = (bpm2.pages.getD 0 default).pinCount - 1) :=
  ⟨by decide, (UnpinPgImp_characterisation bpm0 7 false).1 (by decide),
    by decide, by decide,
    (UnpinPgImp_characterisation bpm1 1 false).2.1 0 (by decide) (by decide),
    by decide, by decide,
    (UnpinPgImp_characterisation bpm2 1 false).2.2 0 (by decide) (by decide)⟩

/-! ## Lock manager (`lock_manager.cpp`) -/

/-- The five lock modes. -/
inductive LockMode where
  | shared
  | exclusive
  | intentionShared
  | intentionExclusive
  | sharedIntentionExclusive
deriving Repr, DecidableEq

/-- Transaction lifecycle states. -/
inductive TransactionState where
  | growing
  | shrinking
  | committed
  | aborted
deriving Repr, DecidableEq

/-- Isolation levels. -/
inductive IsolationLevel where
  | readUncommitted
  | readCommitted
  | repeatableRead
deriving Repr, DecidableEq

/-- The abort reasons carried by `TransactionAbortException`. -/
inductive AbortReason where
  | lockOnShrinking
  | upgradeConflict
  | lockSharedOnReadUncommitted
  | attemptedUnlockButNoLockHeld
  | tableUnlockedBeforeUnlockingRows
  | tableLockNotPresent
  | attemptedIntentionLockOnRow
  | incompatibleUpgrade
deriving Repr, DecidableEq

/-- The slice of `Transaction` the lock-manager entry paths read and write:
id, state, isolation level, the five table-lock sets and the two row-lock
sets (table oid to rids). -/
structure Transaction where
  txnId : Nat
  state : TransactionState
  isolationLevel : IsolationLevel
  sharedTableLockSet : List Nat
  exclusiveTableLockSet : List Nat
  intentionSharedTableLockSet : List Nat
  intentionExclusiveTableLockSet : List Nat
  sharedIntentionExclusiveTableLockSet : List Nat
  sharedRowLockSet : List (Nat × List Nat)
  exclusiveRowLockSet : List (Nat × List Nat)
deriving Repr, DecidableEq

/-- `LockManager::LockRequest`. -/
structure LockRequest where
  txnId : Nat
  lockMode : LockMode
  granted : Bool
deriving Repr, DecidableEq

/-- `LockManager::LockRequestQueue` (requests plus the single upgrading
transaction, `INVALID_TXN_ID` rendered as `none`). -/
structure LockRequestQueue where
  requestQueue : List LockRequest
  upgrading : Option Nat
deriving Repr, DecidableEq

/-- Outcome of a lock-manager entry path: normal completion, a
`TransactionAbortException` carrying the reason and the transaction as the
caller observes it, or an internal assertion / `bustub::Exception`
(`fault`). -/
inductive LMResult (α : Type) where
  | ok (a : α)
  | abort (reason : AbortReason) (txn : Transaction)
  | fault
deriving Repr, DecidableEq

/-- `LockManager::IsValidLockMode`: the row-mode and isolation-level checks.
Each throw site sets the transaction state to `ABORTED` first. -/
def IsValidLockMode (txn : Transaction) (lockMode : LockMode) (isRow : Bool) :
    LMResult Transaction :=
  if isRow ∧ lockMode ≠ .shared ∧ lockMode ≠ .exclusive then
    .abort .attemptedIntentionLockOnRow { txn with state := .aborted }
  else
    match txn.isolationLevel with
    | .repeatableRead =>
        if txn.state = .shrinking then
          .abort .lockOnShrinking { txn with state := .aborted }
        else .ok txn
    | .readCommitted =>
        if txn.state = .shrinking then
          if lockMode ≠ .shared ∧ lockMode ≠ .intentionShared then
            .abort .lockOnShrinking { txn with state := .aborted }
          else .ok txn
        else .ok txn
    | .readUncommitted =>
        if lockMode = .shared ∨ lockMode = .intentionShared ∨
            lockMode = .sharedIntentionExclusive then
          .abort .lockSharedOnReadUncommitted { txn with state := .aborted }
        else if txn.state = .shrinking then
          .abort .lockOnShrinking { txn with state := .aborted }
        else .ok txn

/-- `LockManager::IsValidUpgrade`. -/
def IsValidUpgrade (fromMode toMode : LockMode) : Bool :=
  match fromMode with
  | .intentionShared =>
      toMode == .shared || toMode == .exclusive || toMode == .sharedIntentionExclusive
  | .shared => toMode == .exclusive || toMode == .sharedIntentionExclusive
  | .intentionExclusive => toMode == .exclusive || toMode == .sharedIntentionExclusive
  | .sharedIntentionExclusive => toMode == .exclusive
  | .exclusive => false

/-- `LockManager::IsCompatible` (the compatibility matrix). -/
def IsCompatible (a b : LockMode) : Bool :=
  match a with
  | .shared =>
      !(b == .exclusive || b == .intentionExclusive || b == .sharedIntentionExclusive)
  | .exclusive => false
  | .intentionShared => !(b == .exclusive)
  | .intentionExclusive =>
      !(b == .shared || b == .exclusive || b == .sharedIntentionExclusive)
  | .sharedIntentionExclusive => b == .intentionShared

/-- Result of the queue scan at the head of a lock acquisition, before the
wait loop. -/
inductive LockScanOutcome where
  | alreadyHeld
  | appended (q2 : LockRequestQueue)
  | upgradeStarted (q2 : LockRequestQueue)
deriving Repr, DecidableEq

/-- The queue scan of `LockManager::LockTable`: find this transaction's
request; if absent append an ungranted request; same mode → immediate
success; another upgrade in flight → abort `UPGRADE_CONFLICT`; invalid
upgrade → abort `INCOMPATIBLE_UPGRADE`; else mark the queue upgrading.
`fault` models `assert(lr->granted_)`. -/
def LockTableScanLoop (txn : Transaction) (lockMode : LockMode)
    (lrq : LockRequestQueue) : List LockRequest → LMResult LockScanOutcome
  | [] => .ok (.appended { lrq with
      requestQueue := lrq.requestQueue ++ [⟨txn.txnId, lockMode, false⟩] })
  | lr :: rest =>
      if lr.txnId = txn.txnId then
        if ¬ lr.granted then .fault
        else if lr.lockMode = lockMode then .ok .alreadyHeld
        else if lrq.upgrading ≠ none then
          .abort .upgradeConflict { txn with state := .aborted }
        else if ¬ IsValidUpgrade lr.lockMode lockMode then
          .abort .incompatibleUpgrade { txn with state := .aborted }
        else .ok (.upgradeStarted { lrq with upgrading := some txn.txnId })
      else LockTableScanLoop txn lockMode lrq rest

/-- The pre-wait segment of `LockManager::LockTable` (mode and isolation
checks, then the queue scan; the condition-variable wait that follows has no
abort-throwing path). -/
def LockTable (txn : Transaction) (lockMode : LockMode) (lrq : LockRequestQueue) :
    LMResult LockScanOutcome :=
  match IsValidLockMode txn lockMode false with
  | .abort r t => .abort r t
  | .fault => .fault
  | .ok t2 => LockTableScanLoop t2 lockMode lrq lrq.requestQueue

/-- Association-list lookup of a row-lock set by table oid
(`unordered_map::find`). -/
def lookupRowSet : List (Nat × List Nat) → Nat → Option (List Nat)
  | [], _ => none
  | e :: rest, oid => if e.1 = oid then some e.2 else lookupRowSet rest oid

/-- `LockManager::IsTableRowLocked`. -/
def IsTableRowLocked (txn : Transaction) (oid : Nat) : Bool :=
  (match lookupRowSet txn.sharedRowLockSet oid with
   | some l => l.length != 0
   | none => false) ||
  (match lookupRowSet txn.exclusiveRowLockSet oid with
   | some l => l.length != 0
   | none => false)

/-- The table-lock set of a given mode (`LockManager::GetTableLockSet`). -/
def GetTableLockSet (txn : Transaction) (lockMode : LockMode) : List Nat :=
  match lockMode with
  | .shared => txn.sharedTableLockSet
  | .exclusive => txn.exclusiveTableLockSet
  | .intentionShared => txn.intentionSharedTableLockSet
  | .intentionExclusive => txn.intentionExclusiveTableLockSet
  | .sharedIntentionExclusive => txn.sharedIntentionExclusiveTableLockSet

/-- Replace the table-lock set of a given mode. -/
def SetTableLockSet (txn : Transaction) (lockMode : LockMode) (s : List Nat) :
    Transaction :=
  match lockMode with
  | .shared => { txn with sharedTableLockSet := s }
  | .exclusive => { txn with exclusiveTableLockSet := s }
  | .intentionShared => { txn with intentionSharedTableLockSet := s }
  | .intentionExclusive => { txn with intentionExclusiveTableLockSet := s }
  | .sharedIntentionExclusive => { txn with sharedIntentionExclusiveTableLockSet := s }

/-- `LockManager::UpdateTransactionStateOnUnlock`; the `READ_UNCOMMITTED`
shared-unlock case throws a plain `bustub::Exception`, modelled as `fault`. -/
def UpdateTransactionStateOnUnlock (txn : Transaction) (lockMode : LockMode) :
    LMResult Transaction :=
  match txn.state with
  | .committed => .ok txn
  | .aborted => .ok txn
  | _ =>
      if lockMode ≠ .shared ∧ lockMode ≠ .exclusive then .ok txn
      else
        match txn.isolationLevel with
        | .repeatableRead => .ok { txn with state := .shrinking }
        | .readCommitted =>
            if lockMode = .exclusive then .ok { txn with state := .shrinking }
            else .ok txn
        | .readUncommitted =>
            if lockMode = .exclusive then .ok { txn with state := .shrinking }
            else .fault

/-- The queue scan of `LockManager::UnlockTable`: abort when no request of
this transaction exists or it is not granted, or when row locks on the table
are still held; on success erase the request, remove the oid from the mode's
lock set (`assert(itr != lockset->end())` modelled as `fault`), and apply the
isolation-dependent state transition. -/
def UnlockTableLoop (txn : Transaction) (oid : Nat) (lrq : LockRequestQueue) :
    List LockRequest → LMResult (Transaction × LockRequestQueue)
  | [] => .abort .attemptedUnlockButNoLockHeld { txn with state := .aborted }
  | lr :: rest =>
      if lr.txnId = txn.txnId then
        if ¬ lr.granted then
          .abort .attemptedUnlockButNoLockHeld { txn with state := .aborted }
        else if IsTableRowLocked txn oid then
          .abort .tableUnlockedBeforeUnlockingRows { txn with state := .aborted }
        else
          let s := GetTableLockSet txn lr.lockMode
          if oid ∈ s then
            let txn2 := SetTableLockSet txn lr.lockMode (s.erase oid)
            match UpdateTransactionStateOnUnlock txn2 lr.lockMode with
            | .ok t3 => .ok (t3, { lrq with
                requestQueue := lrq.requestQueue.eraseP (fun x => x.txnId == txn.txnId) })
            | .abort r t => .abort r t
            | .fault => .fault
          else .fault
      else UnlockTableLoop txn oid lrq rest

/-- `LockManager::UnlockTable`; `none` for the queue means the table was
never locked (`IsTableExist` false). -/
def UnlockTable (txn : Transaction) (oid : Nat) (lrq? : Option LockRequestQueue) :
    LMResult (Transaction × LockRequestQueue) :=
  match lrq? with
  | none => .abort .attemptedUnlockButNoLockHeld { txn with state := .aborted }
  | some lrq => UnlockTableLoop txn oid lrq lrq.requestQueue

/-- The scan of `LockManager::IsValidRowLock` over the table's queue. -/
def IsValidRowLockLoop (txn : Transaction) (lockMode : LockMode) :
    List LockRequest → Bool
  | [] => false
  | lr :: rest =>
      if lr.txnId = txn.txnId then
        if lockMode == .exclusive then
          !(lr.lockMode == .shared || lr.lockMode == .intentionShared)
        else true
      else IsValidRowLockLoop txn lockMode rest

/-- `LockManager::IsValidRowLock`. -/
def IsValidRowLock (txn : Transaction) (lockMode : LockMode)
    (tableQueue : LockRequestQueue) : Bool :=
  IsValidRowLockLoop txn lockMode tableQueue.requestQueue

/-- The queue scan of `LockManager::LockRow`; the only legal upgrade source
mode for a row is `SHARED`. -/
def LockRowScanLoop (txn : Transaction) (lockMode : LockMode)
    (lrq : LockRequestQueue) : List LockRequest → LMResult LockScanOutcome
  | [] => .ok (.appended { lrq with
      requestQueue := lrq.requestQueue ++ [⟨txn.txnId, lockMode, false⟩] })
  | lr :: rest =>
      if lr.txnId = txn.txnId then
        if ¬ lr.granted then .fault
        else if lr.lockMode = lockMode then .ok .alreadyHeld
        else if lrq.upgrading ≠ none then
          .abort .upgradeConflict { txn with state := .aborted }
        else if lr.lockMode ≠ .shared then
          .abort .incompatibleUpgrade { txn with state := .aborted }
        else .ok (.upgradeStarted { lrq with upgrading := some txn.txnId })
      else LockRowScanLoop txn lockMode lrq rest

/-- The pre-wait segment of `LockManager::LockRow`: row-mode and isolation
checks, the table-lock presence check (`TABLE_LOCK_NOT_PRESENT`), then the
row-queue scan. -/
def LockRow (txn : Transaction) (lockMode : LockMode)
    (tableQueue? : Option LockRequestQueue) (rowQueue : LockRequestQueue) :
    LMResult LockScanOutcome :=
  match IsValidLockMode txn lockMode true with
  | .abort r t => .abort r t
  | .fault => .fault
  | .ok t2 =>
      match tableQueue? with
      | none => .abort .tableLockNotPresent { t2 with state := .aborted }
      | some tq =>
          if ¬ IsValidRowLock t2 lockMode tq then
            .abort .tableLockNotPresent { t2 with state := .aborted }
          else LockRowScanLoop t2 lockMode rowQueue rowQueue.requestQueue

/-- `oid2rid->at(oid).erase(rid)`: `unordered_map::at` throws when the oid is
absent, modelled as `none`. -/
def eraseRid : List (Nat × List Nat) → Nat → Nat → Option (List (Nat × List Nat))
  | [], _, _ => none
  | e :: rest, oid, rid =>
      if e.1 = oid then some ((e.1, e.2.erase rid) :: rest)
      else (eraseRid rest oid rid).map (fun r => e :: r)

/-- The queue scan of `LockManager::UnlockRow`. -/
def UnlockRowLoop (txn : Transaction) (oid rid : Nat) (lrq : LockRequestQueue) :
    List LockRequest → LMResult (Transaction × LockRequestQueue)
  | [] => .abort .attemptedUnlockButNoLockHeld { txn with state := .aborted }
  | lr :: rest =>
      if lr.txnId = txn.txnId then
        if ¬ lr.granted then
          .abort .attemptedUnlockButNoLockHeld { txn with state := .aborted }
        else
          let sets := if lr.lockMode = .shared then txn.sharedRowLockSet
                      else txn.exclusiveRowLockSet
          match eraseRid sets oid rid with
          | none => .fault
          | some s2 =>
              let txn2 := if lr.lockMode = .shared then { txn with sharedRowLockSet := s2 }
                          else { txn with exclusiveRowLockSet := s2 }
              match UpdateTransactionStateOnUnlock txn2 lr.lockMode with
              | .ok t3 => .ok (t3, { lrq with
                  requestQueue := lrq.requestQueue.eraseP (fun x => x.txnId == txn.txnId) })
              | .abort r t => .abort r t
              | .fault => .fault
      else UnlockRowLoop txn oid rid lrq rest

/-- `LockManager::UnlockRow`; `none` for the queue means the rid was never
locked (`IsRIDExist` false). -/
def UnlockRow (txn : Transaction) (oid rid : Nat) (lrq? : Option LockRequestQueue) :
    LMResult (Transaction × LockRequestQueue) :=
  match lrq? with
  | none => .abort .attemptedUnlockButNoLockHeld { txn with state := .aborted }
  | some lrq => UnlockRowLoop txn oid rid lrq lrq.requestQueue

/-- Every abort produced by the mode/isolation checks carries an `ABORTED`
transaction. -/
theorem IsValidLockMode_abort (txn : Transaction) (lockMode : LockMode) (isRow : Bool)
    (reason : AbortReason) (t2 : Transaction)
    (h : IsValidLockMode txn lockMode isRow = .abort reason t2) : t2.state = .aborted := by
  unfold IsValidLockMode at h
  repeat' split at h
  all_goals cases h
  all_goals rfl

/-- Every abort produced by the table-lock queue scan carries an `ABORTED`
transaction. -/
theorem LockTableScanLoop_abort (txn : Transaction) (lockMode : LockMode)
    (lrq : LockRequestQueue) (reason : AbortReason) (t2 : Transaction) :
    ∀ l, LockTableScanLoop txn lockMode lrq l = .abort reason t2 →
      t2.state = .aborted := by
  intro l
  induction l with
  | nil =>
      intro h
      unfold LockTableScanLoop at h
      cases h
  | cons lr rest ih =>
      intro h
      unfold LockTableScanLoop at h
      split at h
      · repeat' split at h
        all_goals cases h
        all_goals rfl
      · exact ih h

/-- Every abort produced by `LockTable`'s pre-wait segment carries an
`ABORTED` transaction. -/
theorem LockTable_abort (txn : Transaction) (lockMode : LockMode)
    (lrq : LockRequestQueue) (reason : AbortReason) (t2 : Transaction)
    (h : LockTable txn lockMode lrq = .abort reason t2) : t2.state = .aborted := by
  unfold LockTable at h
  split at h
  · rename_i heq
    cases h
    exact IsValidLockMode_abort _ _ _ _ _ heq
  · cases h
  · exact LockTableScanLoop_abort _ _ _ _ _ _ h

/-- `UpdateTransactionStateOnUnlock` never raises an abort exception. -/
theorem UpdateTransactionStateOnUnlock_ne_abort (txn : Transaction)
    (lockMode : LockMode) (reason : AbortReason) (t2 : Transaction)
    (h : UpdateTransactionStateOnUnlock txn lockMode = .abort reason t2) : False := by
  unfold UpdateTransactionStateOnUnlock at h
  repeat' split at h
  all_goals cases h

/-- Every abort produced by the table-unlock queue scan carries an `ABORTED`
transaction. -/
theorem UnlockTableLoop_abort (txn : Transaction) (oid : Nat)
    (lrq : LockRequestQueue) (reason : AbortReason) (t2 : Transaction) :
    ∀ l, UnlockTableLoop txn oid lrq l = .abort reason t2 → t2.state = .aborted := by
  intro l
  induction l with
  | nil =>
      intro h
      unfold UnlockTableLoop at h
      cases h
      rfl
  | cons lr rest ih =>
      intro h
      unfold UnlockTableLoop at h
      split at h
      · split at h
        · cases h
          rfl
        · split at h
          · cases h
            rfl
          · dsimp only at h
            split at h
            · split at h
              · cases h
              · rename_i hupd
                cases h
                exact (UpdateTransactionStateOnUnlock_ne_abort _ _ _ _ hupd).elim
              · cases h
            · cases h
      · exact ih h

/-- Every abort produced by `UnlockTable` carries an `ABORTED` transaction. -/
theorem UnlockTable_abort (txn : Transaction) (oid : Nat)
    (lrq? : Option LockRequestQueue) (reason : AbortReason) (t2 : Transaction)
    (h : UnlockTable txn oid lrq? = .abort reason t2) : t2.state = .aborted := by
  unfold UnlockTable at h
  split at h
  · cases h
    rfl
  · exact UnlockTableLoop_abort _ _ _ _ _ _ h

/-- Every abort produced by the row-lock queue scan carries an `ABORTED`
transaction. -/
theorem LockRowScanLoop_abort (txn : Transaction) (lockMode : LockMode)
    (lrq : LockRequestQueue) (reason : AbortReason) (t2 : Transaction) :
    ∀ l, LockRowScanLoop txn lockMode lrq l = .abort reason t2 →
      t2.state = .aborted := by
  intro l
  induction l with
  | nil =>
      intro h
      unfold LockRowScanLoop at h
      cases h
  | cons lr rest ih =>
      intro h
      unfold LockRowScanLoop at h
      split at h
      · repeat' split at h
        all_goals cases h
        all_goals rfl
      · exact ih h

/-- Every abort produced by `LockRow`'s pre-wait segment carries an `ABORTED`
transaction. -/
theorem LockRow_abort (txn : Transaction) (lockMode : LockMode)
    (tableQueue? : Option LockRequestQueue) (rowQueue : LockRequestQueue)
    (reason : AbortReason) (t2 : Transaction)
    (h : LockRow txn lockMode tableQueue? rowQueue = .abort reason t2) :
    t2.state = .aborted := by
  unfold LockRow at h
  split at h
  · rename_i heq
    cases h
    exact IsValidLockMode_abort _ _ _ _ _ heq
  · cases h
  · rename_i t3 heq
    split at h
    · cases h
      rfl
    · split at h
      · cases h
        rfl
      · exact LockRowScanLoop_abort _ _ _ _ _ _ h

/-- Every abort produced by the row-unlock queue scan carries an `ABORTED`
transaction. -/
theorem UnlockRowLoop_abort (txn : Transaction) (oid rid : Nat)
    (lrq : LockRequestQueue) (reason : AbortReason) (t2 : Transaction) :
    ∀ l, UnlockRowLoop txn oid rid lrq l = .abort reason t2 → t2.state = .aborted := by
  intro l
  induction l with
  | nil =>
      intro h
      unfold UnlockRowLoop at h
      cases h
      rfl
  | cons lr rest ih =>
      intro h
      unfold UnlockRowLoop at h
      split at h
      · split at h
        · cases h
          rfl
        · dsimp only at h
          by_cases hm : lr.lockMode = LockMode.shared
          · rw [if_pos hm] at h
            split at h
            · cases h
            · split at h
              · cases h
              · rename_i hupd
                cases h
                exact (UpdateTransactionStateOnUnlock_ne_abort _ _ _ _ hupd).elim
              · cases h
          · rw [if_neg hm] at h
            split at h
            · cases h
            · split at h
              · cases h
              · rename_i hupd
                cases h
                exact (UpdateTransactionStateOnUnlock_ne_abort _ _ _ _ hupd).elim
              · cases h
      · exact ih h

/-- Every abort produced by `UnlockRow` carries an `ABORTED` transaction. -/
theorem UnlockRow_abort (txn : Transaction) (oid rid : Nat)
    (lrq? : Option LockRequestQueue) (reason : AbortReason) (t2 : Transaction)
    (h : UnlockRow txn oid rid lrq? = .abort reason t2) : t2.state = .aborted := by
  unfold UnlockRow at h
  split at h
  · cases h
    rfl
  · exact UnlockRowLoop_abort _ _ _ _ _ _ _ h

/-- C7: on every abort path of the lock manager — `lock_table`,
`unlock_table`, `lock_row`, `unlock_row` and the isolation-level checks — the
transaction carried by the structured abort exception has state `ABORTED`:
the state is set before the exception is raised, so the caller observes
`ABORTED` when catching it. -/
theorem lock_manager_abort_paths_set_aborted (txn : Transaction)
    (lockMode : LockMode) (isRow : Bool) (oid rid : Nat) (lrq : LockRequestQueue)
    (tq? : Option LockRequestQueue) (reason : AbortReason) (t2 : Transaction) :
    (IsValidLockMode txn lockMode isRow = .abort reason t2 → t2.state = .aborted) ∧
    (LockTable txn lockMode lrq = .abort reason t2 → t2.state = .aborted) ∧
    (UnlockTable txn oid tq? = .abort reason t2 → t2.state = .aborted) ∧
    (LockRow txn lockMode tq? lrq = .abort reason t2 → t2.state = .aborted) ∧
    (UnlockRow txn oid rid tq? = .abort reason t2 → t2.state = .aborted) :=
  ⟨IsValidLockMode_abort txn lockMode isRow reason t2,
   LockTable_abort txn lockMode lrq reason t2,
   UnlockTable_abort txn oid tq? reason t2,
   LockRow_abort txn lockMode tq? lrq reason t2,
   UnlockRow_abort txn oid rid tq? reason t2⟩

/-- A growing repeatable-read transaction holding nothing. -/
def txn0 : Transaction :=
  { txnId := 7, state := .growing, isolationLevel := .repeatableRead,
    sharedTableLockSet := [], exclusiveTableLockSet := [],
    intentionSharedTableLockSet := [], intentionExclusiveTableLockSet := [],
    sharedIntentionExclusiveTableLockSet := [],
    sharedRowLockSet := [], exclusiveRowLockSet := [] }

/-- C7 witness: the abort-path theorem applied at a concrete abort —
unlocking a never-locked table aborts with `ATTEMPTED_UNLOCK_BUT_NO_LOCK_HELD`
and the observed transaction state is `ABORTED`. -/
theorem lock_manager_abort_paths_set_aborted_witness :
    UnlockTable txn0 5 none =
      .abort .attemptedUnlockButNoLockHeld { txn0 with state := .aborted } ∧
    ({ txn0 with state := .aborted } : Transaction).state = .aborted :=
  ⟨by decide,
   (lock_manager_abort_paths_set_aborted txn0 .shared false 5 0 ⟨[], none⟩ none
      .attemptedUnlockButNoLockHeld { txn0 with state := .aborted }).2.2.1 (by decide)⟩

/-! ## B+ tree (`b_plus_tree.cpp`, `b_plus_tree_leaf_page.cpp`,
`b_plus_tree_internal_page.cpp`)

Keys (`GenericKey` under an integer comparator) and values (`RID`s) are both
rendered as `Nat`.  The page-id/parent-id indirection of the on-disk pages is
replaced by direct subtrees: a page is only ever reached through its parent's
child slot or through `root_page_id_`, and every `parent_id` write in the
source (`UpdateParent`, `CopyNFrom`, `CopyLastFrom`, ...) keeps `parent_id`
equal to the physical parent, so the arena of pages is faithfully a tree.
The first entry of an internal node carries the unused slot-0 key exactly as
`array_[0].first` does: it is written by splits and read back as the
promoted separator (`new_inner->KeyAt(0)`), and skipped by `Lookup`.
`next_page_id_` splicing on leaves is omitted: no claim touches the leaf
chain. -/

/-- An in-memory B+-tree node. -/
inductive BTNode where
  | leaf (kvs : List (Nat × Nat))
  | inner (es : List (Nat × BTNode))
deriving Repr

/-- One step of the binary search of `B_PLUS_TREE_LEAF_PAGE_TYPE::Lookup`,
with the C++ `int` indices rendered as `Int` (when the key is smaller than
every stored key, `j` becomes `-1` and the loop exits).  The fuel is
`kvs.length + 1`, an upper bound on the iteration count, so it never runs
out on the ranges the code uses. -/
def leafLookupGo (kvs : List (Nat × Nat)) (key : Nat) : Nat → Int → Int → Option Nat
  | 0, _, _ => none
  | fuel + 1, i, j =>
      if i ≤ j then
        let mid := (i + j) / 2
        let p := kvs.getD mid.toNat (0, 0)
        if p.1 < key then leafLookupGo kvs key fuel (mid + 1) j
        else if key < p.1 then leafLookupGo kvs key fuel i (mid - 1)
        else some p.2
      else none

/-- `B_PLUS_TREE_LEAF_PAGE_TYPE::Lookup`: binary search over the leaf array,
`i = 0`, `j = n - 1`. -/
def leafLookup (kvs : List (Nat × Nat)) (key : Nat) : Option Nat :=
  leafLookupGo kvs key (kvs.length + 1) 0 ((kvs.length : Int) - 1)

/-- `B_PLUS_TREE_LEAF_PAGE_TYPE::Insert`: ordered insertion at the first
index whose key is `≥` the new key, appending at the back when no such index
exists. -/
def leafInsertList (key value : Nat) : List (Nat × Nat) → List (Nat × Nat)
  | [] => [(key, value)]
  | kv :: rest =>
      if key ≤ kv.1 then (key, value) :: kv :: rest
      else kv :: leafInsertList key value rest

/-- Result of inserting into a subtree: duplicate found (tree unchanged), an
updated node, or a split into `left`, promoted separator, `right`. -/
inductive InsRes where
  | dup
  | one (n : BTNode)
  | split (left : BTNode) (pkey : Nat) (right : BTNode)
deriving Repr

/-- Result of the child-insertion scan across an internal node's entry list:
duplicate, entries with the child updated in place, or entries with the
child replaced by the split's left node (at index `ci`) plus the pending
`(pkey, right)` pair still to be placed. -/
inductive TailRes where
  | dup
  | tail (es2 : List (Nat × BTNode))
  | tailSplit (es1 : List (Nat × BTNode)) (ci : Nat) (pkey : Nat) (right : BTNode)
deriving Repr

/-- `InternalPage::InsertNodeAfter`: place `(pkey, right)` directly after the
entry at index `ci`. -/
def insertAfterIdx (es : List (Nat × BTNode)) (ci : Nat) (pkey : Nat)
    (right : BTNode) : List (Nat × BTNode) :=
  es.take (ci + 1) ++ (pkey, right) :: es.drop (ci + 1)

/-- The internal-node split of `BPlusTree::Insert` (lines with `MoveHalfTo`
... `new_inner->Remove(0)`): halve the full entry list (`i = n / 2`, lower
half stays, upper half moves to the new sibling), insert `(pkey, right)`
after the split child in whichever half holds it, and when the new sibling
ends up more than one entry larger, move its first entry back to the end of
the lower half; the promoted key is the sibling's slot-0 key. -/
def internalSplit (es1 : List (Nat × BTNode)) (ci : Nat) (pkey : Nat)
    (right : BTNode) : Except Fault InsRes :=
  let i := es1.length / 2
  let lower := es1.take i
  let upper := es1.drop i
  let pair :=
    if ci < i then (insertAfterIdx lower ci pkey right, upper)
    else (lower, insertAfterIdx upper (ci - i) pkey right)
  let pair2 :=
    if pair.1.length + 1 < pair.2.length then
      match pair.2 with
      | [] => pair
      | rh :: rtail => (pair.1 ++ [rh], rtail)
    else pair
  match pair2.2 with
  | [] => .error .assertFail
  | rh :: _ => .ok (.split (.inner pair2.1) rh.1 (.inner pair2.2))

mutual

/-- Insertion into a subtree, following `BPlusTree::Insert`: at the leaf,
reject duplicates, insert in place when there is room, else split (`i = n/2`,
upper half moves to the new leaf, the incoming pair goes to whichever half
the comparison with the new leaf's first key selects, and the promoted key
is the new leaf's first key afterwards); at an internal node, run the entry
scan and then either place the pending pair (room permitting) or split the
node. -/
def insertNode (L I key value : Nat) : BTNode → Except Fault InsRes
  | .leaf kvs =>
      if (leafLookup kvs key).isSome then .ok .dup
      else if kvs.length < L then .ok (.one (.leaf (leafInsertList key value kvs)))
      else
        let i := kvs.length / 2
        let left0 := kvs.take i
        let right0 := kvs.drop i
        match right0 with
        | [] => .error .assertFail
        | r0 :: _ =>
            if r0.1 < key then
              if right0.length < L then
                let rightNew := leafInsertList key value right0
                .ok (.split (.leaf left0) ((rightNew.headD (0, 0)).1) (.leaf rightNew))
              else .error .assertFail
            else
              if left0.length < L then
                .ok (.split (.leaf (leafInsertList key value left0)) r0.1 (.leaf right0))
              else .error .assertFail
  | .inner es =>
      match insertTail L I key value es with
      | .error f => .error f
      | .ok .dup => .ok .dup
      | .ok (.tail es2) => .ok (.one (.inner es2))
      | .ok (.tailSplit es1 ci pk r) =>
          if es1.length < I then .ok (.one (.inner (insertAfterIdx es1 ci pk r)))
          else internalSplit es1 ci pk r

/-- The scan of `InternalPage::Lookup` fused with the child insertion: the
child descended into is the one before the first key greater than the search
key (slot-0's key is never compared), the last child otherwise.  The empty
list is the unreachable degenerate internal page of size 0. -/
def insertTail (L I key value : Nat) : List (Nat × BTNode) → Except Fault TailRes
  | [] => .error .assertFail
  | [e0] =>
      (match insertNode L I key value e0.2 with
       | .error f => .error f
       | .ok .dup => .ok .dup
       | .ok (.one n2) => .ok (.tail [(e0.1, n2)])
       | .ok (.split l pk r) => .ok (.tailSplit [(e0.1, l)] 0 pk r))
  | e0 :: e :: rest =>
      if key < e.1 then
        (match insertNode L I key value e0.2 with
         | .error f => .error f
         | .ok .dup => .ok .dup
         | .ok (.one n2) => .ok (.tail ((e0.1, n2) :: e :: rest))
         | .ok (.split l pk r) => .ok (.tailSplit ((e0.1, l) :: e :: rest) 0 pk r))
      else
        (match insertTail L I key value (e :: rest) with
         | .error f => .error f
         | .ok .dup => .ok .dup
         | .ok (.tail tl) => .ok (.tail (e0 :: tl))
         | .ok (.tailSplit tl ci pk r) => .ok (.tailSplit (e0 :: tl) (ci + 1) pk r))

end

mutual

/-- `BPlusTree::GetValue`'s descent on a subtree: read-latch crabbing has no
state effect; at the leaf, the binary search. -/
def getValueNode : BTNode → Nat → Option Nat
  | .leaf kvs, key => leafLookup kvs key
  | .inner es, key => getValueEntries es key

/-- The descent over an internal node's entry list, the scan of
`InternalPage::Lookup`: descend into the child before the first key
exceeding the search key, else into the last child. -/
def getValueEntries : List (Nat × BTNode) → Nat → Option Nat
  | [], _ => none
  | [e0], key => getValueNode e0.2 key
  | e0 :: e :: rest, key =>
      if key < e.1 then getValueNode e0.2 key else getValueEntries (e :: rest) key

end

/-- The tree object: `leaf_max_size_`, `internal_max_size_`, and the root
(`root_page_id_ = INVALID_PAGE_ID` rendered as `none`). -/
structure BPlusTree where
  leafMax : Nat
  internalMax : Nat
  root : Option BTNode

/-- `BPlusTree::GetValue`: on an empty tree the code fetches
`root_page_id_ = INVALID_PAGE_ID` from the buffer pool without any check and
asserts the fetched page non-null, so the empty tree faults instead of
returning `false`. -/
def BPlusTree.GetValue (t : BPlusTree) (key : Nat) : Except Fault (Option Nat) :=
  match t.root with
  | none => .error .assertFail
  | some n => .ok (getValueNode n key)

/-- `BPlusTree::Insert`: an empty tree first gets a fresh empty root leaf
(`LockInsert`), then the descent inserts; a root split installs a new
internal root via `PopulateNewRoot` (its slot-0 key is the zeroed page
memory, `0`). -/
def BPlusTree.Insert (t : BPlusTree) (key value : Nat) :
    Except Fault (BPlusTree × Bool) :=
  let root0 := match t.root with
               | none => BTNode.leaf []
               | some n => n
  match insertNode t.leafMax t.internalMax key value root0 with
  | .error f => .error f
  | .ok .dup => .ok ({ t with root := some root0 }, false)
  | .ok (.one n2) => .ok ({ t with root := some n2 }, true)
  | .ok (.split l pk r) =>
      .ok ({ t with root := some (.inner [(0, l), (pk, r)]) }, true)

/-- `BPlusTree::GetLeafPage` with `isInsert = false`, the descent used by
`Remove`: the loop body's else-branch is a bare `assert(false)`
(`// TODO: implement safe protocol for deletion`), executed for the very
first fetched page, before the leaf check, whatever the node is. -/
def getLeafPageForDelete (_n : BTNode) (_key : Nat) : Except Fault BTNode :=
  .error .assertFail

/-- `BPlusTree::Remove`: on an empty tree `GetLeafPage` returns `nullptr`
and `assert(leaf_page != nullptr)` fails; on a non-empty tree the delete
descent itself faults.  The deletion logic after the descent
(`RemoveAndDeleteRecord`, the early-return size test, borrow, merge) is dead
code, modelled separately by `removeNeedsRebalance` and
`leafSiblingCanSpare`. -/
def BPlusTree.Remove (t : BPlusTree) (key : Nat) : Except Fault BPlusTree :=
  match t.root with
  | none => .error .assertFail
  | some n =>
      match getLeafPageForDelete n key with
      | .error f => .error f
      | .ok _ => .ok t

/-- The early-return test after the leaf deletion in `BPlusTree::Remove`
(`sizeAfter >= leaf->GetMaxSize()/2 || leaf->IsRootPage()`): borrow/merge is
attempted exactly when this is false. -/
def removeNeedsRebalance (sizeAfter maxSize : Nat) (isRoot : Bool) : Bool :=
  !(decide (maxSize / 2 ≤ sizeAfter) || isRoot)

/-- The spare test of `BPlusTree::BorrowFromLeaf`
(`sibling->GetSize() > sibling->GetMaxSize() / 2`). -/
def leafSiblingCanSpare (siblingSize maxSize : Nat) : Bool :=
  decide (maxSize / 2 < siblingSize)

/-! ### Search-tree well-formedness

A subtree rooted under the separator pair `(k_i, k_{i+1})` holds exactly the
keys in the half-open window `[k_i, k_{i+1})`: the lower bound is inclusive
(the separator promoted by a split stays as the first key of the right
half), the upper bound exclusive.  `none` is an unbounded side. -/

/-- `lo ≤ k` (inclusive lower window bound). -/
def leLo (lo : Option Nat) (k : Nat) : Bool :=
  match lo with
  | none => true
  | some l => decide (l ≤ k)

/-- `lo < k` (what separator keys inside a node satisfy against the window's
lower bound). -/
def ltLo (lo : Option Nat) (k : Nat) : Bool :=
  match lo with
  | none => true
  | some l => decide (l < k)

/-- `k < hi`. -/
def ltHi (hi : Option Nat) (k : Nat) : Bool :=
  match hi with
  | none => true
  | some h => decide (k < h)

/-- `k` lies in the window `[lo, hi)`. -/
def inB (lo hi : Option Nat) (k : Nat) : Bool :=
  leLo lo k && ltHi hi k

/-- The keys of a leaf are strictly increasing and lie in `[lo, hi)`. -/
def leafSorted (lo hi : Option Nat) : List (Nat × Nat) → Bool
  | [] => true
  | kv :: rest => inB lo hi kv.1 && leafSorted (some (kv.1 + 1)) hi rest

mutual

/-- Well-formedness of a subtree within the window `[lo, hi)`: leaves are
sorted and within `max_size`; internal nodes are non-empty, within
`max_size`, and their entry list is well-formed. -/
def wfNode (L I : Nat) : Option Nat → Option Nat → BTNode → Bool
  | lo, hi, .leaf kvs => decide (kvs.length ≤ L) && leafSorted lo hi kvs
  | lo, hi, .inner es => decide (es.length ≤ I) && wfEntries L I lo hi es

/-- Well-formedness of an internal node's entry list within `[lo, hi)`: each
separator key after slot 0 lies strictly inside the window and strictly
above its predecessor, and each child is well-formed within its separator
window (the slot-0 key carries no constraint). -/
def wfEntries (L I : Nat) : Option Nat → Option Nat → List (Nat × BTNode) → Bool
  | _, _, [] => false
  | lo, hi, [e0] => wfNode L I lo hi e0.2
  | lo, hi, e0 :: e :: rest =>
      ltLo lo e.1 && ltHi hi e.1 && wfNode L I lo (some e.1) e0.2 &&
        wfEntries L I (some e.1) hi (e :: rest)

end

/-- The linear association scan a binary search over a sorted array
implements. -/
def findKey : List (Nat × Nat) → Nat → Option Nat
  | [], _ => none
  | kv :: rest, key => if kv.1 = key then some kv.2 else findKey rest key

/-- Unpacking membership in a window. -/
theorem inB_iff (lo hi : Option Nat) (k : Nat) :
    inB lo hi k = true ↔ leLo lo k = true ∧ ltHi hi k = true := by
  simp [inB]

/-- `leLo` on a `some` bound. -/
theorem leLo_some (l k : Nat) : leLo (some l) k = true ↔ l ≤ k := by
  simp [leLo]

/-- `ltLo` on a `some` bound. -/
theorem ltLo_some (l k : Nat) : ltLo (some l) k = true ↔ l < k := by
  simp [ltLo]

/-- `ltHi` on a `some` bound. -/
theorem ltHi_some (h k : Nat) : ltHi (some h) k = true ↔ k < h := by
  simp [ltHi]

/-- `leLo` is antitone in the bound. -/
theorem leLo_mono (lo : Option Nat) (a k : Nat) (hak : a ≤ k) (h : leLo lo a = true) :
    leLo lo k = true := by
  cases lo with
  | none => rfl
  | some l => rw [leLo_some] at h ⊢; omega

/-- A strict lower bound is in particular an inclusive one. -/
theorem leLo_of_ltLo (lo : Option Nat) (k : Nat) (h : ltLo lo k = true) :
    leLo lo k = true := by
  cases lo with
  | none => rfl
  | some l => rw [ltLo_some] at h; rw [leLo_some]; omega

/-- `ltLo` from an inclusive bound on a smaller key. -/
theorem ltLo_of_leLo_lt (lo : Option Nat) (a k : Nat) (hak : a < k)
    (h : leLo lo a = true) : ltLo lo k = true := by
  cases lo with
  | none => rfl
  | some l => rw [leLo_some] at h; rw [ltLo_some]; omega

/-- `ltLo` is antitone in the key direction. -/
theorem ltLo_mono (lo : Option Nat) (a k : Nat) (hak : a ≤ k) (h : ltLo lo a = true) :
    ltLo lo k = true := by
  cases lo with
  | none => rfl
  | some l => rw [ltLo_some] at h ⊢; omega

/-- `ltHi` is monotone downward in the key. -/
theorem ltHi_mono (hi : Option Nat) (a k : Nat) (hak : k ≤ a) (h : ltHi hi a = true) :
    ltHi hi k = true := by
  cases hi with
  | none => rfl
  | some hb => rw [ltHi_some] at h ⊢; omega

/-- Keys of a sorted leaf respect the inclusive lower bound. -/
theorem leafSorted_ge_lo (hi : Option Nat) (a : Nat) :
    ∀ kvs : List (Nat × Nat), leafSorted (some a) hi kvs = true →
      ∀ p ∈ kvs, a ≤ p.1 := by
  intro kvs
  induction kvs generalizing a with
  | nil =>
      intro _ p hp
      exact absurd hp (List.not_mem_nil p)
  | cons kv rest ih =>
      intro hs p hp
      unfold leafSorted at hs
      simp only [Bool.and_eq_true] at hs
      have hhead : a ≤ kv.1 := by
        have h1 := ((inB_iff _ _ _).mp hs.1).1
        exact (leLo_some _ _).mp h1
      rcases List.mem_cons.mp hp with rfl | hrest
      · exact hhead
      · have := ih (kv.1 + 1) hs.2 p hrest
        omega

/-- Keys of a sorted leaf respect the exclusive upper bound. -/
theorem leafSorted_lt_hi (lo hi : Option Nat) :
    ∀ kvs : List (Nat × Nat), leafSorted lo hi kvs = true →
      ∀ p ∈ kvs, ltHi hi p.1 = true := by
  intro kvs
  induction kvs generalizing lo with
  | nil =>
      intro _ p hp
      exact absurd hp (List.not_mem_nil p)
  | cons kv rest ih =>
      intro hs p hp
      unfold leafSorted at hs
      simp only [Bool.and_eq_true] at hs
      rcases List.mem_cons.mp hp with rfl | hrest
      · exact ((inB_iff _ _ _).mp hs.1).2
      · exact ih (some (kv.1 + 1)) hs.2 p hrest

/-- A sorted leaf's keys are pairwise strictly increasing. -/
theorem leafSorted_pairwise (lo hi : Option Nat) :
    ∀ kvs : List (Nat × Nat), leafSorted lo hi kvs = true →
      List.Pairwise (· < ·) (kvs.map Prod.fst) := by
  intro kvs
  induction kvs generalizing lo with
  | nil => intro _; simp
  | cons kv rest ih =>
      intro hs
      unfold leafSorted at hs
      simp only [Bool.and_eq_true] at hs
      simp only [List.map_cons, List.pairwise_cons]
      constructor
      · intro b hb
        obtain ⟨p, hp, rfl⟩ := List.mem_map.mp hb
        have := leafSorted_ge_lo hi (kv.1 + 1) rest hs.2 p hp
        omega
      · exact ih (some (kv.1 + 1)) hs.2

/-- `findKey` over an append. -/
theorem findKey_append (key : Nat) :
    ∀ xs ys : List (Nat × Nat),
      findKey (xs ++ ys) key =
        (match findKey xs key with
         | some v => some v
         | none => findKey ys key) := by
  intro xs ys
  induction xs with
  | nil => rfl
  | cons kv rest ih =>
      simp only [List.cons_append, findKey]
      by_cases h : kv.1 = key
      · simp [h]
      · simp [h, ih]

/-- A `findKey` miss means no stored pair carries the key. -/
theorem findKey_none_forall (key : Nat) :
    ∀ kvs : List (Nat × Nat), findKey kvs key = none → ∀ p ∈ kvs, p.1 ≠ key := by
  intro kvs
  induction kvs with
  | nil =>
      intro _ p hp
      exact absurd hp (List.not_mem_nil p)
  | cons kv rest ih =>
      intro h p hp
      simp only [findKey] at h
      by_cases hk : kv.1 = key
      · rw [if_pos hk] at h
        cases h
      · rw [if_neg hk] at h
        rcases List.mem_cons.mp hp with rfl | hrest
        · exact hk
        · exact ih h p hrest

/-- Conversely, a key carried by no stored pair is a `findKey` miss. -/
theorem findKey_none_of_forall (key : Nat) :
    ∀ kvs : List (Nat × Nat), (∀ p ∈ kvs, p.1 ≠ key) → findKey kvs key = none := by
  intro kvs
  induction kvs with
  | nil => intro _; rfl
  | cons kv rest ih =>
      intro h
      simp only [findKey]
      rw [if_neg (h kv (List.mem_cons_self kv rest))]
      exact ih (fun p hp => h p (List.mem_cons_of_mem kv hp))

/-- Inserting below the first not-smaller key puts the new pair where
`findKey` finds it. -/
theorem findKey_leafInsertList (key value : Nat) :
    ∀ kvs : List (Nat × Nat), findKey (leafInsertList key value kvs) key = some value := by
  intro kvs
  induction kvs with
  | nil => simp [leafInsertList, findKey]
  | cons kv rest ih =>
      simp only [leafInsertList]
      by_cases h : key ≤ kv.1
      · rw [if_pos h]
        simp [findKey]
      · rw [if_neg h]
        simp only [findKey]
        rw [if_neg (by omega)]
        exact ih

/-- Insertion keeps a leaf sorted when the key is inside the window and not
yet present. -/
theorem leafSorted_leafInsertList (key value : Nat) :
    ∀ (kvs : List (Nat × Nat)) (lo hi : Option Nat), leafSorted lo hi kvs = true →
      inB lo hi key = true → findKey kvs key = none →
      leafSorted lo hi (leafInsertList key value kvs) = true := by
  intro kvs
  induction kvs with
  | nil =>
      intro lo hi _ hk _
      simp [leafInsertList, leafSorted, hk]
  | cons kv rest ih =>
      intro lo hi hs hk hf
      unfold leafSorted at hs
      simp only [Bool.and_eq_true] at hs
      have hne : kv.1 ≠ key := by
        intro he
        simp only [findKey] at hf
        rw [if_pos he] at hf
        cases hf
      simp only [leafInsertList]
      by_cases h : key ≤ kv.1
      · rw [if_pos h]
        have hklt : key < kv.1 := by omega
        unfold leafSorted
        simp only [Bool.and_eq_true]
        refine ⟨hk, ?_⟩
        unfold leafSorted
        simp only [Bool.and_eq_true]
        refine ⟨?_, hs.2⟩
        rw [inB_iff]
        refine ⟨?_, ((inB_iff _ _ _).mp hs.1).2⟩
        rw [leLo_some]
        omega
      · rw [if_neg h]
        unfold leafSorted
        simp only [Bool.and_eq_true]
        refine ⟨hs.1, ?_⟩
        refine ih (some (kv.1 + 1)) hi hs.2 ?_ ?_
        · rw [inB_iff]
          refine ⟨?_, ((inB_iff _ _ _).mp hk).2⟩
          rw [leLo_some]
          omega
        · simp only [findKey] at hf
          rw [if_neg hne] at hf
          exact hf

/-- Splitting a sorted leaf at any pair: the lower part is sorted below the
pair's key, the pair's key is in the window, and the upper part including
the pair is sorted above-or-at its key. -/
theorem leafSorted_split (hi : Option Nat) (p : Nat × Nat) (ys : List (Nat × Nat)) :
    ∀ (xs : List (Nat × Nat)) (lo : Option Nat),
      leafSorted lo hi (xs ++ p :: ys) = true →
      leafSorted lo (some p.1) xs = true ∧ inB lo hi p.1 = true ∧
        leafSorted (some p.1) hi (p :: ys) = true := by
  intro xs
  induction xs with
  | nil =>
      intro lo hs
      simp only [List.nil_append] at hs
      unfold leafSorted at hs
      simp only [Bool.and_eq_true] at hs
      refine ⟨rfl, hs.1, ?_⟩
      unfold leafSorted
      simp only [Bool.and_eq_true]
      refine ⟨?_, hs.2⟩
      rw [inB_iff]
      exact ⟨(leLo_some _ _).mpr (Nat.le_refl _), ((inB_iff _ _ _).mp hs.1).2⟩
  | cons kv rest ih =>
      intro lo hs
      simp only [List.cons_append] at hs
      unfold leafSorted at hs
      simp only [Bool.and_eq_true] at hs
      obtain ⟨h1, h2, h3⟩ := ih (some (kv.1 + 1)) hs.2
      have hkvp : kv.1 < p.1 := by
        have := ((inB_iff _ _ _).mp h2).1
        rw [leLo_some] at this
        omega
      refine ⟨?_, ?_, h3⟩
      · unfold leafSorted
        simp only [Bool.and_eq_true]
        refine ⟨?_, h1⟩
        rw [inB_iff]
        refine ⟨((inB_iff _ _ _).mp hs.1).1, ?_⟩
        rw [ltHi_some]
        exact hkvp
      · rw [inB_iff]
        refine ⟨?_, ((inB_iff _ _ _).mp h2).2⟩
        exact leLo_mono lo kv.1 p.1 (by omega) ((inB_iff _ _ _).mp hs.1).1

/-- Strict monotonicity of leaf keys by index, from pairwise sortedness. -/
theorem keyAt_strictMono (kvs : List (Nat × Nat))
    (hsort : List.Pairwise (· < ·) (kvs.map Prod.fst)) (a b : Nat)
    (hab : a < b) (hb : b < kvs.length) :
    (kvs.getD a (0, 0)).1 < (kvs.getD b (0, 0)).1 := by
  have ha : a < kvs.length := lt_trans hab hb
  have ha2 : a < (kvs.map Prod.fst).length := by simp [ha]
  have hb2 : b < (kvs.map Prod.fst).length := by simp [hb]
  have h := List.pairwise_iff_getElem.mp hsort a b ha2 hb2 hab
  simp only [List.getElem_map] at h
  rw [List.getD_eq_getElem kvs (0, 0) ha, List.getD_eq_getElem kvs (0, 0) hb]
  exact h

/-- `findKey` finds the pair stored at any index carrying the key, in a
pairwise-sorted leaf. -/
theorem findKey_at_index (key : Nat) :
    ∀ kvs : List (Nat × Nat), List.Pairwise (· < ·) (kvs.map Prod.fst) →
      ∀ m : Nat, m < kvs.length → (kvs.getD m (0, 0)).1 = key →
        findKey kvs key = some (kvs.getD m (0, 0)).2 := by
  intro kvs
  induction kvs with
  | nil =>
      intro _ m hm _
      simp at hm
  | cons kv rest ih =>
      intro hsort m hm hk
      simp only [List.map_cons, List.pairwise_cons] at hsort
      cases m with
      | zero =>
          simp only [List.getD_cons_zero] at hk ⊢
          simp only [findKey]
          rw [if_pos hk]
      | succ m2 =>
          simp only [List.getD_cons_succ] at hk ⊢
          have hm2 : m2 < rest.length := by
            simp only [List.length_cons] at hm
            omega
          have hne : kv.1 ≠ key := by
            have hmem : (rest.getD m2 (0, 0)).1 ∈ rest.map Prod.fst := by
              rw [List.getD_eq_getElem rest (0, 0) hm2]
              exact List.mem_map_of_mem Prod.fst (List.getElem_mem hm2)
            have := hsort.1 _ hmem
            omega
          simp only [findKey]
          rw [if_neg hne]
          exact ih hsort.2 m2 hm2 hk

/-- The leaf binary search agrees with the linear association scan on any
window that contains every occurrence of the key. -/
theorem leafLookupGo_eq_findKey (kvs : List (Nat × Nat)) (key : Nat)
    (hsort : List.Pairwise (· < ·) (kvs.map Prod.fst)) :
    ∀ (fuel : Nat) (i j : Int), 0 ≤ i → j < (kvs.length : Int) →
      (j - i + 1).toNat < fuel →
      (∀ idx : Nat, idx < kvs.length → (kvs.getD idx (0, 0)).1 = key →
        i ≤ (idx : Int) ∧ (idx : Int) ≤ j) →
      leafLookupGo kvs key fuel i j = findKey kvs key := by
  intro fuel
  induction fuel with
  | zero =>
      intro i j _ _ hfuel _
      omega
  | succ fuel ih =>
      intro i j hi hj hfuel hwin
      by_cases hij : i ≤ j
      · have hmid1 : i ≤ (i + j) / 2 := by omega
        have hmid2 : (i + j) / 2 ≤ j := by omega
        have hmlt : ((i + j) / 2).toNat < kvs.length := by omega
        show (if i ≤ j then
                let mid := (i + j) / 2
                let p := kvs.getD mid.toNat (0, 0)
                if p.1 < key then leafLookupGo kvs key fuel (mid + 1) j
                else if key < p.1 then leafLookupGo kvs key fuel i (mid - 1)
                else some p.2
              else none) = findKey kvs key
        rw [if_pos hij]
        show (if (kvs.getD ((i + j) / 2).toNat (0, 0)).1 < key then
                leafLookupGo kvs key fuel ((i + j) / 2 + 1) j
              else if key < (kvs.getD ((i + j) / 2).toNat (0, 0)).1 then
                leafLookupGo kvs key fuel i ((i + j) / 2 - 1)
              else some (kvs.getD ((i + j) / 2).toNat (0, 0)).2) = findKey kvs key
        rcases Nat.lt_trichotomy (kvs.getD ((i + j) / 2).toNat (0, 0)).1 key with hc | hc | hc
        · rw [if_pos hc]
          refine ih ((i + j) / 2 + 1) j (by omega) hj (by omega) ?_
          intro idx hidx hkey
          obtain ⟨h1, h2⟩ := hwin idx hidx hkey
          refine ⟨?_, h2⟩
          by_contra hcon
          push_neg at hcon
          rcases Nat.lt_or_ge idx (((i + j) / 2).toNat) with hlt | hge
          · have := keyAt_strictMono kvs hsort idx _ hlt hmlt
            omega
          · have heq : idx = ((i + j) / 2).toNat := by omega
            rw [heq] at hkey
            omega
        · rw [if_neg (by omega), if_neg (by omega)]
          exact (findKey_at_index key kvs hsort _ hmlt hc).symm
        · rw [if_neg (by omega), if_pos hc]
          refine ih i ((i + j) / 2 - 1) hi (by omega) (by omega) ?_
          intro idx hidx hkey
          obtain ⟨h1, h2⟩ := hwin idx hidx hkey
          refine ⟨h1, ?_⟩
          by_contra hcon
          push_neg at hcon
          rcases Nat.lt_or_ge (((i + j) / 2).toNat) idx with hlt | hge
          · have := keyAt_strictMono kvs hsort _ idx hlt hidx
            omega
          · have heq : idx = ((i + j) / 2).toNat := by omega
            rw [heq] at hkey
            omega
      · show (if i ≤ j then
                let mid := (i + j) / 2
                let p := kvs.getD mid.toNat (0, 0)
                if p.1 < key then leafLookupGo kvs key fuel (mid + 1) j
                else if key < p.1 then leafLookupGo kvs key fuel i (mid - 1)
                else some p.2
              else none) = findKey kvs key
        rw [if_neg hij]
        symm
        apply findKey_none_of_forall
        intro p hp hpk
        obtain ⟨idx, hidx, hidxe⟩ := List.getElem_of_mem hp
        have hkd : (kvs.getD idx (0, 0)).1 = key := by
          rw [List.getD_eq_getElem kvs (0, 0) hidx, hidxe, hpk]
        obtain ⟨h1, h2⟩ := hwin idx hidx hkd
        omega

/-- On a sorted leaf, `Lookup`'s binary search is the association lookup. -/
theorem leafLookup_eq_findKey (kvs : List (Nat × Nat)) (key : Nat)
    (hsort : List.Pairwise (· < ·) (kvs.map Prod.fst)) :
    leafLookup kvs key = findKey kvs key := by
  unfold leafLookup
  refine leafLookupGo_eq_findKey kvs key hsort (kvs.length + 1) 0
    ((kvs.length : Int) - 1) (by omega) (by omega) (by omega) ?_
  intro idx hidx _
  omega

/-- A well-formed entry list is non-empty. -/
theorem wfEntries_ne_nil (L I : Nat) (lo hi : Option Nat)
    (es : List (Nat × BTNode)) (h : wfEntries L I lo hi es = true) : es ≠ [] := by
  cases es with
  | nil => simp [wfEntries] at h
  | cons e0 rest => exact List.cons_ne_nil e0 rest

/-- Cutting a well-formed entry list before any entry yields two well-formed
halves whose windows meet at that entry's key. -/
theorem wfEntries_split (L I : Nat) (hi : Option Nat) (p : Nat × BTNode)
    (ys : List (Nat × BTNode)) :
    ∀ (xs : List (Nat × BTNode)) (lo : Option Nat), xs ≠ [] →
      wfEntries L I lo hi (xs ++ p :: ys) = true →
      wfEntries L I lo (some p.1) xs = true ∧ ltLo lo p.1 = true ∧
        ltHi hi p.1 = true ∧ wfEntries L I (some p.1) hi (p :: ys) = true := by
  intro xs
  induction xs with
  | nil =>
      intro lo hne _
      exact absurd rfl hne
  | cons x xs ih =>
      intro lo _ hwf
      cases xs with
      | nil =>
          simp only [List.cons_append, List.nil_append] at hwf
          simp only [wfEntries, Bool.and_eq_true] at hwf
          obtain ⟨⟨⟨ha, hb⟩, hc⟩, hd⟩ := hwf
          refine ⟨?_, ha, hb, hd⟩
          simp only [wfEntries]
          exact hc
      | cons x2 xs2 =>
          simp only [List.cons_append] at hwf
          simp only [wfEntries, Bool.and_eq_true] at hwf
          obtain ⟨⟨⟨ha, hb⟩, hc⟩, hd⟩ := hwf
          have hd2 : wfEntries L I (some x2.1) hi ((x2 :: xs2) ++ p :: ys) = true := by
            simp only [List.cons_append]
            exact hd
          obtain ⟨ih1, ih2, ih3, ih4⟩ := ih (some x2.1) (List.cons_ne_nil x2 xs2) hd2
          have hx2p : x2.1 < p.1 := (ltLo_some _ _).mp ih2
          refine ⟨?_, ltLo_mono lo x2.1 p.1 (by omega) ha, ih3, ih4⟩
          simp only [wfEntries, Bool.and_eq_true]
          exact ⟨⟨⟨ha, (ltHi_some _ _).mpr hx2p⟩, hc⟩, ih1⟩

/-- The descent over a cut entry list goes into the half the cutting key
selects. -/
theorem getValueEntries_cut (L I key : Nat) (hi : Option Nat) (p : Nat × BTNode)
    (ys : List (Nat × BTNode)) :
    ∀ (xs : List (Nat × BTNode)) (lo : Option Nat), xs ≠ [] →
      wfEntries L I lo hi (xs ++ p :: ys) = true →
      getValueEntries (xs ++ p :: ys) key =
        if key < p.1 then getValueEntries xs key else getValueEntries (p :: ys) key := by
  intro xs
  induction xs with
  | nil =>
      intro lo hne _
      exact absurd rfl hne
  | cons x xs ih =>
      intro lo _ hwf
      cases xs with
      | nil =>
          simp only [List.cons_append, List.nil_append] at hwf ⊢
          simp only [getValueEntries]
      | cons x2 xs2 =>
          simp only [List.cons_append] at hwf ⊢
          simp only [wfEntries, Bool.and_eq_true] at hwf
          obtain ⟨⟨⟨ha, hb⟩, hc⟩, hd⟩ := hwf
          have hd2 : wfEntries L I (some x2.1) hi ((x2 :: xs2) ++ p :: ys) = true := by
            simp only [List.cons_append]
            exact hd
          have hx2p : x2.1 < p.1 := by
            have := (wfEntries_split L I hi p ys (x2 :: xs2) (some x2.1)
              (List.cons_ne_nil x2 xs2) hd2).2.1
            exact (ltLo_some _ _).mp this
          have ihe := ih (some x2.1) (List.cons_ne_nil x2 xs2) hd2
          simp only [List.cons_append] at ihe
          by_cases h : key < x2.1
          · have hkp : key < p.1 := by omega
            simp only [getValueEntries]
            rw [if_pos h, if_pos hkp, if_pos h]
          · simp only [getValueEntries]
            rw [if_neg h, ihe]
            by_cases h2 : key < p.1
            · rw [if_pos h2, if_pos h2, if_neg h]
            · rw [if_neg h2, if_neg h2]

/-- `InsertNodeAfter` on a cons, placing after a later slot. -/
theorem insertAfterIdx_cons_succ (x : Nat × BTNode) (l : List (Nat × BTNode))
    (ci pk : Nat) (r : BTNode) :
    insertAfterIdx (x :: l) (ci + 1) pk r = x :: insertAfterIdx l ci pk r := by
  simp [insertAfterIdx]

/-- `InsertNodeAfter` on a cons keeps the head. -/
theorem insertAfterIdx_cons (x : Nat × BTNode) (l : List (Nat × BTNode))
    (ci pk : Nat) (r : BTNode) :
    insertAfterIdx (x :: l) ci pk r = x :: (l.take ci ++ (pk, r) :: l.drop ci) := by
  simp [insertAfterIdx]

/-- `InsertNodeAfter` after slot 0 of a cons. -/
theorem insertAfterIdx_zero (x : Nat × BTNode) (l : List (Nat × BTNode))
    (pk : Nat) (r : BTNode) :
    insertAfterIdx (x :: l) 0 pk r = x :: (pk, r) :: l := by
  simp [insertAfterIdx]

/-- `InsertNodeAfter` grows the list by one. -/
theorem insertAfterIdx_length (es : List (Nat × BTNode)) (ci pk : Nat) (r : BTNode)
    (hci : ci < es.length) :
    (insertAfterIdx es ci pk r).length = es.length + 1 := by
  simp only [insertAfterIdx, List.length_append, List.length_take, List.length_cons,
    List.length_drop]
  omega

/-- `InsertNodeAfter` keeps the separator keys of the untouched entries. -/
theorem insertAfterIdx_map_fst (es : List (Nat × BTNode)) (ci pk : Nat) (r : BTNode) :
    (insertAfterIdx es ci pk r).map Prod.fst =
      (es.take (ci + 1)).map Prod.fst ++ pk :: (es.drop (ci + 1)).map Prod.fst := by
  simp [insertAfterIdx]

/-- Inserting inside the lower half then re-appending the upper half is
insertion into the whole list. -/
theorem insertAfterIdx_append_left (es1 : List (Nat × BTNode)) (i ci pk : Nat)
    (r : BTNode) (hci : ci < i) (hi : i ≤ es1.length) :
    insertAfterIdx (es1.take i) ci pk r ++ es1.drop i = insertAfterIdx es1 ci pk r := by
  simp only [insertAfterIdx]
  rw [List.take_take, Nat.min_eq_left (by omega), List.drop_take]
  rw [List.append_assoc, List.cons_append]
  congr 1
  congr 1
  have h1 : es1.drop i = (es1.drop (ci + 1)).drop (i - (ci + 1)) := by
    rw [List.drop_drop]
    congr 1
    omega
  rw [h1]
  exact List.take_append_drop _ _

/-- Inserting inside the upper half after re-prefixing the lower half is
insertion into the whole list. -/
theorem insertAfterIdx_append_right (es1 : List (Nat × BTNode)) (i ci pk : Nat)
    (r : BTNode) (hge : i ≤ ci) (hci : ci < es1.length) :
    es1.take i ++ insertAfterIdx (es1.drop i) (ci - i) pk r = insertAfterIdx es1 ci pk r := by
  simp only [insertAfterIdx]
  rw [← List.append_assoc]
  have h1 : es1.take i ++ (es1.drop i).take (ci - i + 1) = es1.take (ci + 1) := by
    rw [show ci + 1 = i + (ci - i + 1) by omega]
    exact (List.take_add ..).symm
  have h2 : (es1.drop i).drop (ci - i + 1) = es1.drop (ci + 1) := by
    rw [List.drop_drop]
    congr 1
    omega
  rw [h1, h2]

/-- `internalSplit` under a valid child index: it cuts the entry list with
the pending pair placed, never faults, promotes the upper half's slot-0 key,
and both halves stay within half-plus-one of the original size. -/
theorem internalSplit_spec (es1 : List (Nat × BTNode)) (ci pk : Nat) (r : BTNode)
    (hci : ci < es1.length) :
    ∃ (left : List (Nat × BTNode)) (rh : Nat × BTNode) (rtail : List (Nat × BTNode)),
      internalSplit es1 ci pk r = .ok (.split (.inner left) rh.1 (.inner (rh :: rtail))) ∧
      left ++ rh :: rtail = insertAfterIdx es1 ci pk r ∧
      left ≠ [] ∧
      left.length ≤ es1.length / 2 + 1 ∧
      (rh :: rtail).length ≤ es1.length - es1.length / 2 + 1 := by
  simp only [internalSplit]
  by_cases hlt : ci < es1.length / 2
  · have hlen1 : (insertAfterIdx (es1.take (es1.length / 2)) ci pk r).length =
        es1.length / 2 + 1 := by
      rw [insertAfterIdx_length]
      · simp only [List.length_take]
        omega
      · simp only [List.length_take]
        omega
    have hlen2 : (es1.drop (es1.length / 2)).length = es1.length - es1.length / 2 := by
      simp
    rw [if_pos hlt]
    cases hdrop : es1.drop (es1.length / 2) with
    | nil =>
        rw [hdrop] at hlen2
        simp only [List.length_nil] at hlen2
        omega
    | cons rh rtail =>
        have hreb : ¬ ((insertAfterIdx (es1.take (es1.length / 2)) ci pk r).length + 1 <
            (rh :: rtail).length) := by
          rw [hlen1]
          rw [hdrop] at hlen2
          simp only [List.length_cons] at hlen2 ⊢
          omega
        rw [if_neg hreb]
        refine ⟨insertAfterIdx (es1.take (es1.length / 2)) ci pk r, rh, rtail,
          rfl, ?_, ?_, ?_, ?_⟩
        · rw [← hdrop]
          exact insertAfterIdx_append_left es1 (es1.length / 2) ci pk r hlt (by omega)
        · intro hnil
          have := congrArg List.length hnil
          rw [hlen1] at this
          simp at this
        · omega
        · rw [hdrop] at hlen2
          simp only [List.length_cons] at hlen2 ⊢
          omega
  · have hi2 : es1.length / 2 ≤ ci := by omega
    have hipos : 1 ≤ es1.length / 2 ∨ es1.length ≤ 1 := by omega
    have hlen1 : (es1.take (es1.length / 2)).length = es1.length / 2 := by
      simp only [List.length_take]
      omega
    have hlen2 : (insertAfterIdx (es1.drop (es1.length / 2)) (ci - es1.length / 2) pk r).length =
        es1.length - es1.length / 2 + 1 := by
      rw [insertAfterIdx_length]
      · simp only [List.length_drop]
      · simp only [List.length_drop]
        omega
    rw [if_neg hlt]
    have happ : es1.take (es1.length / 2) ++
        insertAfterIdx (es1.drop (es1.length / 2)) (ci - es1.length / 2) pk r =
        insertAfterIdx es1 ci pk r :=
      insertAfterIdx_append_right es1 (es1.length / 2) ci pk r hi2 hci
    by_cases hreb : (es1.take (es1.length / 2)).length + 1 <
        (insertAfterIdx (es1.drop (es1.length / 2)) (ci - es1.length / 2) pk r).length
    · rw [if_pos hreb]
      cases hd : insertAfterIdx (es1.drop (es1.length / 2)) (ci - es1.length / 2) pk r with
      | nil =>
          rw [hd] at hlen2
          simp only [List.length_nil] at hlen2
          omega
      | cons rh0 rtail0 =>
          cases hdt : rtail0 with
          | nil =>
              rw [hd, hdt] at hlen2
              rw [hd, hdt, hlen1] at hreb
              simp only [List.length_cons, List.length_nil] at hlen2 hreb
              omega
          | cons rh rtail =>
              refine ⟨es1.take (es1.length / 2) ++ [rh0], rh, rtail, rfl, ?_, ?_, ?_, ?_⟩
              · rw [List.append_assoc]
                simp only [List.cons_append, List.nil_append]
                rw [← hdt, ← hd]
                exact happ
              · simp
              · simp only [List.length_append, List.length_cons, List.length_nil]
                omega
              · rw [hd, hdt] at hlen2
                simp only [List.length_cons] at hlen2 ⊢
                omega
    · rw [if_neg hreb]
      cases hd : insertAfterIdx (es1.drop (es1.length / 2)) (ci - es1.length / 2) pk r with
      | nil =>
          rw [hd] at hlen2
          simp only [List.length_nil] at hlen2
          omega
      | cons rh rtail =>
          refine ⟨es1.take (es1.length / 2), rh, rtail, rfl, ?_, ?_, ?_, ?_⟩
          · rw [← hd]
            exact happ
          · rw [hd, hlen1] at hreb
            rw [hd] at hlen2
            simp only [List.length_cons] at hreb hlen2
            intro hnil
            have := congrArg List.length hnil
            rw [hlen1] at this
            simp only [List.length_nil] at this
            omega
          · omega
          · rw [hd, hlen1] at hreb
            rw [hd] at hlen2
            simp only [List.length_cons] at hreb hlen2 ⊢
            omega

/-- C1: every call to `BPlusTree::Remove` hits a fatal assertion.  On a
non-empty tree the write-crabbing delete descent is unimplemented:
`GetLeafPage`'s `isInsert = false` branch is a bare `assert(false)`
(`// TODO: implement safe protocol for deletion`), hit at the first page of
the descent; on an empty tree `GetLeafPage` returns null and
`assert(leaf_page != nullptr)` fails.  No delete-safety predicate
`size > ceil(max_size/2)` exists anywhere on the path. -/
theorem Remove_always_faults (t : BPlusTree) (key : Nat) :
    t.Remove key = .error .assertFail := by
  unfold BPlusTree.Remove
  cases t.root <;> rfl

/-- C10: `GetValue` on the empty tree (`root_page_id_ == INVALID_PAGE_ID`)
is not handled: the root page id is fetched from the buffer pool
unconditionally and the fetched page asserted non-null, so the call faults —
there is no clean `false` return for the empty tree. -/
theorem GetValue_empty_tree_faults (L I key : Nat) :
    BPlusTree.GetValue { leafMax := L, internalMax := I, root := none } key
      = .error .assertFail := rfl

/-- Inserting 1, 2, 3, 4 into an empty tree with
`leaf_max = internal_max = 3`. -/
def bptC2run : Except Fault (BPlusTree × Bool) := do
  let t0 : BPlusTree := { leafMax := 3, internalMax := 3, root := none }
  let r1 ← t0.Insert 1 1
  let r2 ← r1.1.Insert 2 2
  let r3 ← r2.1.Insert 3 3
  r3.1.Insert 4 4

/-- The resulting tree of `bptC2run`. -/
def bptC2tree : BPlusTree :=
  { leafMax := 3, internalMax := 3,
    root := some (.inner [(0, .leaf [(1, 1)]), (2, .leaf [(2, 2), (3, 3), (4, 4)])]) }

/-- C2 counterexample: inserting 1, 2, 3, 4 (`leaf_max = 3`) splits the full
root leaf into a non-root leaf of size 1 and one of size 3, and
`1 < ceil(3/2) = 2`: the claimed invariant `size ≥ ceil(max_size/2)` fails
already for insert-only sequences (and a remove cannot even complete, per
C1). -/
theorem ceil_invariant_counterexample :
    bptC2run = .ok (bptC2tree, true) ∧
    bptC2tree.root = some (.inner
      [(0, .leaf [(1, 1)]), (2, .leaf [(2, 2), (3, 3), (4, 4)])]) ∧
    ([(1, 1)] : List (Nat × Nat)).length < (3 + 1) / 2 :=
  ⟨rfl, rfl, by decide⟩

/-- `leafInsertList` grows the list by one. -/
theorem leafInsertList_length (key value : Nat) :
    ∀ kvs : List (Nat × Nat), (leafInsertList key value kvs).length = kvs.length + 1 := by
  intro kvs
  induction kvs with
  | nil => rfl
  | cons kv rest ih =>
      unfold leafInsertList
      by_cases h : key ≤ kv.1
      · rw [if_pos h]
        simp
      · rw [if_neg h]
        simp [ih]

/-- C2 (amended): the bound the code maintains is floor, not ceil.  A full
leaf splits into halves of at least `leaf_max / 2` entries each (the lower
half receives exactly `leaf_max / 2` when the new pair goes right), and the
remove path's early-return test triggers borrow/merge exactly when the
post-deletion size has fallen below `max_size / 2` (C++ integer division)
on a non-root node — so for odd `max_size` a non-root node of size
`floor(max_size/2) < ceil(max_size/2)` is left alone. -/
theorem floor_invariant_amended (L I key value sizeAfter maxSize : Nat)
    (isRoot : Bool) (kvs : List (Nat × Nat)) (hlen : kvs.length = L) (hL : 2 ≤ L)
    (hnf : leafLookup kvs key = none) :
    (∃ l pk r, insertNode L I key value (.leaf kvs) = .ok (.split (.leaf l) pk (.leaf r)) ∧
      L / 2 ≤ l.length ∧ L / 2 ≤ r.length) ∧
    (removeNeedsRebalance sizeAfter maxSize isRoot = true ↔
      (sizeAfter < maxSize / 2 ∧ isRoot = false)) := by
  constructor
  · have hns : ¬ ((leafLookup kvs key).isSome = true) := by
      rw [hnf]
      simp
    have hdropkvs : (kvs.drop (kvs.length / 2)).length = L - L / 2 := by
      simp [hlen]
    have hdropne : kvs.drop (kvs.length / 2) ≠ [] := by
      intro hnil
      rw [hnil] at hdropkvs
      simp at hdropkvs
      omega
    obtain ⟨r0, rtail, hdr⟩ := List.exists_cons_of_ne_nil hdropne
    have hrlen : (r0 :: rtail).length = L - L / 2 := hdr ▸ hdropkvs
    have htake : (kvs.take (kvs.length / 2)).length = L / 2 := by
      simp [hlen]
      omega
    simp only [insertNode, if_neg hns, if_neg (show ¬ kvs.length < L by omega), hdr]
    by_cases hcmp : r0.1 < key
    · rw [if_pos hcmp, if_pos (show (r0 :: rtail).length < L by omega)]
      refine ⟨kvs.take (kvs.length / 2), _, _, rfl, ?_, ?_⟩
      · omega
      · rw [leafInsertList_length]
        omega
    · rw [if_neg hcmp, if_pos (show (kvs.take (kvs.length / 2)).length < L by omega)]
      refine ⟨_, r0.1, r0 :: rtail, rfl, ?_, ?_⟩
      · rw [leafInsertList_length]
        omega
      · omega
  · unfold removeNeedsRebalance
    cases isRoot
    · simp
    · simp

/-- C2 witness: the amended floor-bound theorem applied at the concrete full
leaf `[(1,1), (2,2), (3,3)]` with `leaf_max = 3`, splitting on the insertion
of key 4, and at the remove decision for a non-root leaf of size 1. -/
theorem floor_invariant_amended_witness :
    (([(1, 1), (2, 2), (3, 3)] : List (Nat × Nat)).length = 3 ∧ 2 ≤ 3 ∧
      leafLookup [(1, 1), (2, 2), (3, 3)] 4 = none) ∧
    ((∃ l pk r, insertNode 3 3 4 4 (.leaf [(1, 1), (2, 2), (3, 3)]) =
        .ok (.split (.leaf l) pk (.leaf r)) ∧ 3 / 2 ≤ l.length ∧ 3 / 2 ≤ r.length) ∧
     (removeNeedsRebalance 1 3 false = true ↔ (1 < 3 / 2 ∧ false = false))) :=
  ⟨⟨rfl, by decide, rfl⟩,
   floor_invariant_amended 3 3 4 4 1 3 false [(1, 1), (2, 2), (3, 3)] rfl (by decide) rfl⟩

/-- What a child insertion establishes, by result constructor: never a
fault; a duplicate exactly when the key was already present; an in-place
update staying well-formed on the same window and holding the value; or a
split whose promoted key lies strictly inside the window, whose halves are
well-formed on the windows the promoted key cuts, and whose value is found
in the half the key selects. -/
def InsertNodeSpec (L I key value : Nat) (n : BTNode) (lo hi : Option Nat)
    (res : Except Fault InsRes) : Prop :=
  (match res with
   | .error _ => False
   | .ok .dup => (getValueNode n key).isSome = true
   | .ok (.one n2) => wfNode L I lo hi n2 = true ∧ getValueNode n2 key = some value
   | .ok (.split l pk r) =>
       ltLo lo pk = true ∧ ltHi hi pk = true ∧
       wfNode L I lo (some pk) l = true ∧ wfNode L I (some pk) hi r = true ∧
       ((key < pk ∧ getValueNode l key = some value) ∨
        (pk ≤ key ∧ getValueNode r key = some value))) ∧
  ((getValueNode n key).isSome = true → res = .ok .dup)

/-- What the entry scan establishes: never a fault; a duplicate exactly when
the key was already present below this node; an in-place update keeping all
separator keys and staying well-formed; or a pending split whose placement
`InsertNodeAfter es1 ci` keeps the separator keys of `es1` (those of `es`),
stays well-formed on the same window, and holds the value. -/
def InsertTailSpec (L I key value : Nat) (es : List (Nat × BTNode))
    (lo hi : Option Nat) (res : Except Fault TailRes) : Prop :=
  (match res with
   | .error _ => False
   | .ok .dup => (getValueEntries es key).isSome = true
   | .ok (.tail es2) =>
       es2.map Prod.fst = es.map Prod.fst ∧
       wfEntries L I lo hi es2 = true ∧
       getValueEntries es2 key = some value
   | .ok (.tailSplit es1 ci pk r) =>
       es1.map Prod.fst = es.map Prod.fst ∧ ci < es1.length ∧
       wfEntries L I lo hi (insertAfterIdx es1 ci pk r) = true ∧
       getValueEntries (insertAfterIdx es1 ci pk r) key = some value) ∧
  ((getValueEntries es key).isSome = true → res = .ok .dup)

/-- The leaf case of the insertion invariant. -/
theorem insertNode_leaf_ok (L I key value : Nat) (hL : 2 ≤ L)
    (kvs : List (Nat × Nat)) (lo hi : Option Nat)
    (hwf : wfNode L I lo hi (.leaf kvs) = true) (hkey : inB lo hi key = true) :
    InsertNodeSpec L I key value (.leaf kvs) lo hi
      (insertNode L I key value (.leaf kvs)) := by
  simp only [wfNode, Bool.and_eq_true, decide_eq_true_eq] at hwf
  obtain ⟨hlen, hsorted⟩ := hwf
  have hpw := leafSorted_pairwise lo hi kvs hsorted
  have hlk : leafLookup kvs key = findKey kvs key := leafLookup_eq_findKey kvs key hpw
  by_cases hdup : (leafLookup kvs key).isSome = true
  · have heval : insertNode L I key value (.leaf kvs) = .ok .dup := by
      simp only [insertNode]
      rw [if_pos hdup]
    rw [heval]
    simp only [InsertNodeSpec, getValueNode]
    exact ⟨hdup, fun _ => trivial⟩
  · have hfind : findKey kvs key = none := by
      rw [← hlk]
      cases hcase : leafLookup kvs key with
      | none => rfl
      | some v => rw [hcase] at hdup; simp at hdup
    have hnp : ¬ (getValueNode (.leaf kvs) key).isSome = true := by
      simp only [getValueNode]
      exact hdup
    by_cases hroom : kvs.length < L
    · have heval : insertNode L I key value (.leaf kvs) =
          .ok (.one (.leaf (leafInsertList key value kvs))) := by
        simp only [insertNode]
        rw [if_neg hdup, if_pos hroom]
      rw [heval]
      simp only [InsertNodeSpec]
      have hsorted2 := leafSorted_leafInsertList key value kvs lo hi hsorted hkey hfind
      refine ⟨⟨?_, ?_⟩, fun hp => absurd hp hnp⟩
      · simp only [wfNode, Bool.and_eq_true, decide_eq_true_eq]
        refine ⟨?_, hsorted2⟩
        rw [leafInsertList_length]
        omega
      · simp only [getValueNode]
        rw [leafLookup_eq_findKey _ _ (leafSorted_pairwise lo hi _ hsorted2)]
        exact findKey_leafInsertList key value kvs
    · cases hdrop : kvs.drop (kvs.length / 2) with
      | nil =>
          exfalso
          have := congrArg List.length hdrop
          simp only [List.length_drop, List.length_nil] at this
          omega
      | cons r0 rtail =>
          have hsplit0 : kvs.take (kvs.length / 2) ++ r0 :: rtail = kvs := by
            rw [← hdrop]
            exact List.take_append_drop _ _
          have hsorted2 : leafSorted lo hi (kvs.take (kvs.length / 2) ++ r0 :: rtail) = true := by
            rw [hsplit0]
            exact hsorted
          obtain ⟨hsl, hin, hsr⟩ :=
            leafSorted_split hi r0 rtail (kvs.take (kvs.length / 2)) lo hsorted2
          have hfapp := findKey_append key (kvs.take (kvs.length / 2)) (r0 :: rtail)
          rw [hsplit0, hfind] at hfapp
          have hfl : findKey (kvs.take (kvs.length / 2)) key = none := by
            cases hcase : findKey (kvs.take (kvs.length / 2)) key with
            | none => rfl
            | some v =>
                rw [hcase] at hfapp
                cases hfapp
          have hfr : findKey (r0 :: rtail) key = none := by
            rw [hfl] at hfapp
            exact hfapp.symm
          have hkner : r0.1 ≠ key :=
            findKey_none_forall key (r0 :: rtail) hfr r0 (List.mem_cons_self r0 rtail)
          have htl : (kvs.take (kvs.length / 2)).length = kvs.length / 2 := by
            simp only [List.length_take]
            omega
          have hdl : rtail.length + 1 = kvs.length - kvs.length / 2 := by
            have := congrArg List.length hdrop
            simp only [List.length_drop, List.length_cons] at this
            omega
          have hphi : ltHi hi r0.1 = true := ((inB_iff _ _ _).mp hin).2
          have hplo : ltLo lo r0.1 = true := by
            cases htk : kvs.take (kvs.length / 2) with
            | nil =>
                exfalso
                have := congrArg List.length htk
                rw [htl] at this
                simp only [List.length_nil] at this
                omega
            | cons t0 ttail =>
                have hsl2 := hsl
                rw [htk] at hsl2
                simp only [leafSorted, Bool.and_eq_true] at hsl2
                have h1 := (inB_iff _ _ _).mp hsl2.1
                exact ltLo_of_leLo_lt lo t0.1 r0.1 ((ltHi_some _ _).mp h1.2) h1.1
          obtain ⟨hklo, hkhi⟩ := (inB_iff _ _ _).mp hkey
          by_cases hgt : r0.1 < key
          · have hins : leafInsertList key value (r0 :: rtail) =
                r0 :: leafInsertList key value rtail := by
              simp only [leafInsertList]
              rw [if_neg (by omega)]
            have hrlen : (r0 :: rtail).length < L := by
              simp only [List.length_cons]
              omega
            have heval : insertNode L I key value (.leaf kvs) =
                .ok (.split (.leaf (kvs.take (kvs.length / 2))) r0.1
                  (.leaf (r0 :: leafInsertList key value rtail))) := by
              simp only [insertNode, hdrop]
              rw [if_neg hdup, if_neg hroom, if_pos hgt, if_pos hrlen, hins]
              simp
            have hinB2 : inB (some r0.1) hi key = true := by
              rw [inB_iff]
              exact ⟨(leLo_some _ _).mpr (by omega), hkhi⟩
            have hsr2 := leafSorted_leafInsertList key value (r0 :: rtail)
              (some r0.1) hi hsr hinB2 hfr
            rw [hins] at hsr2
            rw [heval]
            simp only [InsertNodeSpec]
            refine ⟨⟨hplo, hphi, ?_, ?_, Or.inr ⟨by omega, ?_⟩⟩, fun hp => absurd hp hnp⟩
            · simp only [wfNode, Bool.and_eq_true, decide_eq_true_eq]
              refine ⟨?_, hsl⟩
              rw [htl]
              omega
            · simp only [wfNode, Bool.and_eq_true, decide_eq_true_eq]
              refine ⟨?_, hsr2⟩
              simp only [List.length_cons]
              rw [leafInsertList_length]
              omega
            · simp only [getValueNode]
              rw [leafLookup_eq_findKey _ _ (leafSorted_pairwise _ _ _ hsr2), ← hins]
              exact findKey_leafInsertList key value (r0 :: rtail)
          · have hkl : key < r0.1 := by omega
            have hllen : (kvs.take (kvs.length / 2)).length < L := by
              rw [htl]
              omega
            have heval : insertNode L I key value (.leaf kvs) =
                .ok (.split (.leaf (leafInsertList key value (kvs.take (kvs.length / 2))))
                  r0.1 (.leaf (r0 :: rtail))) := by
              simp only [insertNode, hdrop]
              rw [if_neg hdup, if_neg hroom, if_neg hgt, if_pos hllen]
            have hinB2 : inB lo (some r0.1) key = true := by
              rw [inB_iff]
              exact ⟨hklo, (ltHi_some _ _).mpr hkl⟩
            have hsl2 := leafSorted_leafInsertList key value (kvs.take (kvs.length / 2))
              lo (some r0.1) hsl hinB2 hfl
            rw [heval]
            simp only [InsertNodeSpec]
            refine ⟨⟨hplo, hphi, ?_, ?_, Or.inl ⟨hkl, ?_⟩⟩, fun hp => absurd hp hnp⟩
            · simp only [wfNode, Bool.and_eq_true, decide_eq_true_eq]
              refine ⟨?_, hsl2⟩
              rw [leafInsertList_length, htl]
              omega
            · simp only [wfNode, Bool.and_eq_true, decide_eq_true_eq]
              refine ⟨?_, hsr⟩
              simp only [List.length_cons]
              omega
            · simp only [getValueNode]
              rw [leafLookup_eq_findKey _ _ (leafSorted_pairwise _ _ _ hsl2)]
              exact findKey_leafInsertList key value (kvs.take (kvs.length / 2))

/-- The internal-node case of the insertion invariant, given the entry
scan's contract. -/
theorem insertNode_inner_dispatch (L I key value : Nat) (hI : 2 ≤ I)
    (es : List (Nat × BTNode)) (lo hi : Option Nat)
    (hwf : wfNode L I lo hi (.inner es) = true)
    (hts : InsertTailSpec L I key value es lo hi (insertTail L I key value es)) :
    InsertNodeSpec L I key value (.inner es) lo hi
      (insertNode L I key value (.inner es)) := by
  simp only [wfNode, Bool.and_eq_true, decide_eq_true_eq] at hwf
  obtain ⟨hlen, hwfe⟩ := hwf
  cases hcase : insertTail L I key value es with
  | error f =>
      rw [hcase] at hts
      simp only [InsertTailSpec] at hts
      exact hts.1.elim
  | ok tr =>
      cases tr with
      | dup =>
          rw [hcase] at hts
          simp only [InsertTailSpec] at hts
          have heval : insertNode L I key value (.inner es) = .ok .dup := by
            simp only [insertNode, hcase]
          rw [heval]
          simp only [InsertNodeSpec, getValueNode]
          exact ⟨hts.1, fun _ => by trivial⟩
      | tail es2 =>
          rw [hcase] at hts
          simp only [InsertTailSpec] at hts
          obtain ⟨⟨hmap, hwf2, hget2⟩, hB⟩ := hts
          have heval : insertNode L I key value (.inner es) = .ok (.one (.inner es2)) := by
            simp only [insertNode, hcase]
          rw [heval]
          simp only [InsertNodeSpec]
          have hlen2 : es2.length = es.length := by
            have := congrArg List.length hmap
            simpa using this
          refine ⟨⟨?_, ?_⟩, ?_⟩
          · simp only [wfNode, Bool.and_eq_true, decide_eq_true_eq]
            exact ⟨by omega, hwf2⟩
          · simp only [getValueNode]
            exact hget2
          · intro hp
            simp only [getValueNode] at hp
            exact absurd (hB hp) (by simp)
      | tailSplit es1 ci pk r =>
          rw [hcase] at hts
          simp only [InsertTailSpec] at hts
          obtain ⟨⟨hmap, hci, hwf2, hget2⟩, hB⟩ := hts
          have hlen1 : es1.length = es.length := by
            have := congrArg List.length hmap
            simpa using this
          by_cases hroom : es1.length < I
          · have heval : insertNode L I key value (.inner es) =
                .ok (.one (.inner (insertAfterIdx es1 ci pk r))) := by
              simp only [insertNode, hcase]
              rw [if_pos hroom]
            rw [heval]
            simp only [InsertNodeSpec]
            refine ⟨⟨?_, ?_⟩, ?_⟩
            · simp only [wfNode, Bool.and_eq_true, decide_eq_true_eq]
              refine ⟨?_, hwf2⟩
              rw [insertAfterIdx_length es1 ci pk r hci]
              omega
            · simp only [getValueNode]
              exact hget2
            · intro hp
              simp only [getValueNode] at hp
              exact absurd (hB hp) (by simp)
          · obtain ⟨left, rh, rtail, heq, happ, hlne, hlb, hrb⟩ :=
              internalSplit_spec es1 ci pk r hci
            have heval : insertNode L I key value (.inner es) = internalSplit es1 ci pk r := by
              simp only [insertNode, hcase]
              rw [if_neg hroom]
            rw [heval, heq]
            simp only [InsertNodeSpec]
            have hwf2b : wfEntries L I lo hi (left ++ rh :: rtail) = true := by
              rw [happ]
              exact hwf2
            obtain ⟨hwl, hplo, hphi, hwr⟩ := wfEntries_split L I hi rh rtail left lo hlne hwf2b
            have hget2b : getValueEntries (left ++ rh :: rtail) key = some value := by
              rw [happ]
              exact hget2
            rw [getValueEntries_cut L I key hi rh rtail left lo hlne hwf2b] at hget2b
            refine ⟨⟨hplo, hphi, ?_, ?_, ?_⟩, ?_⟩
            · simp only [wfNode, Bool.and_eq_true, decide_eq_true_eq]
              exact ⟨by omega, hwl⟩
            · simp only [wfNode, Bool.and_eq_true, decide_eq_true_eq]
              refine ⟨?_, hwr⟩
              have := hrb
              simp only [List.length_cons] at this ⊢
              omega
            · by_cases hk2 : key < rh.1
              · rw [if_pos hk2] at hget2b
                exact Or.inl ⟨hk2, by simpa [getValueNode] using hget2b⟩
              · rw [if_neg hk2] at hget2b
                exact Or.inr ⟨by omega, by simpa [getValueNode] using hget2b⟩
            · intro hp
              simp only [getValueNode] at hp
              exact absurd (hB hp) (by simp)

/-- The single-entry case of the scan invariant, given the child's
contract. -/
theorem insertTail_one_ok (L I key value : Nat) (e0 : Nat × BTNode)
    (lo hi : Option Nat) (hwf : wfEntries L I lo hi [e0] = true)
    (hnode : InsertNodeSpec L I key value e0.2 lo hi (insertNode L I key value e0.2)) :
    InsertTailSpec L I key value [e0] lo hi (insertTail L I key value [e0]) := by
  cases hcase : insertNode L I key value e0.2 with
  | error f =>
      rw [hcase] at hnode
      simp only [InsertNodeSpec] at hnode
      exact hnode.1.elim
  | ok ir =>
      cases ir with
      | dup =>
          rw [hcase] at hnode
          simp only [InsertNodeSpec] at hnode
          have heval : insertTail L I key value [e0] = .ok .dup := by
            simp only [insertTail, hcase]
          rw [heval]
          simp only [InsertTailSpec, getValueEntries]
          exact ⟨hnode.1, fun _ => by trivial⟩
      | one n2 =>
          rw [hcase] at hnode
          simp only [InsertNodeSpec] at hnode
          obtain ⟨⟨hwf2, hget2⟩, hB⟩ := hnode
          have heval : insertTail L I key value [e0] = .ok (.tail [(e0.1, n2)]) := by
            simp only [insertTail, hcase]
          rw [heval]
          simp only [InsertTailSpec]
          refine ⟨⟨rfl, ?_, ?_⟩, ?_⟩
          · simp only [wfEntries]
            exact hwf2
          · simp only [getValueEntries]
            exact hget2
          · intro hp
            simp only [getValueEntries] at hp
            exact absurd (hB hp) (by simp)
      | split l pk r =>
          rw [hcase] at hnode
          simp only [InsertNodeSpec] at hnode
          obtain ⟨⟨hplo, hphi, hwl, hwr, hdisj⟩, hB⟩ := hnode
          have heval : insertTail L I key value [e0] = .ok (.tailSplit [(e0.1, l)] 0 pk r) := by
            simp only [insertTail, hcase]
          rw [heval]
          simp only [InsertTailSpec]
          have hia : insertAfterIdx [(e0.1, l)] 0 pk r = [(e0.1, l), (pk, r)] := by
            simp [insertAfterIdx]
          rw [hia]
          refine ⟨⟨rfl, by simp, ?_, ?_⟩, ?_⟩
          · simp only [wfEntries, Bool.and_eq_true]
            exact ⟨⟨⟨hplo, hphi⟩, hwl⟩, hwr⟩
          · simp only [getValueEntries]
            rcases hdisj with ⟨hk, hv⟩ | ⟨hk, hv⟩
            · rw [if_pos hk]
              exact hv
            · rw [if_neg (by omega)]
              exact hv
          · intro hp
            simp only [getValueEntries] at hp
            exact absurd (hB hp) (by simp)

/-- The cons case of the scan invariant, given the contracts of whichever
recursive descent the comparison selects. -/
theorem insertTail_cons2_ok (L I key value : Nat) (e0 e : Nat × BTNode)
    (rest : List (Nat × BTNode)) (lo hi : Option Nat)
    (hwf : wfEntries L I lo hi (e0 :: e :: rest) = true)
    (hkey : inB lo hi key = true)
    (hnode : inB lo (some e.1) key = true →
      InsertNodeSpec L I key value e0.2 lo (some e.1) (insertNode L I key value e0.2))
    (htail : inB (some e.1) hi key = true →
      InsertTailSpec L I key value (e :: rest) (some e.1) hi
        (insertTail L I key value (e :: rest))) :
    InsertTailSpec L I key value (e0 :: e :: rest) lo hi
      (insertTail L I key value (e0 :: e :: rest)) := by
  have hwfd := hwf
  simp only [wfEntries, Bool.and_eq_true] at hwfd
  obtain ⟨⟨⟨ha, hb⟩, hc⟩, hd⟩ := hwfd
  obtain ⟨hklo, hkhi⟩ := (inB_iff _ _ _).mp hkey
  by_cases hk : key < e.1
  · have hnode2 := hnode (by rw [inB_iff]; exact ⟨hklo, (ltHi_some _ _).mpr hk⟩)
    cases hcase : insertNode L I key value e0.2 with
    | error f =>
        rw [hcase] at hnode2
        simp only [InsertNodeSpec] at hnode2
        exact hnode2.1.elim
    | ok ir =>
        cases ir with
        | dup =>
            rw [hcase] at hnode2
            simp only [InsertNodeSpec] at hnode2
            have heval : insertTail L I key value (e0 :: e :: rest) = .ok .dup := by
              simp only [insertTail]
              rw [if_pos hk]
              simp only [hcase]
            rw [heval]
            simp only [InsertTailSpec]
            refine ⟨?_, fun _ => by trivial⟩
            simp only [getValueEntries]
            rw [if_pos hk]
            exact hnode2.1
        | one n2 =>
            rw [hcase] at hnode2
            simp only [InsertNodeSpec] at hnode2
            obtain ⟨⟨hwf2, hget2⟩, hB⟩ := hnode2
            have heval : insertTail L I key value (e0 :: e :: rest) =
                .ok (.tail ((e0.1, n2) :: e :: rest)) := by
              simp only [insertTail]
              rw [if_pos hk]
              simp only [hcase]
            rw [heval]
            simp only [InsertTailSpec]
            refine ⟨⟨rfl, ?_, ?_⟩, ?_⟩
            · simp only [wfEntries, Bool.and_eq_true]
              exact ⟨⟨⟨ha, hb⟩, hwf2⟩, hd⟩
            · simp only [getValueEntries]
              rw [if_pos hk]
              exact hget2
            · intro hp
              simp only [getValueEntries] at hp
              rw [if_pos hk] at hp
              exact absurd (hB hp) (by simp)
        | split l pk r =>
            rw [hcase] at hnode2
            simp only [InsertNodeSpec] at hnode2
            obtain ⟨⟨hplo, hphi, hwl, hwr, hdisj⟩, hB⟩ := hnode2
            have hpke : pk < e.1 := (ltHi_some _ _).mp hphi
            have heval : insertTail L I key value (e0 :: e :: rest) =
                .ok (.tailSplit ((e0.1, l) :: e :: rest) 0 pk r) := by
              simp only [insertTail]
              rw [if_pos hk]
              simp only [hcase]
            rw [heval]
            simp only [InsertTailSpec]
            rw [insertAfterIdx_zero]
            refine ⟨⟨rfl, by simp, ?_, ?_⟩, ?_⟩
            · simp only [wfEntries, Bool.and_eq_true]
              refine ⟨⟨⟨hplo, ltHi_mono hi e.1 pk (by omega) hb⟩, hwl⟩, ?_⟩
              exact ⟨⟨⟨(ltLo_some _ _).mpr hpke, hb⟩, hwr⟩, hd⟩
            · simp only [getValueEntries]
              rcases hdisj with ⟨hkpk, hv⟩ | ⟨hkpk, hv⟩
              · rw [if_pos hkpk]
                exact hv
              · rw [if_neg (by omega), if_pos hk]
                exact hv
            · intro hp
              simp only [getValueEntries] at hp
              rw [if_pos hk] at hp
              exact absurd (hB hp) (by simp)
  · have htail2 := htail (by rw [inB_iff]; exact ⟨(leLo_some _ _).mpr (by omega), hkhi⟩)
    cases hcase : insertTail L I key value (e :: rest) with
    | error f =>
        rw [hcase] at htail2
        simp only [InsertTailSpec] at htail2
        exact htail2.1.elim
    | ok tr =>
        cases tr with
        | dup =>
            rw [hcase] at htail2
            simp only [InsertTailSpec] at htail2
            have heval : insertTail L I key value (e0 :: e :: rest) = .ok .dup := by
              simp only [insertTail]
              rw [if_neg hk]
              simp only [hcase]
            rw [heval]
            simp only [InsertTailSpec]
            refine ⟨?_, fun _ => by trivial⟩
            simp only [getValueEntries]
            rw [if_neg hk]
            exact htail2.1
        | tail tl =>
            rw [hcase] at htail2
            simp only [InsertTailSpec] at htail2
            obtain ⟨⟨hmap, hwf2, hget2⟩, hB⟩ := htail2
            cases tl with
            | nil => simp at hmap
            | cons t0 tl2 =>
                have hmap2 := hmap
                simp only [List.map_cons, List.cons.injEq] at hmap2
                obtain ⟨ht0, htl2⟩ := hmap2
                have heval : insertTail L I key value (e0 :: e :: rest) =
                    .ok (.tail (e0 :: t0 :: tl2)) := by
                  simp only [insertTail]
                  rw [if_neg hk]
                  simp only [hcase]
                rw [heval]
                simp only [InsertTailSpec]
                refine ⟨⟨?_, ?_, ?_⟩, ?_⟩
                · simp [ht0, htl2]
                · simp only [wfEntries, Bool.and_eq_true]
                  rw [ht0]
                  exact ⟨⟨⟨ha, hb⟩, hc⟩, hwf2⟩
                · simp only [getValueEntries]
                  rw [ht0, if_neg hk]
                  exact hget2
                · intro hp
                  simp only [getValueEntries] at hp
                  rw [if_neg hk] at hp
                  exact absurd (hB hp) (by simp)
        | tailSplit tl ci pk r =>
            rw [hcase] at htail2
            simp only [InsertTailSpec] at htail2
            obtain ⟨⟨hmap, hci, hwf2, hget2⟩, hB⟩ := htail2
            cases tl with
            | nil => simp at hmap
            | cons t0 tl2 =>
                have hmap2 := hmap
                simp only [List.map_cons, List.cons.injEq] at hmap2
                obtain ⟨ht0, htl2⟩ := hmap2
                have heval : insertTail L I key value (e0 :: e :: rest) =
                    .ok (.tailSplit (e0 :: t0 :: tl2) (ci + 1) pk r) := by
                  simp only [insertTail]
                  rw [if_neg hk]
                  simp only [hcase]
                rw [heval]
                simp only [InsertTailSpec]
                rw [insertAfterIdx_cons_succ, insertAfterIdx_cons]
                refine ⟨⟨?_, ?_, ?_, ?_⟩, ?_⟩
                · simp [ht0, htl2]
                · simp only [List.length_cons] at hci ⊢
                  omega
                · simp only [wfEntries, Bool.and_eq_true]
                  rw [ht0]
                  refine ⟨⟨⟨ha, hb⟩, hc⟩, ?_⟩
                  rw [← insertAfterIdx_cons]
                  exact hwf2
                · simp only [getValueEntries]
                  rw [ht0, if_neg hk, ← insertAfterIdx_cons]
                  exact hget2
                · intro hp
                  simp only [getValueEntries] at hp
                  rw [if_neg hk] at hp
                  exact absurd (hB hp) (by simp)

mutual

/-- The insertion invariant: on a well-formed subtree with the key inside
the window, `insertNode` never faults, reports a duplicate exactly when the
key is present, and otherwise returns well-formed trees holding the value. -/
theorem insertNode_ok (L I key value : Nat) (hL : 2 ≤ L) (hI : 2 ≤ I) :
    ∀ (n : BTNode) (lo hi : Option Nat), wfNode L I lo hi n = true →
      inB lo hi key = true →
      InsertNodeSpec L I key value n lo hi (insertNode L I key value n)
  | .leaf kvs, lo, hi, hwf, hkey => insertNode_leaf_ok L I key value hL kvs lo hi hwf hkey
  | .inner es, lo, hi, hwf, hkey => by
      have hwfe : wfEntries L I lo hi es = true := by
        simp only [wfNode, Bool.and_eq_true] at hwf
        exact hwf.2
      exact insertNode_inner_dispatch L I key value hI es lo hi hwf
        (insertTail_ok L I key value hL hI es lo hi hwfe hkey)

/-- The scan invariant: on a well-formed entry list with the key inside the
window, `insertTail` never faults, reports a duplicate exactly when the key
is present, and otherwise produces well-formed entries holding the value. -/
theorem insertTail_ok (L I key value : Nat) (hL : 2 ≤ L) (hI : 2 ≤ I) :
    ∀ (es : List (Nat × BTNode)) (lo hi : Option Nat), wfEntries L I lo hi es = true →
      inB lo hi key = true →
      InsertTailSpec L I key value es lo hi (insertTail L I key value es)
  | [], _, _, hwf, _ => absurd hwf (by simp [wfEntries])
  | [e0], lo, hi, hwf, hkey => by
      have hwfn : wfNode L I lo hi e0.2 = true := by
        simpa [wfEntries] using hwf
      exact insertTail_one_ok L I key value e0 lo hi hwf
        (insertNode_ok L I key value hL hI e0.2 lo hi hwfn hkey)
  | e0 :: e :: rest, lo, hi, hwf, hkey => by
      have hwfd := hwf
      simp only [wfEntries, Bool.and_eq_true] at hwfd
      exact insertTail_cons2_ok L I key value e0 e rest lo hi hwf hkey
        (fun hk => insertNode_ok L I key value hL hI e0.2 lo (some e.1) hwfd.1.2 hk)
        (fun hk => insertTail_ok L I key value hL hI (e :: rest) (some e.1) hi hwfd.2 hk)

end

/-- Well-formedness of a whole tree: workable branching factors and a
search-tree-ordered, size-bounded root subtree. -/
def BPlusTree.WF (t : BPlusTree) : Bool :=
  decide (2 ≤ t.leafMax) && decide (2 ≤ t.internalMax) &&
    (match t.root with
     | none => true
     | some n => wfNode t.leafMax t.internalMax none none n)

/-- C8: on a well-formed tree, after `insert(k,v)` returns `true`,
`get_value(k)` yields exactly `v`; a subsequent `insert(k,v')` returns
`false` and leaves the tree unchanged (so `get_value(k)` still yields `v`),
and the tree stays well-formed. -/
theorem insert_get_roundtrip (t : BPlusTree) (key value value2 : Nat)
    (t2 : BPlusTree) (hwf : t.WF = true)
    (hins : t.Insert key value = .ok (t2, true)) :
    t2.GetValue key = .ok (some value) ∧
      t2.Insert key value2 = .ok (t2, false) ∧ t2.WF = true := by
  simp only [BPlusTree.WF, Bool.and_eq_true, decide_eq_true_eq] at hwf
  obtain ⟨⟨hL, hI⟩, hroot⟩ := hwf
  have hkey : inB none none key = true := rfl
  have hfinish : ∀ nroot : BTNode,
      wfNode t.leafMax t.internalMax none none nroot = true →
      getValueNode nroot key = some value →
      (BPlusTree.GetValue { t with root := some nroot } key = .ok (some value) ∧
        BPlusTree.Insert { t with root := some nroot } key value2 =
          .ok ({ t with root := some nroot }, false) ∧
        BPlusTree.WF { t with root := some nroot } = true) := by
    intro nroot hwfn hgetn
    refine ⟨?_, ?_, ?_⟩
    · simp [BPlusTree.GetValue, hgetn]
    · have hspec2 := insertNode_ok t.leafMax t.internalMax key value2 hL hI
        nroot none none hwfn hkey
      simp only [InsertNodeSpec] at hspec2
      have hdup2 : insertNode t.leafMax t.internalMax key value2 nroot = .ok .dup := by
        refine hspec2.2 ?_
        rw [hgetn]
        rfl
      simp [BPlusTree.Insert, hdup2]
    · simp [BPlusTree.WF, hL, hI, hwfn]
  have hwfroot : wfNode t.leafMax t.internalMax none none
      (match t.root with | none => BTNode.leaf [] | some n => n) = true := by
    cases ht : t.root with
    | none => simp [wfNode, leafSorted]
    | some n =>
        rw [ht] at hroot
        simpa using hroot
  have hspec := insertNode_ok t.leafMax t.internalMax key value hL hI
    (match t.root with | none => BTNode.leaf [] | some n => n) none none hwfroot hkey
  simp only [BPlusTree.Insert] at hins
  cases hcase : insertNode t.leafMax t.internalMax key value
      (match t.root with | none => BTNode.leaf [] | some n => n) with
  | error f =>
      rw [hcase] at hins
      simp at hins
  | ok ir =>
      rw [hcase] at hspec
      simp only [InsertNodeSpec] at hspec
      cases ir with
      | dup =>
          rw [hcase] at hins
          simp at hins
      | one n2 =>
          rw [hcase] at hins
          simp only [Except.ok.injEq, Prod.mk.injEq] at hins
          obtain ⟨ht2, _⟩ := hins
          subst ht2
          obtain ⟨⟨hwf2, hget2⟩, _⟩ := hspec
          exact hfinish n2 hwf2 hget2
      | split l pk r =>
          rw [hcase] at hins
          simp only [Except.ok.injEq, Prod.mk.injEq] at hins
          obtain ⟨ht2, _⟩ := hins
          subst ht2
          obtain ⟨⟨hplo, hphi, hwl, hwr, hdisj⟩, _⟩ := hspec
          have hwfnew : wfNode t.leafMax t.internalMax none none
              (.inner [(0, l), (pk, r)]) = true := by
            simp only [wfNode, wfEntries, Bool.and_eq_true, decide_eq_true_eq]
            refine ⟨by simp; omega, ⟨⟨rfl, ?_⟩, hwl⟩, hwr⟩
            cases hphicase : (none : Option Nat) with
            | none => rfl
            | some x => cases hphicase
          have hgetnew : getValueNode (.inner [(0, l), (pk, r)]) key = some value := by
            simp only [getValueNode, getValueEntries]
            rcases hdisj with ⟨hk, hv⟩ | ⟨hk, hv⟩
            · rw [if_pos hk]
              exact hv
            · rw [if_neg (by omega)]
              exact hv
          exact hfinish (.inner [(0, l), (pk, r)]) hwfnew hgetnew

/-- Witness tree for the round trip: a full root leaf, so the insertion
splits the root. -/
def bpt8 : BPlusTree :=
  { leafMax := 2, internalMax := 2, root := some (.leaf [(5, 50), (9, 90)]) }

/-- The tree `bpt8` produces when `7 ↦ 70` is inserted. -/
def bpt8b : BPlusTree :=
  { leafMax := 2, internalMax := 2,
    root := some (.inner [(0, .leaf [(5, 50), (7, 70)]), (9, .leaf [(9, 90)])]) }

theorem insert_get_roundtrip_witness :
    bpt8.WF = true ∧ bpt8.Insert 7 70 = .ok (bpt8b, true) ∧
      (bpt8b.GetValue 7 = .ok (some 70) ∧
        bpt8b.Insert 7 71 = .ok (bpt8b, false) ∧ bpt8b.WF = true) :=
  ⟨by decide, rfl, insert_get_roundtrip bpt8 7 70 71 bpt8b (by decide) rfl⟩

/-! ### Deadlock detection: `LockManager::Tarjan` and `LockManager::HasCycle`

The waits-for graph `waits_for_` is an association list from a transaction
id to its (duplicate-free) neighbor vector.  The recursive lambda `f` of
`Tarjan` becomes a fuel-indexed mutual recursion (`tarjanVisit` for one call
to `f`, `tarjanLoop` for its neighbor loop); fuel exhaustion is `none` and
never happens for the fuel bound proved below. -/

/-- One `ist.at(id) = false` store. -/
def setb (m : List (Nat × Bool)) (k : Nat) : List (Nat × Bool) :=
  match m with
  | [] => []
  | (a, b) :: rest => if a = k then (a, false) :: rest else (a, b) :: setb rest k

/-- The `ist` stores of the component pop loop. -/
def setFlags (m : List (Nat × Bool)) : List Nat → List (Nat × Bool)
  | [] => m
  | k :: ks => setFlags (setb m k) ks

/-- The pop loop of `Tarjan`: pop the stack (head = `back`) into the
component vector until `t_id` is popped. -/
def popUntil (tid : Nat) : List Nat → List Nat × List Nat
  | [] => ([], [])
  | x :: rest =>
      if x = tid then ([x], rest)
      else
        let pr := popUntil tid rest
        (x :: pr.1, pr.2)

/-- `std::sort` (ascending) on ids, as insertion sort. -/
def insSorted (x : Nat) : List Nat → List Nat
  | [] => [x]
  | y :: rest => if x ≤ y then x :: y :: rest else y :: insSorted x rest

/-- Ascending sort of a vector of ids. -/
def sortNats : List Nat → List Nat
  | [] => []
  | x :: rest => insSorted x (sortNats rest)

/-- `waits_for_.at(t)` with the `find != end` guard: absent keys iterate an
empty neighbor list. -/
def nbrsOf (g : List (Nat × List Nat)) (t : Nat) : List Nat :=
  match g.lookup t with
  | none => []
  | some l => l

/-- The captured state of `Tarjan`'s lambda: discovery times `vst`, on-stack
flags `ist`, the stack (head = `back`), the time counter, and the collected
components. -/
structure TarjanState where
  vst : List (Nat × Nat)
  ist : List (Nat × Bool)
  stk : List Nat
  time : Nat
  res : List (List Nat)
deriving Repr

/-- The discover-and-push step of `f`: record the discovery time, mark
on-stack, push, advance time. -/
def pushState (s : TarjanState) (tid : Nat) : TarjanState :=
  { vst := (tid, s.time) :: s.vst, ist := (tid, true) :: s.ist,
    stk := tid :: s.stk, time := s.time + 1, res := s.res }

mutual

/-- One call `f(t_id)`: early-return the discovery time when visited, else
discover, push, run the neighbor loop, and pop a component when the lowlink
stayed at the discovery time. -/
def tarjanVisit (g : List (Nat × List Nat)) : Nat → Nat → TarjanState →
    Option (Nat × TarjanState)
  | 0, _, _ => none
  | fuel + 1, tid, s =>
      match s.vst.lookup tid with
      | some t => some (t, s)
      | none =>
          let t := s.time
          let s1 := pushState s tid
          match tarjanLoop g fuel (nbrsOf g tid) t s1 with
          | none => none
          | some (mt, s2) =>
              if mt = t then
                let pr := popUntil tid s2.stk
                some (mt, { vst := s2.vst, ist := setFlags s2.ist pr.1,
                            stk := pr.2, time := s2.time, res := s2.res ++ [pr.1] })
              else some (mt, s2)

/-- The neighbor loop of `f`: recurse into unvisited neighbors taking the
child's return as a lowlink candidate, take the discovery time of visited
on-stack neighbors, ignore the rest. -/
def tarjanLoop (g : List (Nat × List Nat)) : Nat → List Nat → Nat → TarjanState →
    Option (Nat × TarjanState)
  | 0, _, _, _ => none
  | _ + 1, [], mt, s => some (mt, s)
  | fuel + 1, n :: rest, mt, s =>
      match s.vst.lookup n with
      | none =>
          match tarjanVisit g fuel n s with
          | none => none
          | some (r, s2) => tarjanLoop g fuel rest (if r < mt then r else mt) s2
      | some tn =>
          match s.ist.lookup n with
          | some true => tarjanLoop g fuel rest (if tn < mt then tn else mt) s
          | _ => tarjanLoop g fuel rest mt s

end

/-- The driver loop `for (auto &id : txn_ids) f(id);`. -/
def tarjanRun (g : List (Nat × List Nat)) (fuel : Nat) :
    List Nat → TarjanState → Option TarjanState
  | [], s => some s
  | id :: ids, s =>
      match tarjanVisit g fuel id s with
      | none => none
      | some (_, s2) => tarjanRun g fuel ids s2

/-- `LockManager::Tarjan`: run `f` over the sorted key set from the empty
state and return the collected components. -/
def Tarjan (g : List (Nat × List Nat)) (fuel : Nat) : Option (List (List Nat)) :=
  match tarjanRun g fuel (sortNats (g.map Prod.fst))
      { vst := [], ist := [], stk := [], time := 0, res := [] } with
  | none => none
  | some s => some s.res

/-- One iteration of `HasCycle`'s aggregation: for a component of size `> 1`
take its largest id (`vec.back()` after `std::sort`), seeding the victim on
the first such component and taking `std::max` afterwards. -/
def victimStep (acc : Option Nat) (vec : List Nat) : Option Nat :=
  if 1 < vec.length then
    match acc with
    | none => some ((sortNats vec).getLastD 0)
    | some a => some (max a ((sortNats vec).getLastD 0))
  else acc

/-- The victim `HasCycle` reports: `none` models `*txn_id == -1` /
`return false`. -/
def victimScan (comps : List (List Nat)) : Option Nat :=
  comps.foldl victimStep none

/-- `LockManager::HasCycle`: one detector pass over the waits-for graph. -/
def HasCycle (g : List (Nat × List Nat)) (fuel : Nat) : Option (Option Nat) :=
  match Tarjan g fuel with
  | none => none
  | some comps => some (victimScan comps)

/-- All transactions the waits-for graph mentions: keys and neighbors. -/
def nodesOf (g : List (Nat × List Nat)) : List Nat :=
  g.map Prod.fst ++ (g.map Prod.snd).flatten

/-- Reachability along waits-for edges (reflexive-transitive). -/
inductive Reaches (g : List (Nat × List Nat)) : Nat → Nat → Prop
  | refl (a : Nat) : Reaches g a a
  | step {a b c : Nat} : b ∈ nbrsOf g a → Reaches g b c → Reaches g a c

theorem Reaches.trans {g : List (Nat × List Nat)} {a b c : Nat}
    (h1 : Reaches g a b) (h2 : Reaches g b c) : Reaches g a c := by
  induction h1 with
  | refl => exact h2
  | step he _ ih => exact Reaches.step he (ih h2)

/-- An edge is a reach. -/
theorem Reaches.single {g : List (Nat × List Nat)} {a b : Nat}
    (h : b ∈ nbrsOf g a) : Reaches g a b :=
  Reaches.step h (Reaches.refl b)

/-- A successful association lookup returns a stored pair. -/
theorem lookup_mem_pairs (s : Nat) (l : List Nat) :
    ∀ g : List (Nat × List Nat), g.lookup s = some l → (s, l) ∈ g := by
  intro g
  induction g with
  | nil => intro h; cases h
  | cons p rest ih =>
      intro h
      simp only [List.lookup] at h
      by_cases hk : p.1 = s
      · simp only [show (s == p.1) = true from beq_iff_eq.mpr hk.symm,
          Option.some.injEq] at h
        have hp : (s, l) = p := by
          rw [← hk, ← h]
        rw [hp]
        exact List.mem_cons_self p rest
      · simp only [show (s == p.1) = false from
          beq_eq_false_iff_ne.mpr (fun he => hk he.symm)] at h
        exact List.mem_cons_of_mem p (ih h)

/-- Neighbors are nodes of the graph. -/
theorem nbrs_sub_nodes (g : List (Nat × List Nat)) (s x : Nat)
    (h : x ∈ nbrsOf g s) : x ∈ nodesOf g := by
  unfold nbrsOf at h
  cases hc : g.lookup s with
  | none =>
      rw [hc] at h
      exact absurd h (List.not_mem_nil x)
  | some l =>
      rw [hc] at h
      have hmem : (s, l) ∈ g := lookup_mem_pairs s l g hc
      unfold nodesOf
      refine List.mem_append_right _ ?_
      rw [List.mem_flatten]
      exact ⟨l, List.mem_map_of_mem Prod.snd hmem, h⟩

/-- One saturation step of the reachable set. -/
def satStep (g : List (Nat × List Nat)) (S : List Nat) : List Nat :=
  (S ++ (S.map (nbrsOf g)).flatten).dedup

/-- Iterated saturation. -/
def sat (g : List (Nat × List Nat)) : Nat → List Nat → List Nat
  | 0, S => S
  | k + 1, S => sat g k (satStep g S)

/-- Decidable reachability: saturate from `a` for more steps than there are
nodes. -/
def reachB (g : List (Nat × List Nat)) (a b : Nat) : Bool :=
  decide (b ∈ sat g ((nodesOf g).dedup.length + 1) [a])

theorem mem_satStep_left (g : List (Nat × List Nat)) (S : List Nat) (x : Nat)
    (h : x ∈ S) : x ∈ satStep g S := by
  unfold satStep
  rw [List.mem_dedup]
  exact List.mem_append_left _ h

theorem mem_satStep_nbr (g : List (Nat × List Nat)) (S : List Nat) (s x : Nat)
    (hs : s ∈ S) (h : x ∈ nbrsOf g s) : x ∈ satStep g S := by
  unfold satStep
  rw [List.mem_dedup]
  refine List.mem_append_right _ ?_
  rw [List.mem_flatten]
  exact ⟨nbrsOf g s, List.mem_map_of_mem (nbrsOf g) hs, h⟩

theorem mem_satStep_elim (g : List (Nat × List Nat)) (S : List Nat) (x : Nat)
    (h : x ∈ satStep g S) : x ∈ S ∨ ∃ s ∈ S, x ∈ nbrsOf g s := by
  unfold satStep at h
  rw [List.mem_dedup, List.mem_append] at h
  rcases h with h | h
  · exact Or.inl h
  · rw [List.mem_flatten] at h
    obtain ⟨l, hl, hx⟩ := h
    obtain ⟨s, hs, rfl⟩ := List.mem_map.mp hl
    exact Or.inr ⟨s, hs, hx⟩

theorem mem_sat_left (g : List (Nat × List Nat)) (k : Nat) :
    ∀ (S : List Nat) (x : Nat), x ∈ S → x ∈ sat g k S := by
  induction k with
  | zero => intro S x h; exact h
  | succ k ih =>
      intro S x h
      exact ih (satStep g S) x (mem_satStep_left g S x h)

theorem sat_add (g : List (Nat × List Nat)) (j : Nat) :
    ∀ (k : Nat) (S : List Nat), sat g (k + j) S = sat g j (sat g k S) := by
  intro k
  induction k with
  | zero =>
      intro S
      rw [Nat.zero_add]
      rfl
  | succ k ih =>
      intro S
      have h1 : k + 1 + j = (k + j) + 1 := by omega
      rw [h1]
      show sat g (k + j) (satStep g S) = sat g j (sat g k (satStep g S))
      exact ih (satStep g S)

/-- Soundness: everything in the saturation is reachable from the seeds. -/
theorem sat_sound (g : List (Nat × List Nat)) (k : Nat) :
    ∀ (S : List Nat) (x : Nat), x ∈ sat g k S → ∃ s ∈ S, Reaches g s x := by
  induction k with
  | zero =>
      intro S x h
      exact ⟨x, h, Reaches.refl x⟩
  | succ k ih =>
      intro S x h
      obtain ⟨s, hs, hr⟩ := ih (satStep g S) x h
      rcases mem_satStep_elim g S s hs with hs2 | ⟨s2, hs2, he⟩
      · exact ⟨s, hs2, hr⟩
      · exact ⟨s2, hs2, Reaches.trans (Reaches.single he) hr⟩

/-- A set closed under taking neighbors. -/
def EdgeClosed (g : List (Nat × List Nat)) (S : List Nat) : Prop :=
  ∀ a ∈ S, ∀ b ∈ nbrsOf g a, b ∈ S

theorem reach_in_closed (g : List (Nat × List Nat)) (S : List Nat)
    (hc : EdgeClosed g S) {a b : Nat} (ha : a ∈ S) (h : Reaches g a b) : b ∈ S := by
  induction h with
  | refl => exact ha
  | step he _ ih => exact ih (hc _ ha _ he)

/-- The count of graph nodes a set holds. -/
def cardIn (g : List (Nat × List Nat)) (S : List Nat) : Nat :=
  ((nodesOf g).toFinset.filter (fun y => y ∈ S)).card

theorem cardIn_le (g : List (Nat × List Nat)) (S : List Nat) :
    cardIn g S ≤ (nodesOf g).dedup.length := by
  unfold cardIn
  rw [← List.card_toFinset]
  exact Finset.card_filter_le _ _

theorem cardIn_grow (g : List (Nat × List Nat)) (S : List Nat)
    (h : ¬ ∀ x ∈ satStep g S, x ∈ S) : cardIn g S + 1 ≤ cardIn g (satStep g S) := by
  push_neg at h
  obtain ⟨x, hx, hnx⟩ := h
  have hxn : x ∈ nodesOf g := by
    rcases mem_satStep_elim g S x hx with h2 | ⟨s, _, he⟩
    · exact absurd h2 hnx
    · exact nbrs_sub_nodes g s x he
  unfold cardIn
  have hss : (nodesOf g).toFinset.filter (fun y => y ∈ S) ⊂
      (nodesOf g).toFinset.filter (fun y => y ∈ satStep g S) := by
    constructor
    · intro y hy
      rw [Finset.mem_filter] at hy ⊢
      exact ⟨hy.1, mem_satStep_left g S y hy.2⟩
    · intro hcon
      have hxmem : x ∈ (nodesOf g).toFinset.filter (fun y => y ∈ satStep g S) := by
        rw [Finset.mem_filter]
        exact ⟨List.mem_toFinset.mpr hxn, hx⟩
      have := hcon hxmem
      rw [Finset.mem_filter] at this
      exact hnx this.2
  exact Finset.card_lt_card hss

/-- Some saturation stage within the node-count bound is edge-closed. -/
theorem sat_reaches_closed_stage (g : List (Nat × List Nat)) (S0 : List Nat) :
    ∃ k ≤ (nodesOf g).dedup.length, EdgeClosed g (sat g k S0) := by
  by_contra hcon
  push_neg at hcon
  have hgrow : ∀ k ≤ (nodesOf g).dedup.length + 1, k ≤ cardIn g (sat g k S0) := by
    intro k
    induction k with
    | zero => intro _; omega
    | succ k ih =>
        intro hk
        have hk2 : k ≤ (nodesOf g).dedup.length := by omega
        have h1 := ih (by omega)
        have hnc := hcon k hk2
        have hstep : ¬ ∀ x ∈ satStep g (sat g k S0), x ∈ sat g k S0 := by
          intro hall
          apply hnc
          intro a ha b hb
          exact hall b (mem_satStep_nbr g _ a b ha hb)
        have hgrow2 := cardIn_grow g (sat g k S0) hstep
        have hsucc : sat g (k + 1) S0 = sat g 1 (sat g k S0) := sat_add g 1 k S0
        have hone : sat g 1 (sat g k S0) = satStep g (sat g k S0) := rfl
        rw [hsucc, hone]
        omega
  have h2 := hgrow ((nodesOf g).dedup.length + 1) (by omega)
  have h3 := cardIn_le g (sat g ((nodesOf g).dedup.length + 1) S0)
  omega

/-- Completeness: reachable nodes appear in the bounded saturation. -/
theorem sat_complete (g : List (Nat × List Nat)) (a b : Nat)
    (h : Reaches g a b) : b ∈ sat g ((nodesOf g).dedup.length + 1) [a] := by
  obtain ⟨k, hk, hclosed⟩ := sat_reaches_closed_stage g [a]
  have hb : b ∈ sat g k [a] :=
    reach_in_closed g (sat g k [a]) hclosed
      (mem_sat_left g k [a] a (List.mem_singleton.mpr rfl)) h
  have heq : sat g ((nodesOf g).dedup.length + 1) [a] =
      sat g ((nodesOf g).dedup.length + 1 - k) (sat g k [a]) := by
    rw [← sat_add g _ k [a]]
    congr 1
    omega
  rw [heq]
  exact mem_sat_left g _ _ b hb

/-- `reachB` decides `Reaches`. -/
theorem reachB_iff (g : List (Nat × List Nat)) (a b : Nat) :
    reachB g a b = true ↔ Reaches g a b := by
  unfold reachB
  rw [decide_eq_true_eq]
  constructor
  · intro h
    obtain ⟨s, hs, hr⟩ := sat_sound g _ [a] b h
    rw [List.mem_singleton] at hs
    rw [hs] at hr
    exact hr
  · exact sat_complete g a b

theorem insSorted_mem (x y : Nat) :
    ∀ l : List Nat, (y ∈ insSorted x l ↔ y = x ∨ y ∈ l) := by
  intro l
  induction l with
  | nil => simp [insSorted]
  | cons z rest ih =>
      simp only [insSorted]
      by_cases h : x ≤ z
      · rw [if_pos h]
        simp [List.mem_cons]
      · rw [if_neg h]
        simp only [List.mem_cons, ih]
        tauto

theorem insSorted_sorted (x : Nat) :
    ∀ l : List Nat, List.Pairwise (· ≤ ·) l →
      List.Pairwise (· ≤ ·) (insSorted x l) := by
  intro l
  induction l with
  | nil => intro _; simp [insSorted]
  | cons z rest ih =>
      intro hs
      rw [List.pairwise_cons] at hs
      simp only [insSorted]
      by_cases h : x ≤ z
      · rw [if_pos h]
        rw [List.pairwise_cons]
        constructor
        · intro b hb
          rcases List.mem_cons.mp hb with rfl | hb2
          · exact h
          · exact le_trans h (hs.1 b hb2)
        · rw [List.pairwise_cons]
          exact hs
      · rw [if_neg h]
        rw [List.pairwise_cons]
        constructor
        · intro b hb
          rcases (insSorted_mem x b rest).mp hb with rfl | hb2
          · omega
          · exact hs.1 b hb2
        · exact ih hs.2

theorem sortNats_mem (y : Nat) :
    ∀ l : List Nat, (y ∈ sortNats l ↔ y ∈ l) := by
  intro l
  induction l with
  | nil => simp [sortNats]
  | cons x rest ih =>
      simp only [sortNats, insSorted_mem, List.mem_cons, ih]

theorem sortNats_sorted : ∀ l : List Nat, List.Pairwise (· ≤ ·) (sortNats l) := by
  intro l
  induction l with
  | nil => simp [sortNats]
  | cons x rest ih => exact insSorted_sorted x (sortNats rest) ih

theorem sorted_getLastD_ge : ∀ l : List Nat, List.Pairwise (· ≤ ·) l →
    ∀ x ∈ l, x ≤ l.getLastD 0 := by
  intro l
  induction l with
  | nil =>
      intro _ x hx
      exact absurd hx (List.not_mem_nil x)
  | cons z rest ih =>
      intro hs x hx
      rw [List.pairwise_cons] at hs
      cases rest with
      | nil =>
          rcases List.mem_cons.mp hx with rfl | hx2
          · simp
          · exact absurd hx2 (List.not_mem_nil x)
      | cons z2 rest2 =>
          have hlast : (z :: z2 :: rest2).getLastD 0 = (z2 :: rest2).getLastD 0 := by
            simp [List.getLastD]
          rw [hlast]
          rcases List.mem_cons.mp hx with rfl | hx2
          · exact le_trans (hs.1 z2 (List.mem_cons_self z2 rest2))
              (ih hs.2 z2 (List.mem_cons_self z2 rest2))
          · exact ih hs.2 x hx2

theorem getLastD_mem : ∀ l : List Nat, l ≠ [] → l.getLastD 0 ∈ l := by
  intro l
  induction l with
  | nil => intro h; exact absurd rfl h
  | cons z rest ih =>
      intro _
      cases rest with
      | nil => simp
      | cons z2 rest2 =>
          have hlast : (z :: z2 :: rest2).getLastD 0 = (z2 :: rest2).getLastD 0 := by
            simp [List.getLastD]
          rw [hlast]
          exact List.mem_cons_of_mem z (ih (List.cons_ne_nil z2 rest2))

/-- The largest element of a component, the way `HasCycle` extracts it:
sort ascending and read the back. -/
theorem sortNats_last_spec (C : List Nat) (hne : C ≠ []) :
    (sortNats C).getLastD 0 ∈ C ∧ ∀ x ∈ C, x ≤ (sortNats C).getLastD 0 := by
  have hsne : sortNats C ≠ [] := by
    intro h
    cases hc : C with
    | nil => exact hne hc
    | cons z rest =>
        have : z ∈ sortNats C := (sortNats_mem z C).mpr (by rw [hc]; simp)
        rw [h] at this
        exact absurd this (List.not_mem_nil z)
  constructor
  · exact (sortNats_mem _ C).mp (getLastD_mem (sortNats C) hsne)
  · intro x hx
    exact sorted_getLastD_ge (sortNats C) (sortNats_sorted C) x
      ((sortNats_mem x C).mpr hx)

/-- `v` is the maximum of the members of `l` (`none` when there are none). -/
def IsMaxOf (l : List Nat) (v : Option Nat) : Prop :=
  match v with
  | none => ∀ x, x ∉ l
  | some m => m ∈ l ∧ ∀ x ∈ l, x ≤ m

theorem IsMaxOf_unique (l l2 : List Nat) (v v2 : Option Nat)
    (h : IsMaxOf l v) (h2 : IsMaxOf l2 v2) (hmem : ∀ x, x ∈ l ↔ x ∈ l2) : v = v2 := by
  cases v with
  | none =>
      cases v2 with
      | none => rfl
      | some m2 =>
          exact absurd ((hmem m2).mpr h2.1) (h m2)
  | some m =>
      cases v2 with
      | none => exact absurd ((hmem m).mp h.1) (h2 m)
      | some m2 =>
          have h1 := h2.2 m ((hmem m).mp h.1)
          have h3 := h.2 m2 ((hmem m2).mpr h2.1)
          have : m = m2 := by omega
          rw [this]

/-- The greatest member of a list. -/
def maxOfList : List Nat → Option Nat
  | [] => none
  | x :: rest =>
      match maxOfList rest with
      | none => some x
      | some m => some (max x m)

theorem maxOfList_spec : ∀ l : List Nat, IsMaxOf l (maxOfList l) := by
  intro l
  induction l with
  | nil =>
      intro x
      exact List.not_mem_nil x
  | cons x rest ih =>
      simp only [maxOfList]
      cases hc : maxOfList rest with
      | none =>
          rw [hc] at ih
          refine ⟨List.mem_cons_self x rest, ?_⟩
          intro y hy
          rcases List.mem_cons.mp hy with rfl | hy2
          · exact Nat.le_refl y
          · exact absurd hy2 (ih y)
      | some m =>
          rw [hc] at ih
          constructor
          · rcases Nat.le_total x m with hle | hle
            · rw [Nat.max_eq_right hle]
              exact List.mem_cons_of_mem x ih.1
            · rw [Nat.max_eq_left hle]
              exact List.mem_cons_self x rest
          · intro y hy
            rcases List.mem_cons.mp hy with rfl | hy2
            · exact Nat.le_max_left y m
            · exact le_trans (ih.2 y hy2) (Nat.le_max_right x m)

/-- The members of the components `HasCycle` aggregates over. -/
def bigMembers (comps : List (List Nat)) : List Nat :=
  (comps.filter (fun C => decide (1 < C.length))).flatten

theorem bigMembers_cons (C : List Nat) (rest : List (List Nat)) :
    bigMembers (C :: rest) =
      if 1 < C.length then C ++ bigMembers rest else bigMembers rest := by
  unfold bigMembers
  by_cases h : 1 < C.length
  · rw [if_pos h]
    rw [List.filter_cons_of_pos (by simpa using h)]
    rfl
  · rw [if_neg h]
    rw [List.filter_cons_of_neg (by simpa using h)]

/-- `HasCycle`'s fold computes the maximum over all members of all
components of size at least two. -/
theorem victimScan_spec : ∀ (comps : List (List Nat)) (acc : Option Nat)
    (l0 : List Nat), IsMaxOf l0 acc →
    IsMaxOf (l0 ++ bigMembers comps) (comps.foldl victimStep acc) := by
  intro comps
  induction comps with
  | nil =>
      intro acc l0 h
      simpa [bigMembers] using h
  | cons C rest ih =>
      intro acc l0 h
      rw [List.foldl_cons, bigMembers_cons]
      by_cases hlen : 1 < C.length
      · rw [if_pos hlen]
        have hCne : C ≠ [] := by
          intro hc
          rw [hc] at hlen
          simp at hlen
        obtain ⟨hm1, hm2⟩ := sortNats_last_spec C hCne
        have hnext : IsMaxOf (l0 ++ C) (victimStep acc C) := by
          cases acc with
          | none =>
              have hstep : victimStep none C = some ((sortNats C).getLastD 0) := by
                unfold victimStep
                rw [if_pos hlen]
              rw [hstep]
              refine ⟨List.mem_append_right l0 hm1, ?_⟩
              intro y hy
              rcases List.mem_append.mp hy with hy2 | hy2
              · exact absurd hy2 (h y)
              · exact hm2 y hy2
          | some a =>
              have hstep : victimStep (some a) C =
                  some (max a ((sortNats C).getLastD 0)) := by
                unfold victimStep
                rw [if_pos hlen]
              rw [hstep]
              constructor
              · rcases Nat.le_total a ((sortNats C).getLastD 0) with hle | hle
                · rw [Nat.max_eq_right hle]
                  exact List.mem_append_right l0 hm1
                · rw [Nat.max_eq_left hle]
                  exact List.mem_append_left C h.1
              · intro y hy
                rcases List.mem_append.mp hy with hy2 | hy2
                · exact le_trans (h.2 y hy2) (Nat.le_max_left _ _)
                · exact le_trans (hm2 y hy2) (Nat.le_max_right _ _)
        have := ih (victimStep acc C) (l0 ++ C) hnext
        rw [List.append_assoc] at this
        exact this
      · rw [if_neg hlen]
        have hstep : victimStep acc C = acc := by
          unfold victimStep
          rw [if_neg hlen]
        rw [hstep]
        exact ih acc l0 h

/-- A transaction sits in a strongly-connected component of size at least
two exactly when some distinct transaction is mutually reachable with it. -/
def inNontrivialSCC (g : List (Nat × List Nat)) (t : Nat) : Bool :=
  (nodesOf g).dedup.any (fun u => decide (u ≠ t) && reachB g t u && reachB g u t)

/-- Modelled from the spec: the spec's victim, the maximum over all SCCs of
size `≥ 2` of the largest transaction id in the component.  The maximum of
per-component maxima over those components is the maximum over the union of
their members, which is exactly the set of transactions mutually reachable
with some distinct transaction; the victim is its greatest element, `none`
when no such component exists. -/
def claimVictim (g : List (Nat × List Nat)) : Option Nat :=
  maxOfList ((nodesOf g).dedup.filter (fun t => inNontrivialSCC g t))

theorem lookup_cons_eq {α : Type} (k : Nat) (v : α) (l : List (Nat × α)) :
    List.lookup k ((k, v) :: l) = some v := by
  simp [List.lookup]

theorem lookup_cons_ne {α : Type} (x k : Nat) (v : α) (l : List (Nat × α))
    (h : x ≠ k) : List.lookup x ((k, v) :: l) = List.lookup x l := by
  simp [List.lookup, show (x == k) = false from beq_eq_false_iff_ne.mpr h]

theorem lookup_setb (k x : Nat) :
    ∀ m : List (Nat × Bool), (setb m k).lookup x =
      if x = k then (m.lookup k).map (fun _ => false) else m.lookup x := by
  intro m
  induction m with
  | nil =>
      by_cases h : x = k
      · rw [if_pos h]; rfl
      · rw [if_neg h]; rfl
  | cons p rest ih =>
      obtain ⟨a, b⟩ := p
      simp only [setb]
      by_cases hak : a = k
      · rw [if_pos hak]
        subst hak
        by_cases hx : x = a
        · subst hx
          rw [if_pos rfl, lookup_cons_eq, lookup_cons_eq]
          rfl
        · rw [if_neg hx, lookup_cons_ne x a _ _ hx, lookup_cons_ne x a _ _ hx]
      · rw [if_neg hak]
        by_cases hx : x = a
        · have hxk : x ≠ k := by rw [hx]; exact hak
          rw [if_neg hxk, hx, lookup_cons_eq, lookup_cons_eq]
        · rw [lookup_cons_ne x a _ _ hx, lookup_cons_ne x a _ _ hx, ih]
          by_cases hk : x = k
          · rw [if_pos hk, if_pos hk]
            subst hk
            rw [lookup_cons_ne x a _ _ hx]
          · rw [if_neg hk, if_neg hk]

theorem lookup_setFlags (x : Nat) :
    ∀ (ks : List Nat) (m : List (Nat × Bool)),
      (setFlags m ks).lookup x =
        if x ∈ ks then (m.lookup x).map (fun _ => false) else m.lookup x := by
  intro ks
  induction ks with
  | nil =>
      intro m
      rw [if_neg (List.not_mem_nil x)]
      rfl
  | cons k ks ih =>
      intro m
      simp only [setFlags]
      rw [ih (setb m k), lookup_setb k x m]
      by_cases hks : x ∈ ks
      · rw [if_pos hks, if_pos (List.mem_cons_of_mem k hks)]
        by_cases hk : x = k
        · rw [if_pos hk]
          subst hk
          cases m.lookup x <;> rfl
        · rw [if_neg hk]
      · rw [if_neg hks]
        by_cases hk : x = k
        · rw [if_pos hk, if_pos (by rw [hk]; exact List.mem_cons_self k ks)]
          subst hk
          rfl
        · rw [if_neg hk, if_neg (by
            intro hc
            rcases List.mem_cons.mp hc with h | h
            · exact hk h
            · exact hks h)]

theorem popUntil_spec (tid : Nat) (stk2 : List Nat) :
    ∀ seg : List Nat, tid ∉ seg →
      popUntil tid (seg ++ tid :: stk2) = (seg ++ [tid], stk2) := by
  intro seg
  induction seg with
  | nil =>
      intro _
      simp [popUntil]
  | cons x seg ih =>
      intro hnot
      have hx : x ≠ tid := by
        intro he
        exact hnot (by rw [he]; exact List.mem_cons_self tid seg)
      simp only [List.cons_append, popUntil, List.append_eq]
      rw [if_neg hx, ih (fun hc => hnot (List.mem_cons_of_mem x hc))]

/-- The state invariant of the Tarjan traversal. -/
structure TInv (g : List (Nat × List Nat)) (s : TarjanState) : Prop where
  istKeys : ∀ x : Nat, (s.ist.lookup x).isSome = (s.vst.lookup x).isSome
  partition : ∀ x : Nat,
    (s.vst.lookup x).isSome = true ↔ (x ∈ s.stk ∨ x ∈ s.res.flatten)
  stkNodup : s.stk.Nodup
  stkDisj : ∀ x ∈ s.stk, x ∉ s.res.flatten
  emitNodup : s.res.flatten.Nodup
  istStack : ∀ x : Nat, s.ist.lookup x = some true ↔ x ∈ s.stk
  timeBound : ∀ x t, s.vst.lookup x = some t → t < s.time
  nodesIn : ∀ x : Nat, (s.vst.lookup x).isSome = true → x ∈ nodesOf g
  emitClosed : ∀ x ∈ s.res.flatten, ∀ y ∈ nbrsOf g x, y ∈ s.res.flatten
  emitMutual : ∀ C ∈ s.res, ∀ x ∈ C, ∀ y ∈ C, Reaches g x y
  emitMax : ∀ C ∈ s.res, ∀ x ∈ C, ∀ y, Reaches g x y → Reaches g y x → y ∈ C

/-- How a state extends during a call: times and components persist, the
clock is monotone, new discoveries carry times at least the old clock. -/
structure Ext (s s2 : TarjanState) : Prop where
  vstMono : ∀ x t, s.vst.lookup x = some t → s2.vst.lookup x = some t
  timeMono : s.time ≤ s2.time
  resMono : ∀ C ∈ s.res, C ∈ s2.res
  freshTime : ∀ x t, s.vst.lookup x = none → s2.vst.lookup x = some t → s.time ≤ t

theorem Ext.rfl (s : TarjanState) : Ext s s :=
  ⟨fun _ _ h => h, Nat.le_refl _, fun _ h => h, fun x t h1 h2 => by rw [h1] at h2; cases h2⟩

theorem Ext.comp {s s2 s3 : TarjanState} (h1 : Ext s s2) (h2 : Ext s2 s3) : Ext s s3 := by
  refine ⟨?_, le_trans h1.timeMono h2.timeMono, ?_, ?_⟩
  · intro x t h
    exact h2.vstMono x t (h1.vstMono x t h)
  · intro C h
    exact h2.resMono C (h1.resMono C h)
  · intro x t hn hs
    cases hc : s2.vst.lookup x with
    | none => exact le_trans h1.timeMono (h2.freshTime x t hc hs)
    | some t2 =>
        have h3 := h2.vstMono x t2 hc
        rw [h3] at hs
        injection hs with ht
        rw [← ht]
        exact h1.freshTime x t2 hn hc

theorem Ext.vstSome {s s2 : TarjanState} (h : Ext s s2) (x : Nat)
    (hx : (s.vst.lookup x).isSome = true) : (s2.vst.lookup x).isSome = true := by
  cases hc : s.vst.lookup x with
  | none => rw [hc] at hx; cases hx
  | some t => rw [h.vstMono x t hc]; rfl

theorem Ext.emitMono {s s2 : TarjanState} (h : Ext s s2) (x : Nat)
    (hx : x ∈ s.res.flatten) : x ∈ s2.res.flatten := by
  rw [List.mem_flatten] at hx ⊢
  obtain ⟨C, hC, hxc⟩ := hx
  exact ⟨C, h.resMono C hC, hxc⟩

/-- Neighbor accounting for a pending stack segment: all neighbors are
visited, and a neighbor still on the stack is either in the segment or was
discovered no earlier than the pending lowlink. -/
def SegNbrs (g : List (Nat × List Nat)) (s : TarjanState) (seg : List Nat)
    (m : Nat) : Prop :=
  ∀ x ∈ seg, ∀ y ∈ nbrsOf g x, (s.vst.lookup y).isSome = true ∧
    (y ∈ s.stk → y ∈ seg ∨ ∃ dy, s.vst.lookup y = some dy ∧ m ≤ dy)

/-- Lowlink witnesses for a pending stack segment: every segment node
reaches some strictly earlier stack node discovered no earlier than the
pending lowlink. -/
def SegWit (g : List (Nat × List Nat)) (s : TarjanState) (seg : List Nat)
    (m : Nat) : Prop :=
  ∀ x ∈ seg, ∃ w dw dx, w ∈ s.stk ∧ s.vst.lookup w = some dw ∧
    s.vst.lookup x = some dx ∧ dw < dx ∧ m ≤ dw ∧ Reaches g x w

theorem segNbrs_mono {g : List (Nat × List Nat)} {s : TarjanState}
    {seg : List Nat} {m m2 : Nat} (hle : m2 ≤ m) (h : SegNbrs g s seg m) :
    SegNbrs g s seg m2 := by
  intro x hx y hy
  obtain ⟨h1, h2⟩ := h x hx y hy
  refine ⟨h1, ?_⟩
  intro hstk
  rcases h2 hstk with h3 | ⟨dy, hdy, hmdy⟩
  · exact Or.inl h3
  · exact Or.inr ⟨dy, hdy, by omega⟩

theorem segWit_mono {g : List (Nat × List Nat)} {s : TarjanState}
    {seg : List Nat} {m m2 : Nat} (hle : m2 ≤ m) (h : SegWit g s seg m) :
    SegWit g s seg m2 := by
  intro x hx
  obtain ⟨w, dw, dx, h1, h2, h3, h4, h5, h6⟩ := h x hx
  exact ⟨w, dw, dx, h1, h2, h3, h4, by omega, h6⟩

theorem segNbrs_ext {g : List (Nat × List Nat)} {s s2 : TarjanState}
    {seg newseg : List Nat} {m : Nat} (hE : Ext s s2)
    (hstk : s2.stk = newseg ++ s.stk)
    (hfresh : ∀ z ∈ newseg, s.vst.lookup z = none)
    (h : SegNbrs g s seg m) : SegNbrs g s2 seg m := by
  intro x hx y hy
  obtain ⟨hv, hcl⟩ := h x hx y hy
  refine ⟨hE.vstSome y hv, ?_⟩
  intro hstk2
  rw [hstk] at hstk2
  rcases List.mem_append.mp hstk2 with hnew | hold
  · exfalso
    have := hfresh y hnew
    rw [this] at hv
    cases hv
  · rcases hcl hold with h2 | ⟨dy, hdy, hm⟩
    · exact Or.inl h2
    · exact Or.inr ⟨dy, hE.vstMono y dy hdy, hm⟩

theorem segWit_ext {g : List (Nat × List Nat)} {s s2 : TarjanState}
    {seg newseg : List Nat} {m : Nat} (hE : Ext s s2)
    (hstk : s2.stk = newseg ++ s.stk) (h : SegWit g s seg m) : SegWit g s2 seg m := by
  intro x hx
  obtain ⟨w, dw, dx, h1, h2, h3, h4, h5, h6⟩ := h x hx
  refine ⟨w, dw, dx, ?_, hE.vstMono w dw h2, hE.vstMono x dx h3, h4, h5, h6⟩
  rw [hstk]
  exact List.mem_append_right newseg h1

theorem pushState_lookup_self (s : TarjanState) (tid : Nat) :
    (pushState s tid).vst.lookup tid = some s.time :=
  lookup_cons_eq tid s.time s.vst

theorem pushState_lookup_ne (s : TarjanState) (tid x : Nat) (h : x ≠ tid) :
    (pushState s tid).vst.lookup x = s.vst.lookup x :=
  lookup_cons_ne x tid s.time s.vst h

theorem TInv.pushInv {g : List (Nat × List Nat)} {s : TarjanState} (hInv : TInv g s)
    (tid : Nat) (hfresh : s.vst.lookup tid = none) (hnode : tid ∈ nodesOf g) :
    TInv g (pushState s tid) := by
  have hstk : tid ∉ s.stk := by
    intro hc
    have := (hInv.partition tid).mpr (Or.inl hc)
    rw [hfresh] at this
    cases this
  have hemit : tid ∉ s.res.flatten := by
    intro hc
    have := (hInv.partition tid).mpr (Or.inr hc)
    rw [hfresh] at this
    cases this
  refine ⟨?_, ?_, ?_, ?_, hInv.emitNodup, ?_, ?_, ?_, hInv.emitClosed,
    hInv.emitMutual, hInv.emitMax⟩
  · intro x
    by_cases h : x = tid
    · subst h
      show (List.lookup x ((x, true) :: s.ist)).isSome =
        (List.lookup x ((x, s.time) :: s.vst)).isSome
      rw [lookup_cons_eq, lookup_cons_eq]
      rfl
    · show (List.lookup x ((tid, true) :: s.ist)).isSome =
        (List.lookup x ((tid, s.time) :: s.vst)).isSome
      rw [lookup_cons_ne x tid _ _ h, lookup_cons_ne x tid _ _ h]
      exact hInv.istKeys x
  · intro x
    by_cases h : x = tid
    · subst h
      show (List.lookup x ((x, s.time) :: s.vst)).isSome = true ↔
        (x ∈ x :: s.stk ∨ x ∈ s.res.flatten)
      rw [lookup_cons_eq]
      simp
    · show (List.lookup x ((tid, s.time) :: s.vst)).isSome = true ↔
        (x ∈ tid :: s.stk ∨ x ∈ s.res.flatten)
      rw [lookup_cons_ne x tid _ _ h]
      rw [hInv.partition x]
      constructor
      · intro hc
        rcases hc with hc | hc
        · exact Or.inl (List.mem_cons_of_mem tid hc)
        · exact Or.inr hc
      · intro hc
        rcases hc with hc | hc
        · rcases List.mem_cons.mp hc with hc2 | hc2
          · exact absurd hc2 h
          · exact Or.inl hc2
        · exact Or.inr hc
  · exact List.nodup_cons.mpr ⟨hstk, hInv.stkNodup⟩
  · intro x hx
    rcases List.mem_cons.mp hx with rfl | hx2
    · exact hemit
    · exact hInv.stkDisj x hx2
  · intro x
    by_cases h : x = tid
    · subst h
      show List.lookup x ((x, true) :: s.ist) = some true ↔ x ∈ x :: s.stk
      rw [lookup_cons_eq]
      simp
    · show List.lookup x ((tid, true) :: s.ist) = some true ↔ x ∈ tid :: s.stk
      rw [lookup_cons_ne x tid _ _ h, hInv.istStack x]
      constructor
      · exact fun hc => List.mem_cons_of_mem tid hc
      · intro hc
        rcases List.mem_cons.mp hc with hc2 | hc2
        · exact absurd hc2 h
        · exact hc2
  · intro x t hx
    by_cases h : x = tid
    · subst h
      rw [pushState_lookup_self] at hx
      injection hx with ht
      show t < s.time + 1
      omega
    · rw [pushState_lookup_ne s tid x h] at hx
      have := hInv.timeBound x t hx
      show t < s.time + 1
      omega
  · intro x hx
    by_cases h : x = tid
    · subst h
      exact hnode
    · rw [pushState_lookup_ne s tid x h] at hx
      exact hInv.nodesIn x hx

theorem Ext.pushExt (s : TarjanState) (tid : Nat) (hfresh : s.vst.lookup tid = none) :
    Ext s (pushState s tid) := by
  refine ⟨?_, by show s.time ≤ s.time + 1; omega, fun C h => h, ?_⟩
  · intro x t h
    have hne : x ≠ tid := by
      intro he
      rw [he, hfresh] at h
      cases h
    rw [pushState_lookup_ne s tid x hne]
    exact h
  · intro x t h1 h2
    by_cases h : x = tid
    · subst h
      rw [pushState_lookup_self] at h2
      injection h2 with ht
      omega
    · rw [pushState_lookup_ne s tid x h, h1] at h2
      cases h2

/-- The component-pop step of `f`, `mt == t`: popping the fresh stack
segment together with `t_id` as a component re-establishes the invariant,
and the component is exactly the strongly-connected component of `t_id`. -/
theorem visit_pop_step (g : List (Nat × List Nat)) (tid : Nat) (s s2 : TarjanState)
    (segL : List Nat)
    (hInv : TInv g s) (hfresh : s.vst.lookup tid = none)
    (hInv2 : TInv g s2) (hE12 : Ext (pushState s tid) s2)
    (hstk2 : s2.stk = segL ++ tid :: s.stk)
    (hfreshL : ∀ z ∈ segL, (pushState s tid).vst.lookup z = none)
    (hSN : SegNbrs g s2 segL s.time) (hSW : SegWit g s2 segL s.time)
    (hns : ∀ y ∈ nbrsOf g tid, (s2.vst.lookup y).isSome = true ∧
      (y ∈ s2.stk → y ∈ segL ∨ ∃ dy, s2.vst.lookup y = some dy ∧ s.time ≤ dy))
    (hreach : ∀ x, (pushState s tid).vst.lookup x = none →
      (s2.vst.lookup x).isSome = true → Reaches g tid x) :
    TInv g ⟨s2.vst, setFlags s2.ist (segL ++ [tid]), s.stk, s2.time,
        s2.res ++ [segL ++ [tid]]⟩ ∧
    Ext s ⟨s2.vst, setFlags s2.ist (segL ++ [tid]), s.stk, s2.time,
        s2.res ++ [segL ++ [tid]]⟩ ∧
    s2.vst.lookup tid = some s.time ∧
    tid ∈ (s2.res ++ [segL ++ [tid]]).flatten ∧
    (∀ x, s.vst.lookup x = none → (s2.vst.lookup x).isSome = true →
      Reaches g tid x) := by
  have hE01 : Ext s (pushState s tid) := Ext.pushExt s tid hfresh
  have hE02 : Ext s s2 := hE01.comp hE12
  have htid2 : s2.vst.lookup tid = some s.time :=
    hE12.vstMono tid s.time (pushState_lookup_self s tid)
  have hfreshS : ∀ z ∈ segL, s.vst.lookup z = none := by
    intro z hz
    have h1 := hfreshL z hz
    by_cases he : z = tid
    · rw [he, pushState_lookup_self] at h1
      cases h1
    · rw [pushState_lookup_ne s tid z he] at h1
      exact h1
  have htidL : tid ∉ segL := by
    intro hc
    have := hfreshL tid hc
    rw [pushState_lookup_self] at this
    cases this
  have hstkvisS : ∀ x ∈ s.stk, (s.vst.lookup x).isSome = true := by
    intro x hx
    exact (hInv.partition x).mpr (Or.inl hx)
  have htidstk : tid ∉ s.stk := by
    intro hc
    have := hstkvisS tid hc
    rw [hfresh] at this
    cases this
  have hCfresh : ∀ z, z ∈ segL ++ [tid] → s.vst.lookup z = none := by
    intro z hz
    rcases List.mem_append.mp hz with hz2 | hz2
    · exact hfreshS z hz2
    · rw [List.mem_singleton.mp hz2]
      exact hfresh
  have hCstk : ∀ z, z ∈ segL ++ [tid] → z ∉ s.stk := by
    intro z hz hc
    have h1 := hstkvisS z hc
    rw [hCfresh z hz] at h1
    cases h1
  have hCsub2 : ∀ z, z ∈ segL ++ [tid] → z ∈ s2.stk := by
    intro z hz
    rw [hstk2]
    rcases List.mem_append.mp hz with hz2 | hz2
    · exact List.mem_append_left _ hz2
    · rw [List.mem_singleton.mp hz2]
      exact List.mem_append_right _ (List.mem_cons_self tid s.stk)
  have hCemit : ∀ z, z ∈ segL ++ [tid] → z ∉ s2.res.flatten := by
    intro z hz
    exact hInv2.stkDisj z (hCsub2 z hz)
  have hCnodup : (segL ++ [tid]).Nodup := by
    have hsub : List.Sublist (segL ++ [tid]) s2.stk := by
      rw [hstk2]
      have h9 : segL ++ tid :: s.stk = (segL ++ [tid]) ++ s.stk := by
        simp
      rw [h9]
      exact List.sublist_append_left _ _
    exact hInv2.stkNodup.sublist hsub
  have hstkS2 : ∀ x ∈ s.stk, x ∈ s2.stk := by
    intro x hx
    rw [hstk2]
    exact List.mem_append_right _ (List.mem_cons_of_mem tid hx)
  have hsegLtime : ∀ z ∈ segL, ∃ dz, s2.vst.lookup z = some dz ∧ s.time < dz := by
    intro z hz
    have hvis : (s2.vst.lookup z).isSome = true :=
      (hInv2.partition z).mpr (Or.inl (hCsub2 z (List.mem_append_left _ hz)))
    cases hc : s2.vst.lookup z with
    | none => rw [hc] at hvis; cases hvis
    | some dz =>
        have := hE12.freshTime z dz (hfreshL z hz) hc
        have hpt : (pushState s tid).time = s.time + 1 := rfl
        rw [hpt] at this
        exact ⟨dz, rfl, by omega⟩
  have holdtime : ∀ x ∈ s.stk, ∃ dx, s2.vst.lookup x = some dx ∧ dx < s.time := by
    intro x hx
    have hvis := hstkvisS x hx
    cases hc : s.vst.lookup x with
    | none => rw [hc] at hvis; cases hvis
    | some dx =>
        exact ⟨dx, hE02.vstMono x dx hc, hInv.timeBound x dx hc⟩
  -- membership in the popped component, from the stack with a time bound
  have hstkC : ∀ y ∈ s2.stk, ∀ dy, s2.vst.lookup y = some dy → s.time ≤ dy →
      y ∈ segL ++ [tid] := by
    intro y hy dy hdy hts
    rw [hstk2] at hy
    rcases List.mem_append.mp hy with hy2 | hy2
    · exact List.mem_append_left _ hy2
    · rcases List.mem_cons.mp hy2 with rfl | hy3
      · exact List.mem_append_right _ (List.mem_singleton.mpr rfl)
      · obtain ⟨dx, hdx, hlt⟩ := holdtime y hy3
        rw [hdx] at hdy
        injection hdy with hde
        omega
  -- every edge out of the component stays inside component-or-emitted
  have hCedge : ∀ x, x ∈ segL ++ [tid] → ∀ y ∈ nbrsOf g x,
      y ∈ s2.res.flatten ∨ y ∈ segL ++ [tid] := by
    intro x hx y hy
    have hfacts : (s2.vst.lookup y).isSome = true ∧
        (y ∈ s2.stk → y ∈ segL ∨ ∃ dy, s2.vst.lookup y = some dy ∧ s.time ≤ dy) := by
      rcases List.mem_append.mp hx with hx2 | hx2
      · exact hSN x hx2 y hy
      · rw [List.mem_singleton.mp hx2] at hy
        exact hns y hy
    by_cases hstk : y ∈ s2.stk
    · rcases hfacts.2 hstk with h2 | ⟨dy, hdy, hts⟩
      · exact Or.inr (List.mem_append_left _ h2)
      · exact Or.inr (hstkC y hstk dy hdy hts)
    · left
      rcases (hInv2.partition y).mp hfacts.1 with h2 | h2
      · exact absurd h2 hstk
      · exact h2
  -- every component member reaches tid and is reached by tid
  have hreachDown : ∀ x, x ∈ segL ++ [tid] → Reaches g tid x := by
    intro x hx
    rcases List.mem_append.mp hx with hx2 | hx2
    · refine hreach x (hfreshL x hx2) ?_
      obtain ⟨dz, hdz, _⟩ := hsegLtime x hx2
      rw [hdz]
      rfl
    · rw [List.mem_singleton.mp hx2]
      exact Reaches.refl tid
  have hreachUp : ∀ dx : Nat, ∀ x, x ∈ segL ++ [tid] → s2.vst.lookup x = some dx →
      Reaches g x tid := by
    intro dx
    induction dx using Nat.strong_induction_on with
    | _ dx ih =>
        intro x hx hdx
        rcases List.mem_append.mp hx with hx2 | hx2
        · obtain ⟨w, dw, dx2, hw1, hw2, hw3, hw4, hw5, hw6⟩ := hSW x hx2
          rw [hdx] at hw3
          injection hw3 with hde
          have hwC : w ∈ segL ++ [tid] := hstkC w hw1 dw hw2 hw5
          have hrec := ih dw (by omega) w hwC hw2
          exact hw6.trans hrec
        · rw [List.mem_singleton.mp hx2]
          exact Reaches.refl tid
  have hCreach : ∀ x, x ∈ segL ++ [tid] → ∀ y ∈ segL ++ [tid], Reaches g x y := by
    intro x hx y hy
    cases hc : s2.vst.lookup x with
    | none =>
        exfalso
        have := (hInv2.partition x).mpr (Or.inl (hCsub2 x hx))
        rw [hc] at this
        cases this
    | some dx =>
        exact (hreachUp dx x hx hc).trans (hreachDown y hy)
  -- the new emitted set is edge-closed
  have hflat : (s2.res ++ [segL ++ [tid]]).flatten = s2.res.flatten ++ (segL ++ [tid]) := by
    simp
  have hclosed : ∀ x ∈ (s2.res ++ [segL ++ [tid]]).flatten, ∀ y ∈ nbrsOf g x,
      y ∈ (s2.res ++ [segL ++ [tid]]).flatten := by
    intro x hx y hy
    rw [hflat] at hx ⊢
    rcases List.mem_append.mp hx with hx2 | hx2
    · exact List.mem_append_left _ (hInv2.emitClosed x hx2 y hy)
    · rcases hCedge x hx2 y hy with h2 | h2
      · exact List.mem_append_left _ h2
      · exact List.mem_append_right _ h2
  refine ⟨?_, ?_, htid2, ?_, ?_⟩
  · refine ⟨?_, ?_, hInv.stkNodup, ?_, ?_, ?_, ?_, ?_, hclosed, ?_, ?_⟩
    · intro x
      show ((setFlags s2.ist (segL ++ [tid])).lookup x).isSome = (s2.vst.lookup x).isSome
      rw [lookup_setFlags]
      by_cases h : x ∈ segL ++ [tid]
      · rw [if_pos h]
        rw [← hInv2.istKeys x]
        cases s2.ist.lookup x <;> rfl
      · rw [if_neg h]
        exact hInv2.istKeys x
    · intro x
      show (s2.vst.lookup x).isSome = true ↔
        (x ∈ s.stk ∨ x ∈ (s2.res ++ [segL ++ [tid]]).flatten)
      rw [hflat, hInv2.partition x, hstk2]
      constructor
      · intro hc
        rcases hc with hc | hc
        · rcases List.mem_append.mp hc with h2 | h2
          · exact Or.inr (List.mem_append_right _ (List.mem_append_left _ h2))
          · rcases List.mem_cons.mp h2 with rfl | h3
            · exact Or.inr (List.mem_append_right _
                (List.mem_append_right _ (List.mem_singleton.mpr rfl)))
            · exact Or.inl h3
        · exact Or.inr (List.mem_append_left _ hc)
      · intro hc
        rcases hc with hc | hc
        · exact Or.inl (List.mem_append_right _ (List.mem_cons_of_mem tid hc))
        · rcases List.mem_append.mp hc with h2 | h2
          · exact Or.inr h2
          · rcases List.mem_append.mp h2 with h3 | h3
            · exact Or.inl (List.mem_append_left _ h3)
            · rw [List.mem_singleton.mp h3]
              exact Or.inl (List.mem_append_right _ (List.mem_cons_self tid s.stk))
    · intro x hx
      show x ∉ (s2.res ++ [segL ++ [tid]]).flatten
      rw [hflat]
      intro hc
      rcases List.mem_append.mp hc with h2 | h2
      · exact hInv2.stkDisj x (hstkS2 x hx) h2
      · exact hCstk x h2 hx
    · show (s2.res ++ [segL ++ [tid]]).flatten.Nodup
      rw [hflat]
      rw [List.nodup_append]
      exact ⟨hInv2.emitNodup, hCnodup, fun a ha hb => hCemit a hb ha⟩
    · intro x
      show (setFlags s2.ist (segL ++ [tid])).lookup x = some true ↔ x ∈ s.stk
      rw [lookup_setFlags]
      by_cases h : x ∈ segL ++ [tid]
      · rw [if_pos h]
        constructor
        · intro hc
          exfalso
          cases hl : s2.ist.lookup x with
          | none => rw [hl] at hc; cases hc
          | some b => rw [hl] at hc; simp at hc
        · intro hc
          exact absurd hc (hCstk x h)
      · rw [if_neg h]
        rw [hInv2.istStack x, hstk2]
        constructor
        · intro hc
          rcases List.mem_append.mp hc with h2 | h2
          · exact absurd (List.mem_append_left _ h2) h
          · rcases List.mem_cons.mp h2 with rfl | h3
            · exact absurd (List.mem_append_right _ (List.mem_singleton.mpr rfl)) h
            · exact h3
        · intro hc
          exact List.mem_append_right _ (List.mem_cons_of_mem tid hc)
    · intro x t hx
      exact hInv2.timeBound x t hx
    · intro x hx
      exact hInv2.nodesIn x hx
    · intro C hC x hx y hy
      show Reaches g x y
      rcases List.mem_append.mp hC with h2 | h2
      · exact hInv2.emitMutual C h2 x hx y hy
      · rw [List.mem_singleton.mp h2] at hx hy
        exact hCreach x hx y hy
    · intro C hC x hx y hr1 hr2
      rcases List.mem_append.mp hC with h2 | h2
      · exact hInv2.emitMax C h2 x hx y hr1 hr2
      · have hCeq := List.mem_singleton.mp h2
        rw [hCeq] at hx ⊢
        have hclosed2 : EdgeClosed g ((s2.res ++ [segL ++ [tid]]).flatten) := by
          intro a ha b hb
          exact hclosed a ha b hb
        have hxflat : x ∈ (s2.res ++ [segL ++ [tid]]).flatten := by
          rw [hflat]
          exact List.mem_append_right _ hx
        have hyflat := reach_in_closed g _ hclosed2 hxflat hr1
        rw [hflat] at hyflat
        rcases List.mem_append.mp hyflat with h3 | h3
        · exfalso
          rw [List.mem_flatten] at h3
          obtain ⟨C2, hC2, hyC2⟩ := h3
          have := hInv2.emitMax C2 hC2 y hyC2 x hr2 hr1
          have hxflat2 : x ∈ s2.res.flatten := List.mem_flatten.mpr ⟨C2, hC2, this⟩
          exact hCemit x hx hxflat2
        · exact h3
  · refine ⟨?_, hE02.timeMono, ?_, ?_⟩
    · intro x t h
      exact hE02.vstMono x t h
    · intro C h
      exact List.mem_append_left _ (hE02.resMono C h)
    · intro x t h1 h2
      exact hE02.freshTime x t h1 h2
  · rw [hflat]
    exact List.mem_append_right _ (List.mem_append_right _ (List.mem_singleton.mpr rfl))
  · intro x h1 h2
    by_cases he : x = tid
    · rw [he]
      exact Reaches.refl tid
    · refine hreach x ?_ h2
      rw [pushState_lookup_ne s tid x he]
      exact h1

/-- What one call `f(t_id)` guarantees: the invariant and state extension,
`t_id` visited, a lowlink at most the entry clock, all new discoveries
reachable from `t_id`; and either an early return of the recorded time, or a
fresh visit that either popped its component (stack restored, `t_id`
emitted) or left a fresh pending segment carrying `t_id` with neighbor and
lowlink-witness accounting at the returned lowlink, which is the discovery
time of an on-stack node `t_id` reaches. -/
def VisitPost (g : List (Nat × List Nat)) (tid : Nat) (s : TarjanState)
    (mt : Nat) (s2 : TarjanState) : Prop :=
  TInv g s2 ∧ Ext s s2 ∧ (s2.vst.lookup tid).isSome = true ∧ mt ≤ s.time ∧
  (∀ x, s.vst.lookup x = none → (s2.vst.lookup x).isSome = true → Reaches g tid x) ∧
  ((s.vst.lookup tid = some mt ∧ s2 = s) ∨
   (s.vst.lookup tid = none ∧ s2.vst.lookup tid = some s.time ∧
    ((mt = s.time ∧ s2.stk = s.stk ∧ tid ∈ s2.res.flatten) ∨
     (mt < s.time ∧
      (∃ seg, s2.stk = seg ++ s.stk ∧ (∀ z ∈ seg, s.vst.lookup z = none) ∧
        tid ∈ seg ∧ SegNbrs g s2 seg mt ∧ SegWit g s2 seg mt) ∧
      (∃ w dw, w ∈ s.stk ∧ s2.vst.lookup w = some dw ∧ dw = mt ∧
        Reaches g tid w)))))

/-- What the neighbor loop guarantees, for a source whose neighbor list it
scans: invariant and extension, a non-increasing lowlink, new discoveries
reachable from the source, a fresh pending segment with neighbor and
lowlink-witness accounting, accounting for every scanned neighbor, and an
on-stack witness of the lowlink whenever the loop lowered it. -/
def LoopPost (g : List (Nat × List Nat)) (src : Nat) (ns : List Nat) (mtIn : Nat)
    (s : TarjanState) (mt : Nat) (s2 : TarjanState) : Prop :=
  TInv g s2 ∧ Ext s s2 ∧ mt ≤ mtIn ∧
  (∀ x, s.vst.lookup x = none → (s2.vst.lookup x).isSome = true → Reaches g src x) ∧
  ∃ seg, s2.stk = seg ++ s.stk ∧ (∀ z ∈ seg, s.vst.lookup z = none) ∧
    SegNbrs g s2 seg mt ∧ SegWit g s2 seg mt ∧
    (∀ y ∈ ns, (s2.vst.lookup y).isSome = true ∧
      (y ∈ s2.stk → y ∈ seg ∨ ∃ dy, s2.vst.lookup y = some dy ∧ mt ≤ dy)) ∧
    (mt < mtIn → ∃ w dw, w ∈ s2.stk ∧ s2.vst.lookup w = some dw ∧ dw = mt ∧
      Reaches g src w)

/-- The combined fuel induction: every completed `tarjanVisit` satisfies its
contract, and every completed `tarjanLoop` whose entry lowlink predates the
clock satisfies its contract. -/
theorem tarjan_fuel_spec (g : List (Nat × List Nat)) : ∀ fuel : Nat,
    (∀ tid s mt s2, TInv g s → tid ∈ nodesOf g →
      tarjanVisit g fuel tid s = some (mt, s2) → VisitPost g tid s mt s2) ∧
    (∀ ns src mtIn s mt s2, TInv g s → (∀ n ∈ ns, n ∈ nbrsOf g src) →
      mtIn < s.time → tarjanLoop g fuel ns mtIn s = some (mt, s2) →
      LoopPost g src ns mtIn s mt s2) := by
  intro fuel
  induction fuel with
  | zero =>
      constructor
      · intro tid s mt s2 _ _ heval
        cases heval
      · intro ns src mtIn s mt s2 _ _ _ heval
        cases heval
  | succ fuel ih =>
      constructor
      · -- the visit case
        intro tid s mt s2 hInv hnode heval
        simp only [tarjanVisit] at heval
        cases hl : s.vst.lookup tid with
        | some t =>
            rw [hl] at heval
            simp only [Option.some.injEq, Prod.mk.injEq] at heval
            obtain ⟨hmt, hs2⟩ := heval
            rw [← hmt, ← hs2]
            refine ⟨hInv, Ext.rfl s, ?_, ?_, ?_, Or.inl ⟨hl, rfl⟩⟩
            · rw [hl]; rfl
            · have := hInv.timeBound tid t hl
              omega
            · intro x h1 h2
              rw [h1] at h2
              cases h2
        | none =>
            rw [hl] at heval
            simp only [] at heval
            cases hloop : tarjanLoop g fuel (nbrsOf g tid) s.time (pushState s tid) with
            | none =>
                rw [hloop] at heval
                cases heval
            | some pr =>
                obtain ⟨mtL, sL⟩ := pr
                rw [hloop] at heval
                simp only [] at heval
                have hInv1 : TInv g (pushState s tid) := hInv.pushInv tid hl hnode
                have hLP := ih.2 (nbrsOf g tid) tid s.time (pushState s tid) mtL sL
                  hInv1 (fun n hn => hn)
                  (by show s.time < s.time + 1; omega) hloop
                obtain ⟨hInvL, hEL, hmtL, hreachL,
                  segL, hstkL, hfreshL, hSN, hSW, hnsL, hwitL⟩ := hLP
                have hstkL2 : sL.stk = segL ++ tid :: s.stk := hstkL
                have hfreshL2 : ∀ z ∈ segL, s.vst.lookup z = none := by
                  intro z hz
                  have h1 := hfreshL z hz
                  by_cases he : z = tid
                  · rw [he, pushState_lookup_self] at h1
                    cases h1
                  · rw [pushState_lookup_ne s tid z he] at h1
                    exact h1
                have htidL : tid ∉ segL := by
                  intro hc
                  have := hfreshL tid hc
                  rw [pushState_lookup_self] at this
                  cases this
                by_cases hpop : mtL = s.time
                · rw [if_pos hpop] at heval
                  rw [hstkL2, popUntil_spec tid s.stk segL htidL] at heval
                  simp only [Option.some.injEq, Prod.mk.injEq] at heval
                  obtain ⟨hmt, hs2⟩ := heval
                  rw [hpop] at hSN hSW hnsL
                  obtain ⟨hP1, hP2, hP3, hP4, hP5⟩ := visit_pop_step g tid s sL segL
                    hInv hl hInvL hEL hstkL2 hfreshL hSN hSW
                    (fun y hy => hnsL y hy) hreachL
                  rw [← hmt, ← hs2]
                  refine ⟨hP1, hP2, ?_, ?_, ?_,
                    Or.inr ⟨hl, hP3, Or.inl ⟨hpop, rfl, hP4⟩⟩⟩
                  · show (sL.vst.lookup tid).isSome = true
                    rw [hP3]
                    rfl
                  · omega
                  · intro x h1 h2
                    exact hP5 x h1 h2
                · rw [if_neg hpop] at heval
                  simp only [Option.some.injEq, Prod.mk.injEq] at heval
                  obtain ⟨hmt, hs2⟩ := heval
                  rw [← hmt, ← hs2]
                  have hE01 : Ext s (pushState s tid) := Ext.pushExt s tid hl
                  have hE02 : Ext s sL := hE01.comp hEL
                  have htid2 : sL.vst.lookup tid = some s.time :=
                    hEL.vstMono tid s.time (pushState_lookup_self s tid)
                  have hmtlt : mtL < s.time := by omega
                  refine ⟨hInvL, hE02, by rw [htid2]; rfl, by omega, ?_,
                    Or.inr ⟨hl, htid2, Or.inr ⟨hmtlt, ?_, ?_⟩⟩⟩
                  · intro x h1 h2
                    by_cases he : x = tid
                    · rw [he]
                      exact Reaches.refl tid
                    · refine hreachL x ?_ h2
                      rw [pushState_lookup_ne s tid x he]
                      exact h1
                  · refine ⟨segL ++ [tid], ?_, ?_, ?_, ?_, ?_⟩
                    · rw [hstkL2]
                      simp
                    · intro z hz
                      rcases List.mem_append.mp hz with hz2 | hz2
                      · exact hfreshL2 z hz2
                      · rw [List.mem_singleton.mp hz2]
                        exact hl
                    · exact List.mem_append_right _ (List.mem_singleton.mpr rfl)
                    · intro x hx y hy
                      rcases List.mem_append.mp hx with hx2 | hx2
                      · obtain ⟨h1, h2⟩ := hSN x hx2 y hy
                        refine ⟨h1, ?_⟩
                        intro hstk
                        rcases h2 hstk with h3 | h3
                        · exact Or.inl (List.mem_append_left _ h3)
                        · exact Or.inr h3
                      · rw [List.mem_singleton.mp hx2] at hy
                        obtain ⟨h1, h2⟩ := hnsL y hy
                        refine ⟨h1, ?_⟩
                        intro hstk
                        rcases h2 hstk with h3 | h3
                        · exact Or.inl (List.mem_append_left _ h3)
                        · exact Or.inr h3
                    · intro x hx
                      rcases List.mem_append.mp hx with hx2 | hx2
                      · exact hSW x hx2
                      · rw [List.mem_singleton.mp hx2]
                        obtain ⟨w, dw, hw1, hw2, hw3, hw4⟩ := hwitL hmtlt
                        exact ⟨w, dw, s.time, hw1, hw2, htid2, by omega, by omega, hw4⟩
                  · obtain ⟨w, dw, hw1, hw2, hw3, hw4⟩ := hwitL hmtlt
                    refine ⟨w, dw, ?_, hw2, hw3, hw4⟩
                    rw [hstkL2] at hw1
                    rcases List.mem_append.mp hw1 with hw5 | hw5
                    · exfalso
                      have hfr := hfreshL w hw5
                      have := hEL.freshTime w dw hfr hw2
                      have hpt : (pushState s tid).time = s.time + 1 := rfl
                      rw [hpt] at this
                      omega
                    · rcases List.mem_cons.mp hw5 with rfl | hw6
                      · rw [htid2] at hw2
                        injection hw2 with hde
                        omega
                      · exact hw6
      · -- the loop case
        intro ns src mtIn s mt s2 hInv hns hmtIn heval
        cases ns with
        | nil =>
            simp only [tarjanLoop] at heval
            simp only [Option.some.injEq, Prod.mk.injEq] at heval
            obtain ⟨hmt, hs2⟩ := heval
            subst hmt
            subst hs2
            refine ⟨hInv, Ext.rfl s, le_refl _, ?_, [], by simp, ?_, ?_, ?_, ?_, ?_⟩
            · intro x h1 h2
              rw [h1] at h2
              cases h2
            · intro z hz
              exact absurd hz (List.not_mem_nil z)
            · intro x hx
              exact absurd hx (List.not_mem_nil x)
            · intro x hx
              exact absurd hx (List.not_mem_nil x)
            · intro y hy
              exact absurd hy (List.not_mem_nil y)
            · intro hc
              omega
        | cons n rest =>
            simp only [tarjanLoop] at heval
            have hnedge : n ∈ nbrsOf g src := hns n (List.mem_cons_self n rest)
            cases hl : s.vst.lookup n with
            | none =>
                rw [hl] at heval
                simp only [] at heval
                cases hv : tarjanVisit g fuel n s with
                | none =>
                    rw [hv] at heval
                    simp at heval
                | some pr =>
                    obtain ⟨r, sV⟩ := pr
                    rw [hv] at heval
                    simp only [] at heval
                    have hVP := ih.1 n s r sV hInv (nbrs_sub_nodes g src n hnedge) hv
                    obtain ⟨hInvV, hEV, hnV, hrV, hreachV, hcaseV⟩ := hVP
                    rcases hcaseV with ⟨hvis, _⟩ | ⟨_, hdiscn, hsub⟩
                    · rw [hl] at hvis
                      cases hvis
                    · have hmt1le : (if r < mtIn then r else mtIn) ≤ mtIn := by
                        by_cases hc : r < mtIn
                        · rw [if_pos hc]; omega
                        · rw [if_neg hc]
                      have hmtIn2 : (if r < mtIn then r else mtIn) < sV.time := by
                        have h1 := hEV.timeMono
                        by_cases hc : r < mtIn
                        · rw [if_pos hc]; omega
                        · rw [if_neg hc]; omega
                      have hRP := ih.2 rest src (if r < mtIn then r else mtIn) sV mt s2
                        hInvV (fun x hx => hns x (List.mem_cons_of_mem n hx))
                        hmtIn2 heval
                      obtain ⟨hInvF, hEF, hmtF, hreachF,
                        segR, hstkR, hfreshR, hSNR, hSWR, hnsR, hwitR⟩ := hRP
                      have hE0F : Ext s s2 := hEV.comp hEF
                      have hreachC : ∀ x, s.vst.lookup x = none →
                          (s2.vst.lookup x).isSome = true → Reaches g src x := by
                        intro x h1 h2
                        cases hc : sV.vst.lookup x with
                        | some tx =>
                            have := hreachV x h1 (by rw [hc]; rfl)
                            exact (Reaches.single hnedge).trans this
                        | none => exact hreachF x hc h2
                      have hfreshRS : ∀ z ∈ segR, s.vst.lookup z = none := by
                        intro z hz
                        cases hc : s.vst.lookup z with
                        | none => rfl
                        | some tz =>
                            have := hEV.vstMono z tz hc
                            rw [hfreshR z hz] at this
                            cases this
                      rcases hsub with ⟨hpopped, hstkV, hemitV⟩ | ⟨hrlt, hsegV, hwV⟩
                      · -- the child popped its own component
                        have hrge : ¬ r < mtIn := by
                          intro hc
                          rw [hpopped] at hc
                          omega
                        rw [if_neg hrge] at hmtF hwitR
                        refine ⟨hInvF, hE0F, hmtF, hreachC,
                          segR, by rw [hstkR, hstkV], hfreshRS, hSNR, hSWR, ?_, hwitR⟩
                        intro y hy
                        rcases List.mem_cons.mp hy with rfl | hy2
                        · constructor
                          · exact hEF.vstSome y hnV
                          · intro hstk
                            exfalso
                            have hemitF : y ∈ s2.res.flatten := hEF.emitMono y hemitV
                            exact hInvF.stkDisj y hstk hemitF
                        · exact hnsR y hy2
                      · -- the child left a pending segment
                        obtain ⟨segV, hstkV, hfreshV, hnseg, hSNV, hSWV⟩ := hsegV
                        have hmt1r : (if r < mtIn then r else mtIn) ≤ r := by
                          by_cases hc : r < mtIn
                          · rw [if_pos hc]
                          · rw [if_neg hc]; omega
                        have hmtr : mt ≤ r := le_trans hmtF hmt1r
                        have hSNVF : SegNbrs g s2 segV mt :=
                          segNbrs_mono hmtr (segNbrs_ext hEF hstkR hfreshR hSNV)
                        have hSWVF : SegWit g s2 segV mt :=
                          segWit_mono hmtr (segWit_ext hEF hstkR hSWV)
                        refine ⟨hInvF, hE0F, le_trans hmtF hmt1le, hreachC,
                          segR ++ segV, ?_, ?_, ?_, ?_, ?_, ?_⟩
                        · rw [hstkR, hstkV, List.append_assoc]
                        · intro z hz
                          rcases List.mem_append.mp hz with hz2 | hz2
                          · exact hfreshRS z hz2
                          · exact hfreshV z hz2
                        · intro x hx y hy
                          rcases List.mem_append.mp hx with hx2 | hx2
                          · obtain ⟨h1, h2⟩ := hSNR x hx2 y hy
                            refine ⟨h1, ?_⟩
                            intro hstk
                            rcases h2 hstk with h3 | h3
                            · exact Or.inl (List.mem_append_left _ h3)
                            · exact Or.inr h3
                          · obtain ⟨h1, h2⟩ := hSNVF x hx2 y hy
                            refine ⟨h1, ?_⟩
                            intro hstk
                            rcases h2 hstk with h3 | h3
                            · exact Or.inl (List.mem_append_right _ h3)
                            · exact Or.inr h3
                        · intro x hx
                          rcases List.mem_append.mp hx with hx2 | hx2
                          · exact hSWR x hx2
                          · exact hSWVF x hx2
                        · intro y hy
                          rcases List.mem_cons.mp hy with rfl | hy2
                          · refine ⟨hEF.vstSome y hnV, ?_⟩
                            intro _
                            exact Or.inl (List.mem_append_right _ hnseg)
                          · obtain ⟨h1, h2⟩ := hnsR y hy2
                            refine ⟨h1, ?_⟩
                            intro hstk
                            rcases h2 hstk with h3 | h3
                            · exact Or.inl (List.mem_append_left _ h3)
                            · exact Or.inr h3
                        · intro hlow
                          by_cases hc : mt < (if r < mtIn then r else mtIn)
                          · obtain ⟨w, dw, hw1, hw2, hw3, hw4⟩ := hwitR hc
                            exact ⟨w, dw, hw1, hw2, hw3, hw4⟩
                          · have hmteq : mt = (if r < mtIn then r else mtIn) := by omega
                            have hrlt2 : r < mtIn := by
                              by_cases hc2 : r < mtIn
                              · exact hc2
                              · exfalso
                                rw [if_neg hc2] at hmteq
                                omega
                            rw [if_pos hrlt2] at hmteq
                            obtain ⟨w, dw, hw1, hw2, hw3, hw4⟩ := hwV
                            refine ⟨w, dw, ?_, hEF.vstMono w dw hw2, by omega,
                              (Reaches.single hnedge).trans hw4⟩
                            rw [hstkR, hstkV]
                            exact List.mem_append_right _ (List.mem_append_right _ hw1)
            | some tn =>
                rw [hl] at heval
                simp only [] at heval
                cases hb : s.ist.lookup n with
                | some b =>
                    cases b with
                    | true =>
                        rw [hb] at heval
                        simp only [] at heval
                        have hnstk : n ∈ s.stk := (hInv.istStack n).mp hb
                        have htn : tn < s.time := hInv.timeBound n tn hl
                        have hmt2 : (if tn < mtIn then tn else mtIn) < s.time := by
                          by_cases hc : tn < mtIn
                          · rw [if_pos hc]; omega
                          · rw [if_neg hc]; omega
                        have hRP := ih.2 rest src (if tn < mtIn then tn else mtIn) s mt s2
                          hInv (fun x hx => hns x (List.mem_cons_of_mem n hx)) hmt2 heval
                        obtain ⟨hInvF, hEF, hmtF, hreachF,
                          segR, hstkR, hfreshR, hSNR, hSWR, hnsR, hwitR⟩ := hRP
                        have hmt1le : (if tn < mtIn then tn else mtIn) ≤ mtIn := by
                          by_cases hc : tn < mtIn
                          · rw [if_pos hc]; omega
                          · rw [if_neg hc]
                        have hmt1tn : (if tn < mtIn then tn else mtIn) ≤ tn := by
                          by_cases hc : tn < mtIn
                          · rw [if_pos hc]
                          · rw [if_neg hc]; omega
                        refine ⟨hInvF, hEF, by omega, hreachF,
                          segR, hstkR, hfreshR, hSNR, hSWR, ?_, ?_⟩
                        · intro y hy
                          rcases List.mem_cons.mp hy with rfl | hy2
                          · refine ⟨hEF.vstSome y (by rw [hl]; rfl), ?_⟩
                            intro _
                            exact Or.inr ⟨tn, hEF.vstMono y tn hl, by omega⟩
                          · obtain ⟨h1, h2⟩ := hnsR y hy2
                            refine ⟨h1, ?_⟩
                            intro hstk
                            rcases h2 hstk with h3 | h3
                            · exact Or.inl h3
                            · exact Or.inr h3
                        · intro hlow
                          by_cases hc : mt < (if tn < mtIn then tn else mtIn)
                          · exact hwitR hc
                          · have hmteq : mt = (if tn < mtIn then tn else mtIn) := by
                              omega
                            have htnlt : tn < mtIn := by
                              by_cases hc2 : tn < mtIn
                              · exact hc2
                              · exfalso
                                rw [if_neg hc2] at hmteq
                                omega
                            rw [if_pos htnlt] at hmteq
                            refine ⟨n, tn, ?_, hEF.vstMono n tn hl, by omega,
                              Reaches.single hnedge⟩
                            rw [hstkR]
                            exact List.mem_append_right _ hnstk
                    | false =>
                        rw [hb] at heval
                        simp only [] at heval
                        have hRP := ih.2 rest src mtIn s mt s2
                          hInv (fun x hx => hns x (List.mem_cons_of_mem n hx)) hmtIn heval
                        obtain ⟨hInvF, hEF, hmtF, hreachF,
                          segR, hstkR, hfreshR, hSNR, hSWR, hnsR, hwitR⟩ := hRP
                        have hnstk : n ∉ s.stk := by
                          intro hc
                          have := (hInv.istStack n).mpr hc
                          rw [hb] at this
                          cases this
                        refine ⟨hInvF, hEF, hmtF, hreachF,
                          segR, hstkR, hfreshR, hSNR, hSWR, ?_, hwitR⟩
                        intro y hy
                        rcases List.mem_cons.mp hy with rfl | hy2
                        · refine ⟨hEF.vstSome y (by rw [hl]; rfl), ?_⟩
                          intro hstk
                          exfalso
                          rw [hstkR] at hstk
                          rcases List.mem_append.mp hstk with h3 | h3
                          · have := hfreshR y h3
                            rw [hl] at this
                            cases this
                          · exact hnstk h3
                        · exact hnsR y hy2
                | none =>
                    exfalso
                    have h1 := hInv.istKeys n
                    rw [hb, hl] at h1
                    cases h1
/-- Counting a stronger predicate never counts more. -/
theorem countP_le_of_imp (p q : Nat → Bool) :
    ∀ l : List Nat, (∀ x ∈ l, q x = true → p x = true) →
      l.countP q ≤ l.countP p := by
  intro l
  induction l with
  | nil => intro _; exact Nat.le_refl _
  | cons a rest ih =>
      intro h
      rw [List.countP_cons, List.countP_cons]
      have hr := ih (fun x hx => h x (List.mem_cons_of_mem a hx))
      cases hqa : q a with
      | false =>
          rw [if_neg (by simp)]
          cases hpa : p a with
          | false => rw [if_neg (by simp [hpa])]; omega
          | true => rw [if_pos (by simp [hpa])]; omega
      | true =>
          rw [if_pos (by simp [hqa]), if_pos (by simp [h a (List.mem_cons_self a rest) hqa])]
          omega

/-- A member that loses the predicate makes the count strictly drop. -/
theorem countP_lt_of_strict (p q : Nat → Bool) :
    ∀ l : List Nat, (∀ x ∈ l, q x = true → p x = true) →
      ∀ n, n ∈ l → p n = true → q n = false →
      l.countP q < l.countP p := by
  intro l
  induction l with
  | nil => intro _ n hn; exact absurd hn (List.not_mem_nil n)
  | cons a rest ih =>
      intro h n hn hp hq
      rw [List.countP_cons, List.countP_cons]
      rcases List.mem_cons.mp hn with rfl | hn2
      · rw [if_neg (by simp [hq]), if_pos (by simp [hp])]
        have := countP_le_of_imp p q rest (fun x hx => h x (List.mem_cons_of_mem n hx))
        omega
      · have hlt := ih (fun x hx => h x (List.mem_cons_of_mem a hx)) n hn2 hp hq
        cases hqa : q a with
        | false =>
            rw [if_neg (by simp)]
            cases hpa : p a with
            | false => rw [if_neg (by simp [hpa])]; omega
            | true => rw [if_pos (by simp [hpa])]; omega
        | true =>
            rw [if_pos (by simp [hqa]),
              if_pos (by simp [h a (List.mem_cons_self a rest) hqa])]
            omega

/-- Number of distinct graph nodes not yet discovered. -/
def unvisitedCount (g : List (Nat × List Nat)) (s : TarjanState) : Nat :=
  (nodesOf g).dedup.countP (fun x => (s.vst.lookup x).isNone)

/-- `Tarjan`'s recursion only adds discovery records, and a completed visit
has discovered its argument. -/
theorem tarjan_vst (g : List (Nat × List Nat)) :
    ∀ fuel : Nat,
      (∀ tid s mt s2, tarjanVisit g fuel tid s = some (mt, s2) →
        (∀ x v, s.vst.lookup x = some v → s2.vst.lookup x = some v) ∧
        (s2.vst.lookup tid).isSome = true) ∧
      (∀ ns mt0 s mt s2, tarjanLoop g fuel ns mt0 s = some (mt, s2) →
        ∀ x v, s.vst.lookup x = some v → s2.vst.lookup x = some v) := by
  intro fuel
  induction fuel with
  | zero =>
      constructor
      · intro tid s mt s2 heval
        cases heval
      · intro ns mt0 s mt s2 heval
        cases heval
  | succ fuel ih =>
      constructor
      · intro tid s mt s2 heval
        simp only [tarjanVisit] at heval
        cases hl : s.vst.lookup tid with
        | some t =>
            rw [hl] at heval
            simp only [Option.some.injEq, Prod.mk.injEq] at heval
            obtain ⟨_, hs2⟩ := heval
            rw [← hs2]
            exact ⟨fun x v hx => hx, by rw [hl]; rfl⟩
        | none =>
            rw [hl] at heval
            simp only [] at heval
            cases hloop : tarjanLoop g fuel (nbrsOf g tid) s.time (pushState s tid) with
            | none =>
                rw [hloop] at heval
                cases heval
            | some pr =>
                obtain ⟨mtL, sL⟩ := pr
                rw [hloop] at heval
                simp only [] at heval
                have hpres1 : ∀ x v, s.vst.lookup x = some v →
                    (pushState s tid).vst.lookup x = some v := by
                  intro x v hx
                  by_cases he : x = tid
                  · rw [he] at hx
                    rw [hx] at hl
                    cases hl
                  · rw [pushState_lookup_ne s tid x he]
                    exact hx
                have hpres2 := ih.2 (nbrsOf g tid) s.time (pushState s tid) mtL sL hloop
                have htidL : sL.vst.lookup tid = some s.time :=
                  hpres2 tid s.time (pushState_lookup_self s tid)
                by_cases hpop : mtL = s.time
                · rw [if_pos hpop] at heval
                  simp only [Option.some.injEq, Prod.mk.injEq] at heval
                  obtain ⟨_, hs2⟩ := heval
                  rw [← hs2]
                  exact ⟨fun x v hx => hpres2 x v (hpres1 x v hx), by rw [htidL]; rfl⟩
                · rw [if_neg hpop] at heval
                  simp only [Option.some.injEq, Prod.mk.injEq] at heval
                  obtain ⟨_, hs2⟩ := heval
                  rw [← hs2]
                  exact ⟨fun x v hx => hpres2 x v (hpres1 x v hx), by rw [htidL]; rfl⟩
      · intro ns mt0 s mt s2 heval
        cases ns with
        | nil =>
            simp only [tarjanLoop, Option.some.injEq, Prod.mk.injEq] at heval
            obtain ⟨_, hs2⟩ := heval
            rw [← hs2]
            exact fun x v hx => hx
        | cons n rest =>
            simp only [tarjanLoop] at heval
            cases hln : s.vst.lookup n with
            | none =>
                rw [hln] at heval
                simp only [] at heval
                cases hv : tarjanVisit g fuel n s with
                | none =>
                    rw [hv] at heval
                    cases heval
                | some pr =>
                    obtain ⟨r, sV⟩ := pr
                    rw [hv] at heval
                    simp only [] at heval
                    have h1 := (ih.1 n s r sV hv).1
                    have h2 := ih.2 rest (if r < mt0 then r else mt0) sV mt s2 heval
                    exact fun x v hx => h2 x v (h1 x v hx)
            | some tn =>
                rw [hln] at heval
                simp only [] at heval
                cases hb : s.ist.lookup n with
                | none =>
                    rw [hb] at heval
                    simp only [] at heval
                    exact ih.2 rest mt0 s mt s2 heval
                | some b =>
                    rw [hb] at heval
                    cases b
                    · simp only [] at heval
                      exact ih.2 rest mt0 s mt s2 heval
                    · simp only [] at heval
                      exact ih.2 rest (if tn < mt0 then tn else mt0) s mt s2 heval

/-- Discovering and pushing a fresh node shrinks the undiscovered count. -/
theorem unvisited_push_lt (g : List (Nat × List Nat)) (s : TarjanState) (tid : Nat)
    (htid : tid ∈ nodesOf g) (hfresh : s.vst.lookup tid = none) :
    unvisitedCount g (pushState s tid) < unvisitedCount g s := by
  unfold unvisitedCount
  refine countP_lt_of_strict _ _ (nodesOf g).dedup ?_ tid (List.mem_dedup.mpr htid) ?_ ?_
  · intro x _ hq
    simp only [] at hq ⊢
    by_cases he : x = tid
    · rw [he, hfresh]
      rfl
    · rw [pushState_lookup_ne s tid x he] at hq
      exact hq
  · rw [hfresh]
    rfl
  · rw [pushState_lookup_self s tid]
    rfl

/-- A completed visit of a fresh node shrinks the undiscovered count. -/
theorem unvisited_visit_lt (g : List (Nat × List Nat)) (fuel tid : Nat)
    (s : TarjanState) (mt : Nat) (s2 : TarjanState)
    (hv : tarjanVisit g fuel tid s = some (mt, s2))
    (htid : tid ∈ nodesOf g) (hfresh : s.vst.lookup tid = none) :
    unvisitedCount g s2 < unvisitedCount g s := by
  have hpres := (tarjan_vst g fuel).1 tid s mt s2 hv
  unfold unvisitedCount
  refine countP_lt_of_strict _ _ (nodesOf g).dedup ?_ tid (List.mem_dedup.mpr htid) ?_ ?_
  · intro x _ hq
    simp only [] at hq ⊢
    cases hx : s.vst.lookup x with
    | none => rfl
    | some v =>
        rw [hpres.1 x v hx] at hq
        cases hq
  · rw [hfresh]
    rfl
  · have h2 := hpres.2
    cases hs2 : s2.vst.lookup tid with
    | none =>
        rw [hs2] at h2
        cases h2
    | some v => rfl

/-- More fuel never changes a completed `Tarjan` recursion. -/
theorem tarjan_mono (g : List (Nat × List Nat)) :
    ∀ fuel : Nat,
      (∀ tid s r, tarjanVisit g fuel tid s = some r →
        ∀ fuel2, fuel ≤ fuel2 → tarjanVisit g fuel2 tid s = some r) ∧
      (∀ ns mt0 s r, tarjanLoop g fuel ns mt0 s = some r →
        ∀ fuel2, fuel ≤ fuel2 → tarjanLoop g fuel2 ns mt0 s = some r) := by
  intro fuel
  induction fuel with
  | zero =>
      constructor
      · intro tid s r heval
        cases heval
      · intro ns mt0 s r heval
        cases heval
  | succ fuel ih =>
      constructor
      · intro tid s r heval fuel2 hle
        cases fuel2 with
        | zero => omega
        | succ f2 =>
            have hle2 : fuel ≤ f2 := by omega
            simp only [tarjanVisit] at heval ⊢
            cases hl : s.vst.lookup tid with
            | some t =>
                rw [hl] at heval
                simp only [] at heval ⊢
                exact heval
            | none =>
                rw [hl] at heval
                simp only [] at heval ⊢
                cases hloop : tarjanLoop g fuel (nbrsOf g tid) s.time (pushState s tid) with
                | none =>
                    rw [hloop] at heval
                    cases heval
                | some prL =>
                    obtain ⟨mtL, sL⟩ := prL
                    rw [hloop] at heval
                    simp only [] at heval
                    rw [ih.2 _ _ _ (mtL, sL) hloop f2 hle2]
                    simp only []
                    exact heval
      · intro ns mt0 s r heval fuel2 hle
        cases fuel2 with
        | zero => omega
        | succ f2 =>
            have hle2 : fuel ≤ f2 := by omega
            cases ns with
            | nil =>
                simp only [tarjanLoop] at heval ⊢
                exact heval
            | cons n rest =>
                simp only [tarjanLoop] at heval ⊢
                cases hln : s.vst.lookup n with
                | none =>
                    rw [hln] at heval
                    simp only [] at heval ⊢
                    cases hv : tarjanVisit g fuel n s with
                    | none =>
                        rw [hv] at heval
                        cases heval
                    | some prV =>
                        obtain ⟨rV, sV⟩ := prV
                        rw [hv] at heval
                        simp only [] at heval
                        rw [ih.1 n s (rV, sV) hv f2 hle2]
                        simp only []
                        exact ih.2 rest (if rV < mt0 then rV else mt0) sV r heval f2 hle2
                | some tn =>
                    rw [hln] at heval
                    simp only [] at heval ⊢
                    cases hb : s.ist.lookup n with
                    | none =>
                        rw [hb] at heval
                        simp only [] at heval ⊢
                        exact ih.2 rest mt0 s r heval f2 hle2
                    | some b =>
                        rw [hb] at heval
                        cases b
                        · simp only [] at heval ⊢
                          exact ih.2 rest mt0 s r heval f2 hle2
                        · simp only [] at heval ⊢
                          exact ih.2 rest (if tn < mt0 then tn else mt0) s r heval f2 hle2

/-- More fuel never changes a completed driver loop. -/
theorem tarjanRun_mono (g : List (Nat × List Nat)) :
    ∀ ids s sF fuel, tarjanRun g fuel ids s = some sF →
      ∀ fuel2, fuel ≤ fuel2 → tarjanRun g fuel2 ids s = some sF := by
  intro ids
  induction ids with
  | nil =>
      intro s sF fuel heval fuel2 _
      simp only [tarjanRun] at heval ⊢
      exact heval
  | cons id rest ih =>
      intro s sF fuel heval fuel2 hle
      simp only [tarjanRun] at heval ⊢
      cases hv : tarjanVisit g fuel id s with
      | none =>
          rw [hv] at heval
          cases heval
      | some pr =>
          obtain ⟨mt, s2⟩ := pr
          rw [hv] at heval
          simp only [] at heval
          rw [(tarjan_mono g fuel).1 id s (mt, s2) hv fuel2 hle]
          simp only []
          exact ih s2 sF fuel heval fuel2 hle

/-- Enough fuel exists for every visit and every neighbor loop: the
recursion of `Tarjan` terminates. -/
theorem tarjan_ex (g : List (Nat × List Nat)) :
    ∀ U : Nat,
      (∀ s tid, unvisitedCount g s ≤ U → tid ∈ nodesOf g →
        ∃ fuel r, tarjanVisit g fuel tid s = some r) ∧
      (∀ ns s mt0, unvisitedCount g s ≤ U → (∀ x ∈ ns, x ∈ nodesOf g) →
        ∃ fuel r, tarjanLoop g fuel ns mt0 s = some r) := by
  intro U
  induction U using Nat.strong_induction_on with
  | _ U ih =>
      have hVisit : ∀ s tid, unvisitedCount g s ≤ U → tid ∈ nodesOf g →
          ∃ fuel r, tarjanVisit g fuel tid s = some r := by
        intro s tid hU htid
        cases hl : s.vst.lookup tid with
        | some t =>
            refine ⟨0 + 1, (t, s), ?_⟩
            simp only [tarjanVisit]
            rw [hl]
        | none =>
            have hpushlt := unvisited_push_lt g s tid htid hl
            obtain ⟨fuelL, ⟨mtL, sL⟩, hloop⟩ :=
              (ih (U - 1) (by omega)).2 (nbrsOf g tid) (pushState s tid) s.time
                (by omega) (fun x hx => nbrs_sub_nodes g tid x hx)
            by_cases hpop : mtL = s.time
            · exact ⟨fuelL + 1, _, by
                simp only [tarjanVisit]
                rw [hl]
                simp only []
                rw [hloop]
                simp only []
                rw [if_pos hpop]⟩
            · exact ⟨fuelL + 1, _, by
                simp only [tarjanVisit]
                rw [hl]
                simp only []
                rw [hloop]
                simp only []
                rw [if_neg hpop]⟩
      refine ⟨hVisit, ?_⟩
      intro ns
      induction ns with
      | nil =>
          intro s mt0 _ _
          exact ⟨0 + 1, (mt0, s), by simp only [tarjanLoop]⟩
      | cons n rest ihns =>
          intro s mt0 hU hsub
          cases hln : s.vst.lookup n with
          | some tn =>
              cases hb : s.ist.lookup n with
              | none =>
                  obtain ⟨fuelR, r, hR⟩ := ihns s mt0 hU
                    (fun x hx => hsub x (List.mem_cons_of_mem n hx))
                  exact ⟨fuelR + 1, r, by
                    simp only [tarjanLoop]
                    rw [hln]
                    simp only []
                    rw [hb]
                    simp only []
                    exact hR⟩
              | some b =>
                  cases b
                  · obtain ⟨fuelR, r, hR⟩ := ihns s mt0 hU
                      (fun x hx => hsub x (List.mem_cons_of_mem n hx))
                    exact ⟨fuelR + 1, r, by
                      simp only [tarjanLoop]
                      rw [hln]
                      simp only []
                      rw [hb]
                      simp only []
                      exact hR⟩
                  · obtain ⟨fuelR, r, hR⟩ := ihns s (if tn < mt0 then tn else mt0) hU
                      (fun x hx => hsub x (List.mem_cons_of_mem n hx))
                    exact ⟨fuelR + 1, r, by
                      simp only [tarjanLoop]
                      rw [hln]
                      simp only []
                      rw [hb]
                      simp only []
                      exact hR⟩
          | none =>
              have hnode : n ∈ nodesOf g := hsub n (List.mem_cons_self n rest)
              obtain ⟨fuelV, ⟨rV, sV⟩, hV⟩ := hVisit s n hU hnode
              have hlt := unvisited_visit_lt g fuelV n s rV sV hV hnode hln
              obtain ⟨fuelR, rR, hR⟩ := (ih (U - 1) (by omega)).2 rest sV
                (if rV < mt0 then rV else mt0) (by omega)
                (fun x hx => hsub x (List.mem_cons_of_mem n hx))
              have hV2 := (tarjan_mono g fuelV).1 n s (rV, sV) hV (max fuelV fuelR)
                (le_max_left _ _)
              have hR2 := (tarjan_mono g fuelR).2 rest (if rV < mt0 then rV else mt0)
                sV rR hR (max fuelV fuelR) (le_max_right _ _)
              exact ⟨max fuelV fuelR + 1, rR, by
                simp only [tarjanLoop]
                rw [hln]
                simp only []
                rw [hV2]
                simp only []
                exact hR2⟩

/-- Enough fuel exists for the whole driver loop. -/
theorem tarjanRun_ex (g : List (Nat × List Nat)) :
    ∀ ids s, (∀ id ∈ ids, id ∈ nodesOf g) →
      ∃ fuel sF, tarjanRun g fuel ids s = some sF := by
  intro ids
  induction ids with
  | nil =>
      intro s _
      exact ⟨1, s, rfl⟩
  | cons id rest ih =>
      intro s hsub
      obtain ⟨fuelV, ⟨rV, sV⟩, hV⟩ := (tarjan_ex g (unvisitedCount g s)).1 s id
        (Nat.le_refl _) (hsub id (List.mem_cons_self id rest))
      obtain ⟨fuelR, sF, hR⟩ := ih sV (fun x hx => hsub x (List.mem_cons_of_mem id hx))
      have hV2 := (tarjan_mono g fuelV).1 id s (rV, sV) hV (max fuelV fuelR)
        (le_max_left _ _)
      have hR2 := tarjanRun_mono g rest sV sF fuelR hR (max fuelV fuelR)
        (le_max_right _ _)
      refine ⟨max fuelV fuelR, sF, ?_⟩
      simp only [tarjanRun]
      rw [hV2]
      simp only []
      exact hR2

/-- With duplicate-free keys, a stored pair is what lookup returns. -/
theorem mem_lookup_of_nodup (g : List (Nat × List Nat)) (k : Nat) (l : List Nat)
    (hmem : (k, l) ∈ g) (hnd : (g.map Prod.fst).Nodup) : g.lookup k = some l := by
  induction g with
  | nil => exact absurd hmem (List.not_mem_nil _)
  | cons p rest ih =>
      simp only [List.map_cons, List.nodup_cons] at hnd
      rcases List.mem_cons.mp hmem with he | hm
      · rw [← he]
        exact lookup_cons_eq k l rest
      · have hne : k ≠ p.1 := by
          intro hc
          exact hnd.1 (List.mem_map.mpr ⟨(k, l), hm, hc⟩)

        rw [show p = (p.1, p.2) from rfl, lookup_cons_ne k p.1 p.2 rest hne]
        exact ih hm hnd.2

/-- A duplicate-free list of size at least two has a second member. -/
theorem nodup_two_distinct (C : List Nat) (hlen : 1 < C.length) (hnd : C.Nodup)
    (x : Nat) (hx : x ∈ C) : ∃ y ∈ C, y ≠ x := by
  cases C with
  | nil => simp at hlen
  | cons a rest =>
      cases rest with
      | nil => simp at hlen
      | cons b rest2 =>
          by_cases he : x = a
          · refine ⟨b, List.mem_cons_of_mem a (List.mem_cons_self b rest2), ?_⟩
            intro hc
            rw [List.nodup_cons] at hnd
            exact hnd.1 (by rw [hc, he]; exact List.mem_cons_self a rest2)
          · exact ⟨a, List.mem_cons_self a _, fun hc => he hc.symm⟩

/-- Two distinct members force size at least two. -/
theorem two_mem_length (l : List Nat) (a b : Nat) (ha : a ∈ l) (hb : b ∈ l)
    (hne : a ≠ b) : 1 < l.length := by
  cases l with
  | nil => exact absurd ha (List.not_mem_nil a)
  | cons z rest =>
      cases rest with
      | nil =>
          rw [List.mem_singleton] at ha hb
          rw [ha, hb] at hne
          exact absurd rfl hne
      | cons z2 rest2 => simp

/-- The Tarjan driver loop: from an empty stack it keeps the invariant, the
empty stack, and visits every processed id. -/
theorem tarjanRun_spec (g : List (Nat × List Nat)) (fuel : Nat) :
    ∀ (ids : List Nat) (s sF : TarjanState), TInv g s → s.stk = [] →
      (∀ id ∈ ids, id ∈ nodesOf g) →
      tarjanRun g fuel ids s = some sF →
      TInv g sF ∧ sF.stk = [] ∧ Ext s sF ∧
        (∀ id ∈ ids, (sF.vst.lookup id).isSome = true) := by
  intro ids
  induction ids with
  | nil =>
      intro s sF hInv hstk _ heval
      simp only [tarjanRun, Option.some.injEq] at heval
      rw [← heval]
      exact ⟨hInv, hstk, Ext.rfl s, fun id hid => absurd hid (List.not_mem_nil id)⟩
  | cons id ids ih =>
      intro s sF hInv hstk hids heval
      simp only [tarjanRun] at heval
      cases hv : tarjanVisit g fuel id s with
      | none =>
          rw [hv] at heval
          simp at heval
      | some pr =>
          obtain ⟨mt, s1⟩ := pr
          rw [hv] at heval
          simp only [] at heval
          have hVP := (tarjan_fuel_spec g fuel).1 id s mt s1 hInv
            (hids id (List.mem_cons_self id ids)) hv
          obtain ⟨hInv1, hE1, hvis1, _, _, hcase⟩ := hVP
          have hstk1 : s1.stk = [] := by
            rcases hcase with ⟨_, hs1⟩ | ⟨_, _, hsub⟩
            · rw [hs1, hstk]
            · rcases hsub with ⟨_, hstk1, _⟩ | ⟨_, _, ⟨w, dw, hw1, _⟩⟩
              · rw [hstk1, hstk]
              · exfalso
                rw [hstk] at hw1
                exact absurd hw1 (List.not_mem_nil w)
          obtain ⟨hP1, hP2, hP3, hP4⟩ := ih s1 sF hInv1 hstk1
            (fun x hx => hids x (List.mem_cons_of_mem id hx)) heval
          refine ⟨hP1, hP2, hE1.comp hP3, ?_⟩
          intro id2 hid2
          rcases List.mem_cons.mp hid2 with rfl | hid3
          · exact hP3.vstSome id2 hvis1
          · exact hP4 id2 hid3

/-- The invariant holds in `Tarjan`'s start state. -/
theorem TInv_empty (g : List (Nat × List Nat)) :
    TInv g ⟨[], [], [], 0, []⟩ := by
  refine ⟨?_, ?_, List.nodup_nil, ?_, List.nodup_nil, ?_, ?_, ?_, ?_, ?_, ?_⟩
  · intro x
    rfl
  · intro x
    constructor
    · intro hc
      cases hc
    · intro hc
      rcases hc with hc | hc
      · exact absurd hc (List.not_mem_nil x)
      · exact absurd hc (List.not_mem_nil x)
  · intro x hx
    exact absurd hx (List.not_mem_nil x)
  · intro x
    constructor
    · intro hc
      cases hc
    · intro hc
      exact absurd hc (List.not_mem_nil x)
  · intro x t hx
    cases hx
  · intro x hx
    cases hx
  · intro x hx
    exact absurd hx (List.not_mem_nil x)
  · intro C hC
    exact absurd hC (List.not_mem_nil C)
  · intro C hC
    exact absurd hC (List.not_mem_nil C)

/-- After a full run, every node of the graph sits in some component. -/
theorem final_covers (g : List (Nat × List Nat)) (sF : TarjanState)
    (hnd : (g.map Prod.fst).Nodup)
    (hInv : TInv g sF) (hstk : sF.stk = [])
    (hkeys : ∀ id ∈ g.map Prod.fst, (sF.vst.lookup id).isSome = true) :
    ∀ x ∈ nodesOf g, x ∈ sF.res.flatten := by
  have hvis_emit : ∀ x, (sF.vst.lookup x).isSome = true → x ∈ sF.res.flatten := by
    intro x hx
    rcases (hInv.partition x).mp hx with hc | hc
    · rw [hstk] at hc
      exact absurd hc (List.not_mem_nil x)
    · exact hc
  intro x hx
  unfold nodesOf at hx
  rcases List.mem_append.mp hx with hk | hn
  · exact hvis_emit x (hkeys x hk)
  · rw [List.mem_flatten] at hn
    obtain ⟨l, hl, hxl⟩ := hn
    obtain ⟨p, hp, hsnd⟩ := List.mem_map.mp hl
    have hlk : g.lookup p.1 = some p.2 :=
      mem_lookup_of_nodup g p.1 p.2 (by rw [show (p.1, p.2) = p from rfl]; exact hp) hnd
    have hkey : p.1 ∈ g.map Prod.fst := List.mem_map.mpr ⟨p, hp, rfl⟩
    have hpemit : p.1 ∈ sF.res.flatten := hvis_emit p.1 (hkeys p.1 hkey)
    have hnb : x ∈ nbrsOf g p.1 := by
      unfold nbrsOf
      rw [hlk, hsnd]
      exact hxl
    exact hInv.emitClosed p.1 hpemit x hnb

/-- After a full run, the members of components of size at least two are
exactly the transactions mutually reachable with some distinct one. -/
theorem final_bigMembers (g : List (Nat × List Nat)) (sF : TarjanState)
    (hInv : TInv g sF)
    (hcov : ∀ x ∈ nodesOf g, x ∈ sF.res.flatten) :
    ∀ x, x ∈ bigMembers sF.res ↔
      (x ∈ (nodesOf g).dedup ∧ inNontrivialSCC g x = true) := by
  intro x
  constructor
  · intro hx
    unfold bigMembers at hx
    rw [List.mem_flatten] at hx
    obtain ⟨C, hC, hxC⟩ := hx
    rw [List.mem_filter] at hC
    obtain ⟨hCres, hClen⟩ := hC
    rw [decide_eq_true_eq] at hClen
    have hCnodup : C.Nodup := by
      have h1 := hInv.emitNodup
      rw [List.nodup_flatten] at h1
      exact h1.1 C hCres
    have hxemit : x ∈ sF.res.flatten := List.mem_flatten.mpr ⟨C, hCres, hxC⟩
    have hxvis : (sF.vst.lookup x).isSome = true :=
      (hInv.partition x).mpr (Or.inr hxemit)
    have hxnode : x ∈ nodesOf g := hInv.nodesIn x hxvis
    obtain ⟨y, hyC, hyne⟩ := nodup_two_distinct C hClen hCnodup x hxC
    have hynode : y ∈ nodesOf g := by
      have hyemit : y ∈ sF.res.flatten := List.mem_flatten.mpr ⟨C, hCres, hyC⟩
      exact hInv.nodesIn y ((hInv.partition y).mpr (Or.inr hyemit))
    refine ⟨List.mem_dedup.mpr hxnode, ?_⟩
    unfold inNontrivialSCC
    rw [List.any_eq_true]
    refine ⟨y, List.mem_dedup.mpr hynode, ?_⟩
    rw [Bool.and_eq_true, Bool.and_eq_true, decide_eq_true_eq]
    exact ⟨⟨hyne, (reachB_iff g x y).mpr (hInv.emitMutual C hCres x hxC y hyC)⟩,
      (reachB_iff g y x).mpr (hInv.emitMutual C hCres y hyC x hxC)⟩
  · intro ⟨hxnode, hscc⟩
    unfold inNontrivialSCC at hscc
    rw [List.any_eq_true] at hscc
    obtain ⟨u, hu, hprops⟩ := hscc
    rw [Bool.and_eq_true, Bool.and_eq_true, decide_eq_true_eq] at hprops
    obtain ⟨⟨hune, hxu⟩, hux⟩ := hprops
    rw [reachB_iff] at hxu hux
    have hxemit : x ∈ sF.res.flatten := hcov x (List.mem_dedup.mp hxnode)
    rw [List.mem_flatten] at hxemit
    obtain ⟨C, hCres, hxC⟩ := hxemit
    have huC : u ∈ C := hInv.emitMax C hCres x hxC u hxu hux
    have hClen : 1 < C.length := two_mem_length C u x huC hxC hune
    unfold bigMembers
    rw [List.mem_flatten]
    refine ⟨C, ?_, hxC⟩
    rw [List.mem_filter]
    exact ⟨hCres, by rw [decide_eq_true_eq]; exact hClen⟩

/-- Whenever a detector pass completes, it reports as victim exactly the
spec's choice: the maximum over all strongly-connected components of size at
least two of the largest transaction id in the component, and no victim when
no such component exists. -/
theorem HasCycle_victim_of_complete (g : List (Nat × List Nat)) (fuel : Nat)
    (v : Option Nat)
    (hnd : (g.map Prod.fst).Nodup) (h : HasCycle g fuel = some v) :
    v = claimVictim g := by
  unfold HasCycle at h
  cases ht : Tarjan g fuel with
  | none =>
      rw [ht] at h
      cases h
  | some comps =>
      rw [ht] at h
      simp only [Option.some.injEq] at h
      unfold Tarjan at ht
      cases hrun : tarjanRun g fuel (sortNats (g.map Prod.fst))
          ⟨[], [], [], 0, []⟩ with
      | none =>
          rw [hrun] at ht
          cases ht
      | some sF =>
          rw [hrun] at ht
          simp only [Option.some.injEq] at ht
          have hids : ∀ id ∈ sortNats (g.map Prod.fst), id ∈ nodesOf g := by
            intro id hid
            have := (sortNats_mem id (g.map Prod.fst)).mp hid
            unfold nodesOf
            exact List.mem_append_left _ this
          obtain ⟨hInvF, hstkF, _, hvisF⟩ := tarjanRun_spec g fuel
            (sortNats (g.map Prod.fst)) ⟨[], [], [], 0, []⟩ sF
            (TInv_empty g) rfl hids hrun
          have hkeys : ∀ id ∈ g.map Prod.fst, (sF.vst.lookup id).isSome = true := by
            intro id hid
            exact hvisF id ((sortNats_mem id (g.map Prod.fst)).mpr hid)
          have hcov := final_covers g sF hnd hInvF hstkF hkeys
          have hmem := final_bigMembers g sF hInvF hcov
          have hscan := victimScan_spec sF.res none []
            (fun x => List.not_mem_nil x)
          rw [List.nil_append] at hscan
          have hclaim := maxOfList_spec
            ((nodesOf g).dedup.filter (fun t => inNontrivialSCC g t))
          rw [← h, ← ht]
          refine IsMaxOf_unique _ _ _ _ hscan hclaim ?_
          intro x
          rw [hmem x, List.mem_filter]

/-- C6: a single detector pass over a waits-for graph with duplicate-free
keys terminates (some fuel completes it and then reports the spec's victim),
and every completed pass chooses as victim exactly the maximum over all
strongly-connected components of size at least two of the largest
transaction id in the component — no victim when no such component exists. -/
theorem HasCycle_victim (g : List (Nat × List Nat))
    (hnd : (g.map Prod.fst).Nodup) :
    (∃ fuel, HasCycle g fuel = some (claimVictim g)) ∧
    (∀ fuel v, HasCycle g fuel = some v → v = claimVictim g) := by
  refine ⟨?_, fun fuel v h => HasCycle_victim_of_complete g fuel v hnd h⟩
  obtain ⟨fuel, sF, hrun⟩ := tarjanRun_ex g (sortNats (g.map Prod.fst))
    ⟨[], [], [], 0, []⟩ (fun id hid => by
      unfold nodesOf
      exact List.mem_append_left _ ((sortNats_mem id (g.map Prod.fst)).mp hid))
  have hH : HasCycle g fuel = some (victimScan sF.res) := by
    unfold HasCycle Tarjan
    rw [hrun]
  have hv := HasCycle_victim_of_complete g fuel (victimScan sF.res) hnd hH
  rw [hv] at hH
  exact ⟨fuel, hH⟩

/-- Witness for C6: on a waits-for graph with two 2-cycles the keys are
duplicate-free, the spec's victim is transaction 6, and the detector both
terminates with that victim and reports it on every completed pass. -/
theorem HasCycle_victim_witness :
    ((([(1, [2]), (2, [1]), (5, [6]), (6, [5])] :
        List (Nat × List Nat)).map Prod.fst).Nodup ∧
      claimVictim [(1, [2]), (2, [1]), (5, [6]), (6, [5])] = some 6) ∧
    ((∃ fuel, HasCycle [(1, [2]), (2, [1]), (5, [6]), (6, [5])] fuel =
        some (claimVictim [(1, [2]), (2, [1]), (5, [6]), (6, [5])])) ∧
      (∀ fuel v, HasCycle [(1, [2]), (2, [1]), (5, [6]), (6, [5])] fuel = some v →
        v = claimVictim [(1, [2]), (2, [1]), (5, [6]), (6, [5])])) :=
  ⟨⟨by decide, by decide⟩,
    HasCycle_victim [(1, [2]), (2, [1]), (5, [6]), (6, [5])] (by decide)⟩

end BusTubSpec
